import Mathlib

/-!
Verification of the pinto repository's core logic against its specification.

Texts are modelled as `List Char`.  Python string primitives used by the
source (`str.splitlines`, `str.rstrip`, `str.split`, `re` character classes)
are translated explicitly.  Machine reals (`float`) are modelled as `ℚ`;
every claim settled below only evaluates them at decimal values on which
IEEE-754 doubles and exact rationals agree, as noted at each definition.
-/

namespace Pinto

/-- Python whitespace: the full set of code points matched by `str.isspace`
/ regex `\s` on `str` patterns, and stripped or split on by `str.strip`,
`str.split` and `float()`. -/
def isPySpace (c : Char) : Bool :=
  c = ' ' ∨ c = '\t' ∨ c = '\n' ∨ c = '\x0d' ∨ c = '\x0b' ∨ c = '\x0c' ∨
  c = '\x1c' ∨ c = '\x1d' ∨ c = '\x1e' ∨ c = '\x1f' ∨ c = '\x85' ∨
  c = '\xa0' ∨ c = '\u2028' ∨ c = '\u2029' ∨
  c = '\u1680' ∨ c = '\u2000' ∨ c = '\u2001' ∨ c = '\u2002' ∨ c = '\u2003' ∨
  c = '\u2004' ∨ c = '\u2005' ∨ c = '\u2006' ∨ c = '\u2007' ∨ c = '\u2008' ∨
  c = '\u2009' ∨ c = '\u200a' ∨ c = '\u202f' ∨ c = '\u205f' ∨ c = '\u3000'

/-- Line-break characters of Python `str.splitlines` (besides the two-char
sequence CR LF which is handled separately). -/
def isLineSep (c : Char) : Bool :=
  c = '\n' ∨ c = '\x0d' ∨ c = '\x0b' ∨ c = '\x0c' ∨
  c = '\x1c' ∨ c = '\x1d' ∨ c = '\x1e' ∨ c = '\x85' ∨
  c = '\u2028' ∨ c = '\u2029'

/-- Python `str.splitlines()` (with `keepends=False`): split at every
line-break character, treating CR LF as a single break, and do not emit a
final empty line after a trailing break. -/
def pySplitlines : List Char → List (List Char)
  | [] => []
  | '\x0d' :: '\n' :: cs => [] :: pySplitlines cs
  | c :: cs =>
    if isLineSep c then [] :: pySplitlines cs
    else
      match pySplitlines cs with
      | [] => [[c]]
      | l :: ls => (c :: l) :: ls

/-- Python `str.rstrip()`: drop trailing whitespace. -/
def pyRstrip (s : List Char) : List Char :=
  (s.reverse.dropWhile isPySpace).reverse

/-- The characters collapsed by the sanity check in
`format.align_beancount` (the regex `[ \t\n]+`). -/
def isColWs (c : Char) : Bool :=
  c = ' ' ∨ c = '\t' ∨ c = '\n'

/-- Replace every maximal run of `[ \t\n]` characters by a single space
(the effect of `re.sub(r"[ \t\n]+", " ", s)`). -/
def subWsRuns : List Char → List Char
  | [] => []
  | c :: cs =>
    if isColWs c then
      match cs with
      | [] => [' ']
      | c2 :: _ => if isColWs c2 then subWsRuns cs else ' ' :: subWsRuns cs
    else c :: subWsRuns cs

/-- The whitespace-collapsed form compared by the self-check in
`format.align_beancount`: `re.sub(r"[ \t\n]+", " ", contents.rstrip())`. -/
def collapseWs (s : List Char) : List Char :=
  subWsRuns (pyRstrip s)

/-- Maximal runs of characters not satisfying `p`, in order (the list
returned by Python `str.split()` when `p` selects whitespace). -/
def wordsBy (p : Char → Bool) : List Char → List (List Char)
  | [] => []
  | c :: cs =>
    if p c then wordsBy p cs
    else
      match cs with
      | [] => [[c]]
      | c2 :: _ =>
        if p c2 then [c] :: wordsBy p cs
        else
          match wordsBy p cs with
          | w :: ws => (c :: w) :: ws
          | [] => [[c]]

/-- Maximal runs of non-`[ \t\n]` characters, in order (used to reason
about `collapseWs`). -/
def colWords : List Char → List (List Char) :=
  wordsBy isColWs

/-- Python `str.split()` with no arguments: split on whitespace runs,
discarding empty strings. -/
def pySplitWs : List Char → List (List Char) :=
  wordsBy isPySpace

/-- A run of `n` spaces (Python `" " * n`; for negative counts Python
yields the empty string, matched here by truncated `Nat` subtraction at
call sites). -/
def spaces (n : Nat) : List Char :=
  List.replicate n ' '

/-- Join lines, terminating every line with a newline; this is how both
branches of `align_beancount` assemble their output
(`output.write(line); output.write("\n")`). -/
def joinLines (ls : List (List Char)) : List Char :=
  ls.foldr (fun l acc => l ++ '\n' :: acc) []

/-! Character classes of the regexes used in `pinto/format.py`.  The two
constants imported there from beancount (`amount.CURRENCY_RE` and
`account.ACCOUNT_RE`) are the beancount v2 definitions
`[A-Z][A-Z0-9'._-]{0,22}[A-Z0-9]` and
`[A-Z][A-Za-z0-9-]*(:[A-Z0-9][A-Za-z0-9-]*)+`. -/

/-- ASCII uppercase letter (regex `[A-Z]`). -/
def isUpper (c : Char) : Bool :=
  'A' ≤ c ∧ c ≤ 'Z'

/-- ASCII digit (regex `\d`, ASCII range). -/
def isDigit (c : Char) : Bool :=
  '0' ≤ c ∧ c ≤ '9'

/-- Character of the number regex `[\d,]`. -/
def isDigitComma (c : Char) : Bool :=
  isDigit c ∨ c = ','

/-- Regex word character `\w` (ASCII range), used for `\b`. -/
def isWordChar (c : Char) : Bool :=
  isUpper c ∨ isDigit c ∨ ('a' ≤ c ∧ c ≤ 'z') ∨ c = '_'

/-- Inner character of beancount's `CURRENCY_RE`: `[A-Z0-9'._-]`. -/
def isCurrencyInner (c : Char) : Bool :=
  isUpper c ∨ isDigit c ∨ c = '\'' ∨ c = '.' ∨ c = '_' ∨ c = '-'

/-- Final character of `CURRENCY_RE`: `[A-Z0-9]`. -/
def isUpperDigit (c : Char) : Bool :=
  isUpper c ∨ isDigit c

/-- Word boundary `\b` holds after a word character when the remaining
text does not begin with another word character. -/
def boundaryOk (s : List Char) : Bool :=
  match s with
  | [] => true
  | c :: _ => ¬ isWordChar c

/-- Acceptance of `[A-Z0-9'._-]{0,fuel}[A-Z0-9]\b` at the front of `s`
(backtracking search of the Python engine, as a simple disjunction). -/
def currencyTail (fuel : Nat) : List Char → Bool
  | [] => false
  | c :: rest =>
    (isUpperDigit c && boundaryOk rest) ||
    (match fuel with
     | 0 => false
     | fuel1 + 1 => isCurrencyInner c && currencyTail fuel1 rest)

/-- Acceptance of beancount's `CURRENCY_RE` followed by `\b` at the front
of `s` (the head of group 3 of the number-line regex). -/
def isCurrencyStart (s : List Char) : Bool :=
  match s with
  | [] => false
  | c :: cs => isUpper c && currencyTail 22 cs

/-- Character of an account component: `[A-Za-z0-9-]`. -/
def isAccChar (c : Char) : Bool :=
  isUpper c ∨ isDigit c ∨ ('a' ≤ c ∧ c ≤ 'z') ∨ c = '-'

/-- Acceptance of beancount's `ACCOUNT_RE` at the front of `s`: an
uppercase-led component, a colon, and a `[A-Z0-9]`-led component (further
components are absorbed by the `.*` that follows the account in the
normalization regex, so acceptance only needs the first two). -/
def isAccountStart (s : List Char) : Bool :=
  match s with
  | [] => false
  | c :: cs =>
    isUpper c &&
    (match cs.dropWhile isAccChar with
     | ':' :: d :: _ => isUpperDigit d
     | _ => false)

/-- Group 2 of the number-line regex, `[-+]?\s*[\d,]+(?:\.\d*)?`, parsed
at the front of `s`; returns the captured number and the remaining text.
The greedy/backtracking behaviour of the Python engine is deterministic
here, as each subterm's character class is disjoint from its successor's
first character. -/
def parseNumber (s : List Char) : Option (List Char × List Char) :=
  let sgn : List Char × List Char :=
    match s with
    | c :: cs => if c = '-' ∨ c = '+' then ([c], cs) else ([], s)
    | [] => ([], s)
  let wsn := sgn.2.takeWhile isPySpace
  let s2 := sgn.2.dropWhile isPySpace
  let ds := s2.takeWhile isDigitComma
  if ds.isEmpty then none
  else
    match s2.dropWhile isDigitComma with
    | c :: s4 =>
      if c = '.' then
        let fs := s4.takeWhile isDigit
        some (sgn.1 ++ wsn ++ ds ++ '.' :: fs, s4.dropWhile isDigit)
      else some (sgn.1 ++ wsn ++ ds, c :: s4)
    | [] => some (sgn.1 ++ wsn ++ ds, [])

/-- The part of `parseNumber` after the optional sign (`\s*[\d,]+(?:\.\d*)?`
with the sign characters `sg` already consumed); `parseNumber` is exactly
this applied to the text after the sign (`parseNumber_eq`). -/
def numTail (sg rest : List Char) : Option (List Char × List Char) :=
  let wsn := rest.takeWhile isPySpace
  let s2 := rest.dropWhile isPySpace
  let ds := s2.takeWhile isDigitComma
  if ds.isEmpty then none
  else
    match s2.dropWhile isDigitComma with
    | c :: s4 =>
      if c = '.' then
        let fs := s4.takeWhile isDigit
        some (sg ++ wsn ++ ds ++ '.' :: fs, s4.dropWhile isDigit)
      else some (sg ++ wsn ++ ds, c :: s4)
    | [] => some (sg ++ wsn ++ ds, [])

/-- Attempt the tail of the number-line regex,
`\s+([-+]?\s*[\d,]+(?:\.\d*)?)\s+(CURRENCY\b.*)`, at the front of `s`;
returns the captured number and the captured rest (which starts at the
currency and runs to the end of the line). -/
def tryParseAt (s : List Char) : Option (List Char × List Char) :=
  let w1 := s.takeWhile isPySpace
  if w1.isEmpty then none
  else
    match parseNumber (s.dropWhile isPySpace) with
    | none => none
    | some (n, s2) =>
      let w2 := s2.takeWhile isPySpace
      if w2.isEmpty then none
      else
        let s3 := s2.dropWhile isPySpace
        if isCurrencyStart s3 then some (n, s3) else none

/-- Scan of `re.match` for the number-line regex
`([^";]*?)\s+([-+]?\s*[\d,]+(?:\.\d*)?)\s+(CURRENCY\b.*)`: the non-greedy
first group takes the shortest prefix (without `"` or `;`) at which the
rest of the pattern succeeds.  `acc` is the reversed prefix scanned so
far. -/
def matchNumberAux : List Char → List Char → Option (List Char × List Char × List Char)
  | acc, s =>
    match tryParseAt s with
    | some (n, r) => some (acc.reverse, n, r)
    | none =>
      match s with
      | [] => none
      | c :: cs =>
        if c = '"' ∨ c = ';' then none
        else matchNumberAux (c :: acc) cs

/-- Matching one line against the number-line regex of
`align_beancount`; returns the three captured groups. -/
def matchNumberLine (l : List Char) : Option (List Char × List Char × List Char) :=
  matchNumberAux [] l

/-- Shape of the number captured by group 2 of the number-line regex when
matched at a non-whitespace position: an optional sign, whitespace only
after a sign, a nonempty run of digits/commas, and an optional fraction
part led by a dot. -/
def NumShape (n : List Char) : Prop :=
  ∃ sg wsn ds fr,
    n = sg ++ wsn ++ ds ++ fr ∧
    ((sg = [] ∧ wsn = []) ∨
      (∃ c, (c = '-' ∨ c = '+') ∧ sg = [c] ∧ ∀ d ∈ wsn, isPySpace d = true)) ∧
    ds ≠ [] ∧ (∀ d ∈ ds, isDigitComma d = true) ∧
    (fr = [] ∨ ∃ fs, fr = '.' :: fs ∧ ∀ d ∈ fs, isDigit d = true)

/-- Whitespace accepted before an account name by the normalization regex
`([ \t]+)(ACCOUNT.*)`. -/
def isIndentWs (c : Char) : Bool :=
  c = ' ' ∨ c = '\t'

/-- Normalization of one prefix by `normalize_indent_whitespace`: a prefix
of the form `[ \t]+` + account text is rewritten to `indent` spaces + the
account text; other prefixes are unchanged. -/
def normPfx (indent : Nat) (p : List Char) : List Char :=
  let w := p.takeWhile isIndentWs
  let g2 := p.dropWhile isIndentWs
  if ¬ w.isEmpty ∧ isAccountStart g2 then spaces indent ++ g2 else p

/-- One entry of the `match_pairs` list of `align_beancount`: the prefix,
and the number/rest groups when the line matched. -/
def linePair (l : List Char) : List Char × Option (List Char × List Char) :=
  match matchNumberLine l with
  | some (p, n, r) => (p, some (n, r))
  | none => (l, none)

/-- The `match_pairs` list computed by `align_beancount`. -/
def matchPairs (contents : List Char) : List (List Char × Option (List Char × List Char)) :=
  (pySplitlines contents).map linePair

/-- Translation of `normalize_indent_whitespace`: adjust every prefix. -/
def normalizeIndent (indent : Nat) (pairs : List (List Char × Option (List Char × List Char))) :
    List (List Char × Option (List Char × List Char)) :=
  pairs.map (fun pr => (normPfx indent pr.1, pr.2))

/-- Output line of the currency-column branch: matched lines become
`prefix + " " * (currency_column - len(prefix) - len(number) - 4) + "  " +
number + " " + rest`; unmatched lines pass through. -/
def renderCurrency (cc : Nat) (pr : List Char × Option (List Char × List Char)) : List Char :=
  match pr.2 with
  | none => pr.1
  | some (n, r) => pr.1 ++ spaces (cc - pr.1.length - n.length - 4) ++ ' ' :: ' ' :: (n ++ ' ' :: r)

/-- Python `"{:<w}".format(s)`: pad on the right to width `w` (never
truncates). -/
def padRightTo (w : Nat) (s : List Char) : List Char :=
  s ++ spaces (w - s.length)

/-- Python `"{:>w}".format(s)`: pad on the left to width `w`. -/
def padLeftTo (w : Nat) (s : List Char) : List Char :=
  spaces (w - s.length) ++ s

/-- Output line of the fixed-width branch: the format string
`"{:<pw}  {:>nw} {}"` applied to `(prefix.rstrip(), number, rest)`;
unmatched lines pass through. -/
def renderFixed (pw nw : Nat) (pr : List Char × Option (List Char × List Char)) : List Char :=
  match pr.2 with
  | none => pr.1
  | some (n, r) => padRightTo pw (pyRstrip pr.1) ++ ' ' :: ' ' :: (padLeftTo nw n ++ ' ' :: r)

/-- Maximum length of the lists in `ls` (0 when empty, like the guarded
`max` computation in the source). -/
def maxLen (ls : List (List Char)) : Nat :=
  ls.foldr (fun l m => max l.length m) 0

/-- Translation of `pinto.format.align_beancount`.  Parameters follow the
source signature with Python falsy values (`None`/`0`) rendered as `0`.
The result is `none` exactly when the fixed-width branch's
`assert old_stripped == new_stripped` fails (`AssertionError`); the
currency-column branch returns before the assert runs. -/
def align_beancount (pw nw cc iw : Nat) (contents : List Char) : Option (List Char) :=
  let pairs := matchPairs contents
  let norm := normalizeIndent iw pairs
  if cc ≠ 0 then some (joinLines (norm.map (renderCurrency cc)))
  else
    let filtered := pairs.filterMap (fun pr => pr.2.map (fun nr => (pr.1, nr.1)))
    let maxP := if pw ≠ 0 then pw else maxLen (filtered.map Prod.fst)
    let maxN := if nw ≠ 0 then nw else maxLen (filtered.map Prod.snd)
    let out := joinLines (norm.map (renderFixed maxP maxN))
    if collapseWs contents = collapseWs out then some out else none

/-- The currency-column branch of `align_beancount` as a total function
(this branch never raises). -/
def alignCC (cc iw : Nat) (contents : List Char) : List Char :=
  joinLines ((normalizeIndent iw (matchPairs contents)).map (renderCurrency cc))

/-- The fixed-width branch's output text (before the self-check decides
whether to return it). -/
def alignFixedOut (pw nw iw : Nat) (contents : List Char) : List Char :=
  let pairs := matchPairs contents
  let filtered := pairs.filterMap (fun pr => pr.2.map (fun nr => (pr.1, nr.1)))
  let maxP := if pw ≠ 0 then pw else maxLen (filtered.map Prod.fst)
  let maxN := if nw ≠ 0 then nw else maxLen (filtered.map Prod.snd)
  joinLines ((normalizeIndent iw pairs).map (renderFixed maxP maxN))

/-- The number column width the fixed-width branch computes when
`num_width` is falsy: the longest captured number group. -/
def numWidth (contents : List Char) : Nat :=
  maxLen (((matchPairs contents).filterMap
    (fun pr => pr.2.map (fun nr => (pr.1, nr.1)))).map Prod.snd)

/-- Does the text begin with a `[ \t\n]` character?  (The collapsed form
of a text is determined by this flag and its `colWords`.) -/
def wsLead (s : List Char) : Bool :=
  match s with
  | c :: _ => isColWs c
  | [] => false

/-- Join pieces with a single separator character between them. -/
def interBy (d : Char) : List (List Char) → List Char
  | [] => []
  | [w] => w
  | w :: ws => w ++ d :: interBy d ws

/-- Canonical collapsed form: nothing for an all-whitespace text,
otherwise an optional leading space and the words joined by single
spaces. -/
def wsCanon (s : List Char) : List Char :=
  if colWords s = [] then []
  else (if wsLead s then [' '] else []) ++ interBy ' ' (colWords s)

/-! Translation of `pinto/tools.py`: `ranked_set`, the insertion-point
computation `AccountHandler._new_transaction_lineno`, and the parsers
`parse_fraction` / `parse_payment` / `parse_split`. -/

/-- Distinct elements of `items` in order of first appearance: the
iteration order of `collections.Counter(items)` (a dict preserving the
insertion order of keys). -/
def firstKeys {α : Type} [DecidableEq α] : List α → List α
  | [] => []
  | a :: as => a :: firstKeys (as.filter (fun b => b ≠ a))
termination_by l => l.length
decreasing_by
  simp only [List.length_cons]
  exact Nat.lt_succ_of_le (List.length_filter_le _ _)

/-- Insert `a` into a list sorted by strictly decreasing preference on
key `k`, after every element of key ≥ `k a` (the placement a stable
descending sort gives an element arriving after the listed ones). -/
def insertByKeyDesc {α : Type} (k : α → Nat) (a : α) : List α → List α
  | [] => [a]
  | b :: bs => if k b ≤ k a then a :: b :: bs else b :: insertByKeyDesc k a bs

/-- Stable sort by descending key: the semantics of Python
`sorted(xs, key=k, reverse=True)` (Timsort is stable, and `reverse=True`
preserves the original order of equal keys). -/
def sortByKeyDesc {α : Type} (k : α → Nat) : List α → List α
  | [] => []
  | a :: as => insertByKeyDesc k a (sortByKeyDesc k as)

/-- Translation of `pinto.tools.ranked_set`:
`sorted(Counter(items), key=counts.get, reverse=True)` — the distinct
items, ranked by descending number of occurrences, ties in first-appearance
order. -/
def ranked_set {α : Type} [DecidableEq α] (items : List α) : List α :=
  sortByKeyDesc (fun a => items.count a) (firstKeys items)

/-- The data `_new_transaction_lineno` reads off an existing transaction:
its date (dates form a total order; modelled as `Int` day numbers), its
starting line number `meta["lineno"]`, and its serialised text (the
result of `printer.format_entry`, opaque here). -/
structure Txn where
  date : Int
  lineno : Nat
  serialised : List Char

/-- Loop of `_new_transaction_lineno`: return the `lineno` of the first
transaction whose date strictly exceeds `tdate`; when the loop completes,
the Python fallback reads the loop variable, which still holds the last
transaction — and raises `UnboundLocalError` if there was none (modelled
as `none`). -/
def newTxnGo (tdate : Int) : Option Txn → List Txn → Option Nat
  | last, [] =>
    match last with
    | none => none
    | some t => some (t.lineno + (pySplitlines t.serialised).length)
  | _, t :: rest => if tdate < t.date then some t.lineno else newTxnGo tdate (some t) rest

/-- Translation of `AccountHandler._new_transaction_lineno`. -/
def new_transaction_lineno (txns : List Txn) (tdate : Int) : Option Nat :=
  newTxnGo tdate none txns

/-- Value of a digit character. -/
def digitVal (c : Char) : Nat :=
  c.toNat - '0'.toNat

/-- Numeric value of a digit string. -/
def natOfDigits (ds : List Char) : Nat :=
  ds.foldl (fun n c => 10 * n + digitVal c) 0

/-- Scale a rational by a signed power of ten. -/
def scalePow10 (q : ℚ) (e : Int) : ℚ :=
  if 0 ≤ e then q * (10 : ℚ) ^ e.toNat else q / (10 : ℚ) ^ (-e).toNat

/-- Whitespace stripped by CPython numeric conversion (`float()`): every
Python whitespace character except the separator controls `\x1c`-`\x1f`,
which `float()` rejects (unlike `str.strip`/`str.split`). -/
def isFloatWs (c : Char) : Bool :=
  isPySpace c ∧ ¬ (c = '\x1c' ∨ c = '\x1d' ∨ c = '\x1e' ∨ c = '\x1f')

/-- Underscore handling of CPython numeric conversion: every `_` must sit
between two digits and is removed; otherwise the conversion fails.  The
flag records whether the previous character was a digit. -/
def remUnderscores : Bool → List Char → Option (List Char)
  | _, [] => some []
  | prev, '_' :: rest =>
    if prev then
      match rest with
      | d :: _ => if isDigit d then remUnderscores false rest else none
      | [] => none
    else none
  | _, c :: rest => (remUnderscores (isDigit c) rest).map (fun l => c :: l)

/-- ASCII lowercasing, for the case-insensitive `inf`/`infinity`/`nan`
forms of `float()`. -/
def asciiLower (c : Char) : Char :=
  if 'A' ≤ c ∧ c ≤ 'Z' then Char.ofNat (c.toNat + 32) else c

/-- The non-finite spellings accepted by `float()` after the optional
sign. -/
def isNonfinStr (t : List Char) : Bool :=
  let l := t.map asciiLower
  l = ['i', 'n', 'f'] ∨ l = ['i', 'n', 'f', 'i', 'n', 'i', 't', 'y'] ∨ l = ['n', 'a', 'n']

/-- Result of a successful `float()` call: a finite value (kept exact in
`ℚ`) or a non-finite one (`inf`, `-inf`, `nan` — indistinguishable for
the comparisons performed by this program, all of which they fail). -/
inductive PyFloatVal
  | fin (q : ℚ)
  | nonfin
deriving DecidableEq, Repr

/-- Model of CPython `float()` on strings: underscore validation and
removal, surrounding-whitespace strip (the `float()` whitespace set),
optional sign, then `inf`/`infinity`/`nan` (case-insensitive) or digits
with an optional fractional part (at least one digit overall) and an
optional exponent.  Digits are modelled in the ASCII range, and the
finite value is kept exact in `ℚ` (no binary rounding). -/
def pyFloat? (s : List Char) : Option PyFloatVal :=
  match remUnderscores false s with
  | none => none
  | some s1 =>
    let t := ((s1.dropWhile isFloatWs).reverse.dropWhile isFloatWs).reverse
    let sgn : ℚ × List Char :=
      match t with
      | '-' :: r => (-1, r)
      | '+' :: r => (1, r)
      | _ => (1, t)
    if isNonfinStr sgn.2 then some PyFloatVal.nonfin
    else
      let ip := sgn.2.takeWhile isDigit
      let r1 := sgn.2.dropWhile isDigit
      let mant : Option (ℚ × List Char) :=
        match r1 with
        | '.' :: r2 =>
          let fp := r2.takeWhile isDigit
          if ip.isEmpty ∧ fp.isEmpty then none
          else
            some ((natOfDigits ip : ℚ) + (natOfDigits fp : ℚ) / (10 : ℚ) ^ fp.length,
                  r2.dropWhile isDigit)
        | _ => if ip.isEmpty then none else some ((natOfDigits ip : ℚ), r1)
      match mant with
      | none => none
      | some (m, rest) =>
        match rest with
        | [] => some (PyFloatVal.fin (sgn.1 * m))
        | c :: r3 =>
          if c = 'e' ∨ c = 'E' then
            let esgn : Int × List Char :=
              match r3 with
              | '-' :: r4 => (-1, r4)
              | '+' :: r4 => (1, r4)
              | _ => (1, r3)
            let eds := esgn.2.takeWhile isDigit
            if eds.isEmpty ∨ ¬ (esgn.2.dropWhile isDigit).isEmpty then none
            else some (PyFloatVal.fin (scalePow10 (sgn.1 * m) (esgn.1 * (natOfDigits eds : Int))))
          else none

/-- Failure cases of `parse_fraction` (`"Invalid fraction"` and
`"Fraction must be between -1 and 1"`). -/
inductive FractionError
  | invalidFraction
  | outOfBounds
deriving DecidableEq, Repr

/-- Translation of `AccountHandler.parse_fraction`: `float()` failure
gives `"Invalid fraction"`; a non-finite value (`inf`/`nan`) fails the
`-1 <= fraction <= 1` check (comparisons with `nan` are false), giving
the bounds error. -/
def parse_fraction (s : List Char) : Except FractionError ℚ :=
  match pyFloat? s with
  | none => Except.error FractionError.invalidFraction
  | some PyFloatVal.nonfin => Except.error FractionError.outOfBounds
  | some (PyFloatVal.fin f) =>
    if -1 ≤ f ∧ f ≤ 1 then Except.ok f else Except.error FractionError.outOfBounds

/-- Failure case of `parse_payment`
(`"Invalid format; must be '<value> <currency>'."`). -/
inductive PaymentError
  | invalidFormat
deriving DecidableEq, Repr

/-- Translation of `AccountHandler.parse_payment`: empty input with
`allow_empty` yields `(None, None)` (modelled as `none`); otherwise
`payment.split()` must produce exactly a value parsed by `float()` and a
currency string. -/
def parse_payment (payment : List Char) (allowEmpty : Bool) :
    Except PaymentError (Option (PyFloatVal × List Char)) :=
  if payment = [] ∧ allowEmpty then Except.ok none
  else
    match pySplitWs payment with
    | [v, c] =>
      match pyFloat? v with
      | some q => Except.ok (some (q, c))
      | none => Except.error PaymentError.invalidFormat
    | _ => Except.error PaymentError.invalidFormat

/-- Failure cases of `parse_split` (`"Invalid split"` and
`"Currency must be ..."`). -/
inductive SplitError
  | invalidSplit
  | currencyMismatch
deriving DecidableEq, Repr

/-- Translation of `AccountHandler.parse_split`: try the spec as a
fraction of `total`; if that raises, parse it as `"<amount> <currency>"`
(with `allow_empty` left at its default `True`), demanding the currency
match.  An empty spec parses to `(None, None)` and `None` never equals
the currency string, hence the mismatch error in that case. -/
def parse_split (split : List Char) (total : ℚ) (totalCurrency : List Char) :
    Except SplitError PyFloatVal :=
  match parse_fraction split with
  | Except.ok f => Except.ok (PyFloatVal.fin (f * total))
  | Except.error _ =>
    match parse_payment split true with
    | Except.error _ => Except.error SplitError.invalidSplit
    | Except.ok none => Except.error SplitError.currencyMismatch
    | Except.ok (some (amt, cur)) =>
      if cur = totalCurrency then Except.ok amt else Except.error SplitError.currencyMismatch

/-! Translation of the posting-emission code in `pinto/__main__.py`
(`_add_linedata` / `_add_splitdata`) and its rounding. -/

/-- Floor of a rational as an integer (`Int.fdiv` is floor division). -/
def ratFloor (q : ℚ) : ℤ :=
  Int.fdiv q.num q.den

/-- Round a rational to the nearest integer, ties to even: the behaviour
of Python `round` (banker's rounding).  Python rounds the IEEE-754 double;
the two agree on every value whose scaled form is exactly representable,
which covers every amount evaluated in this development. -/
def roundHalfEven (q : ℚ) : ℤ :=
  let f := ratFloor q
  let r := q - (f : ℚ)
  if r < 1 / 2 then f
  else if 1 / 2 < r then f + 1
  else if 2 ∣ f then f else f + 1

/-- Python `round(v, 2)` scaled to hundredths. -/
def roundHundredths (v : ℚ) : ℤ :=
  roundHalfEven (v * 100)

/-- Two-digit rendering of `k < 100`. -/
def twoDigits (k : Nat) : List Char :=
  [Nat.digitChar (k / 10), Nat.digitChar (k % 10)]

/-- Decimal digits of `n`, most significant first, accumulated in `acc`;
`fuel` bounds the recursion (any `fuel > n` is enough). -/
def natDigitsGo : Nat → Nat → List Char → List Char
  | 0, _, acc => acc
  | fuel + 1, n, acc =>
    if n = 0 then acc else natDigitsGo fuel (n / 10) (Nat.digitChar (n % 10) :: acc)

/-- Decimal rendering of a natural number, `"0"` for zero. -/
def natDigits (n : Nat) : List Char :=
  if n = 0 then ['0'] else natDigitsGo (n + 1) n []

/-- Fixed-point rendering of `m` hundredths with two decimals: the string
`f"{x:.2f}"` for `x = m / 100` (negative zero of floats is not modelled;
no claim below evaluates a negative value rounding to zero). -/
def fmtFixed2 (m : ℤ) : List Char :=
  (if m < 0 then ['-'] else []) ++
    natDigits (m.natAbs / 100) ++ '.' :: twoDigits (m.natAbs % 100)

/-- The string `f"{round(v, 2):.2f}"` built by `_add_linedata` and
`_add_splitdata` — both for display and as the `number` handed to
`create_simple_posting`. -/
def roundedValueString (v : ℚ) : List Char :=
  fmtFixed2 (roundHundredths v)

/-- Unsigned part of `fixed2Val?`: digits, a dot, and exactly two more
digits, scaled by the sign `sq`. -/
def fixed2Core (sq : ℚ) (tl : List Char) : Option ℚ :=
  match tl.dropWhile isDigit with
  | c :: d1 :: d2 :: rest =>
    if c ≠ '.' ∨ (tl.takeWhile isDigit).isEmpty ∨ ¬ rest.isEmpty ∨
        ¬ (isDigit d1 ∧ isDigit d2) then none
    else some (sq * ((natOfDigits (tl.takeWhile isDigit) : ℚ) +
      (10 * digitVal d1 + digitVal d2 : ℚ) / 100))
  | _ => none

/-- Numeric value denoted by a fixed-two-decimals string (inverse reading
of `fmtFixed2`, used to state what amount a stored posting carries). -/
def fixed2Val? (s : List Char) : Option ℚ :=
  match s with
  | c :: r => if c = '-' then fixed2Core (-1) r else fixed2Core 1 (c :: r)
  | [] => none

/-- A posting as built by `beancount.core.data.create_simple_posting`:
the account, and the number exactly as the string handed over (beancount
turns it into a `Decimal` with the same value). -/
structure Posting where
  account : List Char
  number : Option (List Char)
  currency : Option (List Char)
deriving DecidableEq, Repr

/-- The warning `echo_warning("Zero value split ignored")`. -/
def zeroSplitWarning : List Char :=
  ('Z' :: "ero value split ignored".toList)

/-- Translation of the tail of `_add_splitdata`: given the computed split
value, either append exactly one posting for the split account (number =
the rounded string) or emit no posting and surface the warning.  Returns
the transaction's postings and the warnings produced. -/
def add_splitdata (postings : List Posting) (saccount : List Char) (svalue : ℚ)
    (tcurrency : List Char) : List Posting × List (List Char) :=
  if svalue ≠ 0 then
    (postings ++ [⟨saccount, some (roundedValueString svalue), some tcurrency⟩], [])
  else (postings, [zeroSplitWarning])

/-- The posting `_add_linedata` appends for a transaction line: the
number stored is `f"{round(tvalue, 2):.2f}"` when a value is present. -/
def linedataPosting (account : List Char) (tvalue : Option ℚ)
    (tcurrency : Option (List Char)) : Posting :=
  ⟨account, tvalue.map roundedValueString, tcurrency⟩

/-! Translation of `AccountHandler.add_entry` (`pinto/tools.py`): the
content splice, and the file-system operations it performs. -/

/-- Python `file.readline()`: the next line including its newline, or the
remainder (possibly empty) at end of file. -/
def readLine (s : List Char) : List Char × List Char :=
  let a := s.takeWhile (fun c => c ≠ '\n')
  match s.dropWhile (fun c => c ≠ '\n') with
  | '\n' :: r => (a ++ ['\n'], r)
  | _ => (a, [])

/-- Splice point after `k` calls to `readline()`: the text read so far
and the rest of the file. -/
def splitAtLine : Nat → List Char → List Char × List Char
  | 0, s => ([], s)
  | k + 1, s =>
    let lr := readLine s
    let pq := splitAtLine k lr.2
    (lr.1 ++ pq.1, pq.2)

/-- A newline-terminated line: a body free of newlines followed by one
newline (the shape of the elements of `str.readlines` on a well-formed
text file). -/
def NlLine (l : List Char) : Prop :=
  ∃ body, (∀ c ∈ body, c ≠ '\n') ∧ l = body ++ ['\n']

/-- Contents written by `add_entry`: the first `insert_lineno - 1` lines
(the loop runs `lineno` from 1 while `lineno < insert_lineno`), then the
serialised entry, then the remainder of the source file (read in 1024-byte
chunks and concatenated verbatim). -/
def add_entry_contents (insertLineno : Nat) (entryText contents : List Char) : List Char :=
  let pq := splitAtLine (insertLineno - 1) contents
  pq.1 ++ entryText ++ pq.2

/-- The file-system operations `add_entry` performs, in order, named
after the calls in the source. -/
inductive FileOp
  | mkTempInParentDir
  | writeTemp
  | flushTemp
  | copyTempToOriginal
  | closeTemp
  | renameTempToOriginal
deriving DecidableEq, Repr

/-- Operation sequence of `add_entry`: `NamedTemporaryFile(dir=parent)`,
the write loop, `flush()`, `shutil.copyfile(temp, original)`,
`close()` (which deletes the temporary file).  No rename is performed. -/
def add_entry_ops : List FileOp :=
  [FileOp.mkTempInParentDir, FileOp.writeTemp, FileOp.flushTemp,
   FileOp.copyTempToOriginal, FileOp.closeTemp]

/-- Copy buffer size used by `shutil.copyfile` on POSIX. -/
def copyChunk : Nat :=
  65536

/-- Contents visible at the destination path while `shutil.copyfile`
runs: the destination is opened for truncating write (state `[]`) and the
source is streamed in `copyChunk`-byte chunks. -/
def copyfileStates (dst : List Char) : List (List Char) :=
  (List.range (dst.length / copyChunk + 2)).map (fun i => dst.take (i * copyChunk))

/-- Contents visible at the transactions file during `add_entry`: the
original text up to the `copyfile` call, then every intermediate state of
the copy. -/
def add_entry_originalStates (contents : List Char) (insertLineno : Nat)
    (entryText : List Char) : List (List Char) :=
  contents :: copyfileStates (add_entry_contents insertLineno entryText contents)

/-! Generic helper lemmas. -/

theorem takeWhile_append_stop (p : Char → Bool) (xs : List Char) (y : Char) (ys : List Char)
    (hxs : ∀ c ∈ xs, p c = true) (hy : p y = false) :
    (xs ++ y :: ys).takeWhile p = xs := by
  induction xs with
  | nil => simp [List.takeWhile_cons, hy]
  | cons a as ih =>
    have ha : p a = true := hxs a (by simp)
    simp only [List.cons_append, List.takeWhile_cons, ha, if_true]
    simp [ih (fun c hc => hxs c (by simp [hc]))]

theorem dropWhile_append_stop (p : Char → Bool) (xs : List Char) (y : Char) (ys : List Char)
    (hxs : ∀ c ∈ xs, p c = true) (hy : p y = false) :
    (xs ++ y :: ys).dropWhile p = y :: ys := by
  induction xs with
  | nil => simp [List.dropWhile_cons, hy]
  | cons a as ih =>
    have ha : p a = true := hxs a (by simp)
    simp only [List.cons_append, List.dropWhile_cons, ha, if_true]
    exact ih (fun c hc => hxs c (by simp [hc]))

theorem takeWhile_all (p : Char → Bool) (xs : List Char) (hxs : ∀ c ∈ xs, p c = true) :
    xs.takeWhile p = xs := by
  induction xs with
  | nil => rfl
  | cons a as ih =>
    have ha : p a = true := hxs a (by simp)
    simp [List.takeWhile_cons, ha, ih (fun c hc => hxs c (by simp [hc]))]

theorem dropWhile_all (p : Char → Bool) (xs : List Char) (hxs : ∀ c ∈ xs, p c = true) :
    xs.dropWhile p = [] := by
  induction xs with
  | nil => rfl
  | cons a as ih =>
    have ha : p a = true := hxs a (by simp)
    simp [List.dropWhile_cons, ha, ih (fun c hc => hxs c (by simp [hc]))]

/-! Claim C1: insertion point for a new entry
(`AccountHandler._new_transaction_lineno`). -/

theorem newTxnGo_found (tdate : Int) (txns : List Txn) (t : Txn)
    (h : txns.find? (fun u => decide (tdate < u.date)) = some t) :
    ∀ last, newTxnGo tdate last txns = some t.lineno := by
  induction txns with
  | nil => simp at h
  | cons u rest ih =>
    intro last
    rcases hd : decide (tdate < u.date) with _ | _
    · simp only [List.find?_cons, hd] at h
      have hnot : ¬ tdate < u.date := of_decide_eq_false hd
      simp only [newTxnGo, if_neg hnot]
      exact ih h (some u)
    · simp only [List.find?_cons, hd] at h
      cases h
      have hlt : tdate < t.date := of_decide_eq_true hd
      simp [newTxnGo, hlt]

theorem newTxnGo_not_found (tdate : Int) (txns : List Txn) (t : Txn)
    (hfind : txns.find? (fun u => decide (tdate < u.date)) = none)
    (hlast : txns.getLast? = some t) :
    ∀ last, newTxnGo tdate last txns =
      some (t.lineno + (pySplitlines t.serialised).length) := by
  induction txns with
  | nil => simp at hlast
  | cons u rest ih =>
    intro last
    have hd : decide (tdate < u.date) = false := by
      by_contra hc
      have hc2 : decide (tdate < u.date) = true := by
        simpa using hc
      simp only [List.find?_cons, hc2] at hfind
      exact Option.noConfusion hfind
    have hnot : ¬ tdate < u.date := of_decide_eq_false hd
    simp only [List.find?_cons, hd] at hfind
    simp only [newTxnGo, if_neg hnot]
    cases rest with
    | nil =>
      simp only [List.getLast?_singleton] at hlast
      cases hlast
      rfl
    | cons v vs =>
      rw [List.getLast?_cons_cons] at hlast
      exact ih hfind hlast (some u)

/-- Claim C1 (counterexample): on an empty transaction list there is no
insertion point at all — the loop variable of
`_new_transaction_lineno` is never bound and the fallback line raises
`UnboundLocalError` — whereas the claim promises a line number for an
empty file as well. -/
theorem new_transaction_lineno_empty_counterexample :
    new_transaction_lineno [] 0 = none :=
  rfl

/-- Claim C1 (amended, dropping the empty-file case): for a nonempty
date-ordered transaction list, the computed insertion line is the
starting line of the first transaction (in file order) whose date
strictly exceeds the new date; when there is none — in particular when
the new date equals some existing dates, which are skipped, placing the
entry after the whole equal-date run — it is the last transaction's
starting line plus the line count of its serialised text.  On an empty
list the computation fails instead of returning a line. -/
theorem new_transaction_lineno_spec (txns : List Txn) (tdate : Int)
    (hne : txns ≠ [])
    (_hsorted : txns.Chain' (fun a b => a.date ≤ b.date)) :
    (∀ t, txns.find? (fun u => decide (tdate < u.date)) = some t →
        new_transaction_lineno txns tdate = some t.lineno) ∧
    (txns.find? (fun u => decide (tdate < u.date)) = none →
        ∃ t, txns.getLast? = some t ∧
          new_transaction_lineno txns tdate =
            some (t.lineno + (pySplitlines t.serialised).length)) := by
  constructor
  · intro t ht
    exact newTxnGo_found tdate txns t ht none
  · intro hnone
    obtain ⟨t, ht⟩ := Option.ne_none_iff_exists'.mp
      (mt List.getLast?_eq_none_iff.mp hne)
    exact ⟨t, ht, newTxnGo_not_found tdate txns t hnone ht none⟩

/-- Witness for `new_transaction_lineno_spec` at a concrete ledger. -/
theorem new_transaction_lineno_spec_witness :
    new_transaction_lineno
      [⟨5, 1, ('d' :: "ate5\n".toList)⟩, ⟨7, 3, ('d' :: "ate7\nx\n".toList)⟩] 6 = some 3 := by
  exact (new_transaction_lineno_spec
      [⟨5, 1, ('d' :: "ate5\n".toList)⟩, ⟨7, 3, ('d' :: "ate7\nx\n".toList)⟩] 6
      (by simp) (by simp [List.chain'_cons])).1
    ⟨7, 3, ('d' :: "ate7\nx\n".toList)⟩ (by with_unfolding_all rfl)

/-! Claim C9: zero-valued splits emit no posting and surface a warning;
nonzero splits add exactly one posting (`_add_splitdata`). -/

/-- Claim C9: a split whose computed value is exactly zero adds no
posting and produces the warning; a nonzero split appends exactly one
posting, for the split account, to the transaction. -/
theorem add_splitdata_zero_policy (postings : List Posting) (saccount : List Char)
    (svalue : ℚ) (tcurrency : List Char) :
    (svalue = 0 →
      (add_splitdata postings saccount svalue tcurrency).1 = postings ∧
      (add_splitdata postings saccount svalue tcurrency).2 = [zeroSplitWarning]) ∧
    (svalue ≠ 0 →
      ∃ p, (add_splitdata postings saccount svalue tcurrency).1 = postings ++ [p] ∧
        p.account = saccount ∧
        (add_splitdata postings saccount svalue tcurrency).2 = []) := by
  constructor
  · intro h
    simp [add_splitdata, h]
  · intro h
    refine ⟨⟨saccount, some (roundedValueString svalue), some tcurrency⟩, ?_, rfl, ?_⟩ <;>
      simp [add_splitdata, h]

/-- Witness for `add_splitdata_zero_policy` at value zero. -/
theorem add_splitdata_zero_policy_witness :
    (add_splitdata [] ('A' :: "ssets:A".toList) 0 ('U' :: "SD".toList)).1 = [] :=
  ((add_splitdata_zero_policy [] ('A' :: "ssets:A".toList) 0 ('U' :: "SD".toList)).1 rfl).1

/-! Claim C8: inserting an entry changes no line outside the inserted
span (`AccountHandler.add_entry` content splice). -/

theorem splitAtLine_nil (k : Nat) : splitAtLine k [] = ([], []) := by
  induction k with
  | zero => rfl
  | succ k ih => simp [splitAtLine, readLine, ih]

theorem readLine_line (body rest : List Char) (hb : ∀ c ∈ body, c ≠ '\n') :
    readLine (body ++ '\n' :: rest) = (body ++ ['\n'], rest) := by
  unfold readLine
  rw [takeWhile_append_stop _ body '\n' rest
      (fun c hc => by simpa using hb c hc) (by simp),
    dropWhile_append_stop _ body '\n' rest
      (fun c hc => by simpa using hb c hc) (by simp)]
  rfl

theorem splitAtLine_join (m : Nat) (lines : List (List Char))
    (h : ∀ l ∈ lines, NlLine l) :
    splitAtLine m lines.flatten = ((lines.take m).flatten, (lines.drop m).flatten) := by
  induction m generalizing lines with
  | zero => simp [splitAtLine]
  | succ m ih =>
    cases lines with
    | nil => simpa using splitAtLine_nil (m + 1)
    | cons l rest =>
      obtain ⟨body, hbody, rfl⟩ := h l (by simp)
      have hread : readLine ((body ++ ['\n']) ++ rest.flatten) = (body ++ ['\n'], rest.flatten) := by
        rw [List.append_assoc]
        exact readLine_line body rest.flatten hbody
      simp only [splitAtLine, List.flatten_cons, List.append_assoc, List.singleton_append] at hread ⊢
      rw [hread, ih rest (fun l hl => h l (by simp [hl]))]
      simp [List.take_succ_cons, List.drop_succ_cons]

/-- Claim C8: for every file given as newline-terminated lines and every
insertion line `k ≥ 1`, `add_entry` produces exactly the lines before
`k`, the serialised entry text, and the remaining lines — all existing
lines byte-for-byte unchanged, with no reformatting. -/
theorem add_entry_frame_spec (lines : List (List Char)) (k : Nat) (entry : List Char)
    (_hk : 1 ≤ k) (h : ∀ l ∈ lines, NlLine l) :
    add_entry_contents k entry lines.flatten =
      (lines.take (k - 1)).flatten ++ entry ++ (lines.drop (k - 1)).flatten := by
  unfold add_entry_contents
  rw [splitAtLine_join (k - 1) lines h]

/-- Witness for `add_entry_frame_spec` at a concrete file. -/
theorem add_entry_frame_spec_witness :
    add_entry_contents 2 ('N' :: "EW\n".toList) ('a' :: "1\nb2\n".toList) =
      ('a' :: "1\nNEW\nb2\n".toList) := by
  have h := add_entry_frame_spec [('a' :: "1\n".toList), ('b' :: "2\n".toList)] 2
    ('N' :: "EW\n".toList) (by decide)
    (by
      intro l hl
      simp only [List.mem_cons, List.mem_singleton] at hl
      rcases hl with rfl | rfl | h
      · exact ⟨('a' :: "1".toList), by decide, by decide⟩
      · exact ⟨('b' :: "2".toList), by decide, by decide⟩
      · simp at h)
  simpa using h

/-! Claim C2: how `add_entry` replaces the transactions file. -/

/-- Claim C2 (counterexample): `add_entry` replaces the original file
with `shutil.copyfile`, not an atomic rename: no rename operation is
performed, and during the copy the original path passes through the
truncated (empty) state, which equals neither the old nor the new
contents — a visible partial write, contradicting the claim. -/
theorem add_entry_atomicity_counterexample :
    FileOp.renameTempToOriginal ∉ add_entry_ops ∧
    ([] : List Char) ∈ add_entry_originalStates ('x' :: "\ny\n".toList) 2 ('e' :: "\n".toList) ∧
    ([] : List Char) ≠ ('x' :: "\ny\n".toList) ∧
    ([] : List Char) ≠ add_entry_contents 2 ('e' :: "\n".toList) ('x' :: "\ny\n".toList) := by
  exact ⟨by decide, by with_unfolding_all decide, by decide, by with_unfolding_all decide⟩

/-- Claim C2 (amended): `add_entry` writes the spliced content to a
temporary file created in the transaction file's own directory, flushes
it, and then replaces the original by copying the bytes over it
(`shutil.copyfile`) — not by rename.  The original is untouched until the
copy begins, and the final visible state is exactly the spliced content;
but the copy truncates and rewrites the original in place, so partial
states are visible while it runs, and an interrupted copy can leave a
partial file. -/
theorem add_entry_copy_replace_spec (contents entry : List Char) (k : Nat) :
    add_entry_ops = [FileOp.mkTempInParentDir, FileOp.writeTemp, FileOp.flushTemp,
      FileOp.copyTempToOriginal, FileOp.closeTemp] ∧
    (add_entry_originalStates contents k entry).head? = some contents ∧
    (add_entry_originalStates contents k entry).getLast? =
      some (add_entry_contents k entry contents) := by
  refine ⟨rfl, rfl, ?_⟩
  unfold add_entry_originalStates copyfileStates
  set dst := add_entry_contents k entry contents with hdst
  rw [List.getLast?_cons, List.getLast?_map, List.getLast?_range]
  rw [if_neg (Nat.succ_ne_zero (dst.length / copyChunk + 1))]
  have htake : dst.take ((dst.length / copyChunk + 2 - 1) * copyChunk) = dst := by
    apply List.take_of_length_le
    simp only [copyChunk]
    omega
  simp [htake]
  simp only [copyChunk]
  omega

/-! Claim C6: the amount stored in an emitted posting. -/

theorem digitChar_spec (k : Nat) (h : k < 10) :
    isDigit (Nat.digitChar k) = true ∧ digitVal (Nat.digitChar k) = k := by
  have hall : ∀ j : Fin 10,
      isDigit (Nat.digitChar j.val) = true ∧ digitVal (Nat.digitChar j.val) = j.val := by decide
  exact hall ⟨k, h⟩

theorem natOfDigits_foldl (ds : List Char) : ∀ i : Nat,
    ds.foldl (fun n c => 10 * n + digitVal c) i = i * 10 ^ ds.length + natOfDigits ds := by
  induction ds with
  | nil => intro i; simp [natOfDigits]
  | cons c ds ih =>
    intro i
    show ds.foldl _ (10 * i + digitVal c) = _
    rw [ih (10 * i + digitVal c)]
    have h2 : natOfDigits (c :: ds) = digitVal c * 10 ^ ds.length + natOfDigits ds := by
      show ds.foldl _ (10 * 0 + digitVal c) = _
      rw [ih (10 * 0 + digitVal c)]
      ring
    rw [h2, List.length_cons, Nat.pow_succ]
    ring

theorem natOfDigits_cons (c : Char) (ds : List Char) :
    natOfDigits (c :: ds) = digitVal c * 10 ^ ds.length + natOfDigits ds := by
  show ds.foldl _ (10 * 0 + digitVal c) = _
  rw [natOfDigits_foldl ds (10 * 0 + digitVal c)]
  ring

theorem natDigitsGo_spec (fuel : Nat) : ∀ (n : Nat) (acc : List Char), n < fuel →
    ∃ ds, natDigitsGo fuel n acc = ds ++ acc ∧ (∀ c ∈ ds, isDigit c = true) ∧
      natOfDigits (ds ++ acc) = n * 10 ^ acc.length + natOfDigits acc ∧
      (n ≠ 0 → ds ≠ []) := by
  induction fuel with
  | zero => intro n acc h; omega
  | succ fuel ih =>
    intro n acc h
    by_cases hn : n = 0
    · exact ⟨[], by simp [natDigitsGo, hn], by simp, by simp [hn], fun hc => absurd hn hc⟩
    · have hlt : n / 10 < fuel := by
        have h1 : n / 10 < n := Nat.div_lt_self (Nat.pos_of_ne_zero hn) (by omega)
        omega
      obtain ⟨ds, hgo, hdig, hval, _⟩ := ih (n / 10) (Nat.digitChar (n % 10) :: acc) hlt
      have hdc := digitChar_spec (n % 10) (Nat.mod_lt _ (by omega))
      refine ⟨ds ++ [Nat.digitChar (n % 10)], ?_, ?_, ?_, by simp⟩
      · rw [natDigitsGo, if_neg hn, hgo]
        simp
      · intro c hc
        rcases List.mem_append.mp hc with hc | hc
        · exact hdig c hc
        · rw [List.mem_singleton.mp hc]; exact hdc.1
      · rw [List.append_assoc, List.singleton_append, hval, natOfDigits_cons, hdc.2,
          List.length_cons, Nat.pow_succ]
        have hdm : 10 * (n / 10) + n % 10 = n := Nat.div_add_mod n 10
        calc n / 10 * (10 ^ acc.length * 10) + (n % 10 * 10 ^ acc.length + natOfDigits acc)
            = (10 * (n / 10) + n % 10) * 10 ^ acc.length + natOfDigits acc := by ring
          _ = n * 10 ^ acc.length + natOfDigits acc := by rw [hdm]

theorem natDigits_spec (n : Nat) :
    natDigits n ≠ [] ∧ (∀ c ∈ natDigits n, isDigit c = true) ∧
      natOfDigits (natDigits n) = n := by
  by_cases hn : n = 0
  · subst hn
    exact ⟨by decide, by decide, by decide⟩
  · unfold natDigits
    rw [if_neg hn]
    obtain ⟨ds, hgo, hdig, hval, hne⟩ := natDigitsGo_spec (n + 1) n [] (by omega)
    rw [hgo]
    simp only [List.append_nil] at hval ⊢
    refine ⟨hne hn, hdig, ?_⟩
    simpa [natOfDigits] using hval

theorem fixed2Core_fmt (m : ℤ) (sq : ℚ) :
    fixed2Core sq (natDigits (m.natAbs / 100) ++ '.' :: twoDigits (m.natAbs % 100)) =
      some (sq * ((m.natAbs : ℚ) / 100)) := by
  obtain ⟨hne, hdig, hval⟩ := natDigits_spec (m.natAbs / 100)
  have hr : m.natAbs % 100 < 100 := Nat.mod_lt _ (by omega)
  have hd1 := digitChar_spec (m.natAbs % 100 / 10) (by omega)
  have hd2 := digitChar_spec (m.natAbs % 100 % 10) (Nat.mod_lt _ (by omega))
  set tl := natDigits (m.natAbs / 100) ++ '.' :: twoDigits (m.natAbs % 100) with htl
  have htake : tl.takeWhile isDigit = natDigits (m.natAbs / 100) := by
    rw [htl]
    exact takeWhile_append_stop _ _ _ _ (fun c hc => hdig c hc) (by decide)
  have hdrop : tl.dropWhile isDigit = '.' :: twoDigits (m.natAbs % 100) := by
    rw [htl]
    exact dropWhile_append_stop _ _ _ _ (fun c hc => hdig c hc) (by decide)
  unfold fixed2Core
  rw [hdrop]
  show (if ('.' : Char) ≠ '.' ∨ (tl.takeWhile isDigit).isEmpty = true ∨ _ ∨ _ then _ else _) = _
  rw [if_neg (by
    push_neg
    refine ⟨rfl, ?_, by simp [twoDigits], hd1.1, hd2.1⟩
    rw [htake]
    cases hnd : natDigits (m.natAbs / 100) with
    | nil => exact absurd hnd hne
    | cons a l => simp)]
  rw [htake, hval, hd1.2, hd2.2]
  have hnat : 100 * (m.natAbs / 100) + (10 * (m.natAbs % 100 / 10) + m.natAbs % 100 % 10)
      = m.natAbs := by omega
  have hq : ((m.natAbs : ℕ) : ℚ) = 100 * ((m.natAbs / 100 : ℕ) : ℚ) +
      (10 * ((m.natAbs % 100 / 10 : ℕ) : ℚ) + ((m.natAbs % 100 % 10 : ℕ) : ℚ)) := by
    exact_mod_cast hnat.symm
  have harith : ((m.natAbs / 100 : ℕ) : ℚ) +
      (10 * ((m.natAbs % 100 / 10 : ℕ) : ℚ) + ((m.natAbs % 100 % 10 : ℕ) : ℚ)) / 100 =
      ((m.natAbs : ℕ) : ℚ) / 100 := by
    rw [hq]
    ring
  rw [harith]

theorem fixed2Val_fmtFixed2 (m : ℤ) :
    fixed2Val? (fmtFixed2 m) = some ((m : ℚ) / 100) := by
  obtain ⟨hne, hdig, _⟩ := natDigits_spec (m.natAbs / 100)
  by_cases hm : m < 0
  · have hbody : fmtFixed2 m =
        '-' :: (natDigits (m.natAbs / 100) ++ '.' :: twoDigits (m.natAbs % 100)) := by
      unfold fmtFixed2
      rw [if_pos hm]
      rfl
    rw [hbody]
    have hval2 : fixed2Val? ('-' :: (natDigits (m.natAbs / 100) ++ '.' ::
        twoDigits (m.natAbs % 100))) =
        fixed2Core (-1) (natDigits (m.natAbs / 100) ++ '.' :: twoDigits (m.natAbs % 100)) := by
      simp [fixed2Val?]
    rw [hval2, fixed2Core_fmt m (-1)]
    congr 1
    have habs : ((m.natAbs : ℕ) : ℚ) = -(m : ℚ) := by
      rw [Int.cast_natAbs, abs_of_neg (by exact_mod_cast hm)]
      push_cast
      ring
    rw [habs]
    ring
  · obtain ⟨a, l, hnd⟩ : ∃ a l, natDigits (m.natAbs / 100) = a :: l := by
      cases hx : natDigits (m.natAbs / 100) with
      | nil => exact absurd hx hne
      | cons a l => exact ⟨a, l, rfl⟩
    have hadig : isDigit a = true := hdig a (by rw [hnd]; simp)
    have hand : a ≠ '-' := by
      intro hcon
      rw [hcon] at hadig
      exact absurd hadig (by decide)
    have hbody2 : fmtFixed2 m = a :: (l ++ '.' :: twoDigits (m.natAbs % 100)) := by
      unfold fmtFixed2
      rw [if_neg hm, hnd]
      rfl
    rw [hbody2]
    have hval2 : fixed2Val? (a :: (l ++ '.' :: twoDigits (m.natAbs % 100))) =
        fixed2Core 1 (a :: (l ++ '.' :: twoDigits (m.natAbs % 100))) := by
      simp [fixed2Val?, hand]
    rw [hval2]
    rw [show a :: (l ++ '.' :: twoDigits (m.natAbs % 100)) =
      natDigits (m.natAbs / 100) ++ '.' :: twoDigits (m.natAbs % 100) by rw [hnd]; rfl]
    rw [fixed2Core_fmt m 1]
    congr 1
    have habs : ((m.natAbs : ℕ) : ℚ) = (m : ℚ) := by
      rw [Int.cast_natAbs,
        abs_of_nonneg (by exact_mod_cast (by omega : (0 : ℤ) ≤ m))]
    rw [habs]
    ring

/-- Claim C6 (counterexample): the composer stores the ROUNDED value in
the posting, not the unrounded computed value: for a split value of
0.333 the posting's number string is "0.33", which denotes 33/100 ≠
333/1000; the same rounded string is stored by the line-posting path. -/
theorem stored_amount_rounded_counterexample :
    (add_splitdata [] ("Assets:A".toList) (333 / 1000) ("USD".toList)).1.map Posting.number
        = [some ("0.33".toList)] ∧
    fixed2Val? ("0.33".toList) = some (33 / 100) ∧
    ((33 : ℚ) / 100) ≠ 333 / 1000 ∧
    (linedataPosting ("Assets:A".toList) (some (333 / 1000)) (some ("USD".toList))).number
        = some ("0.33".toList) := by
  exact ⟨by with_unfolding_all rfl, by with_unfolding_all rfl,
    by with_unfolding_all decide, by with_unfolding_all rfl⟩

/-- Claim C6 (amended): the amount stored in an emitted posting is the
computed value rounded to 2 decimal places — the posting's number is the
very same rounded string that is displayed (both are
`f"{round(v, 2):.2f}"` in the source), and it denotes the rounded value
`round(v*100)/100`, not the unrounded one. -/
theorem stored_amount_rounded_spec (v : ℚ) (a c : List Char) (hv : v ≠ 0) :
    (add_splitdata [] a v c).1.map Posting.number = [some (roundedValueString v)] ∧
    (linedataPosting a (some v) (some c)).number = some (roundedValueString v) ∧
    fixed2Val? (roundedValueString v) = some ((roundHundredths v : ℚ) / 100) := by
  exact ⟨by simp [add_splitdata, hv], rfl, fixed2Val_fmtFixed2 (roundHundredths v)⟩

/-- Witness for `stored_amount_rounded_spec` at value 1/4. -/
theorem stored_amount_rounded_spec_witness :
    fixed2Val? (roundedValueString (1 / 4)) = some ((roundHundredths (1 / 4) : ℚ) / 100) :=
  (stored_amount_rounded_spec (1 / 4) [] [] (by with_unfolding_all decide)).2.2

/-! Claim C4: split computation (`parse_split` / `parse_fraction` /
`parse_payment`). -/

/-- Claim C4: the spec string is first parsed as a fraction, which must
lie in [-1, 1] ("-1" succeeds with value -1, "1.5" is rejected), giving
fraction × total; when fraction parsing fails, it is parsed as
"amount currency", failing on a currency mismatch and otherwise giving
the amount; in particular the three quoted evaluations hold. -/
theorem parse_split_spec :
    (∀ (s : List Char) (f total : ℚ) (tc : List Char),
        pyFloat? s = some (PyFloatVal.fin f) → -1 ≤ f → f ≤ 1 →
        parse_split s total tc = Except.ok (PyFloatVal.fin (f * total))) ∧
    parse_fraction ("-1".toList) = Except.ok (-1) ∧
    parse_fraction ("1.5".toList) = Except.error FractionError.outOfBounds ∧
    (∀ (s : List Char) (total : ℚ) (tc : List Char) (e : FractionError) (amt : PyFloatVal)
        (cur : List Char),
        parse_fraction s = Except.error e →
        parse_payment s true = Except.ok (some (amt, cur)) →
        (cur ≠ tc → parse_split s total tc = Except.error SplitError.currencyMismatch) ∧
        (cur = tc → parse_split s total tc = Except.ok amt)) ∧
    parse_split ("-0.5".toList) 100 ("USD".toList) = Except.ok (PyFloatVal.fin (-50)) ∧
    parse_split ("25.00 USD".toList) 100 ("USD".toList) = Except.ok (PyFloatVal.fin 25) ∧
    parse_split ("25.00 EUR".toList) 100 ("USD".toList) =
      Except.error SplitError.currencyMismatch := by
  refine ⟨?_, by with_unfolding_all rfl, by with_unfolding_all rfl, ?_,
    by with_unfolding_all rfl, by with_unfolding_all rfl, by with_unfolding_all rfl⟩
  · intro s f total tc hf h1 h2
    have hfr : parse_fraction s = Except.ok f := by
      unfold parse_fraction
      rw [hf]
      show (if -1 ≤ f ∧ f ≤ 1 then Except.ok f else Except.error FractionError.outOfBounds) = _
      rw [if_pos ⟨h1, h2⟩]
    unfold parse_split
    rw [hfr]
  · intro s total tc e amt cur herr hpay
    constructor
    · intro hne
      unfold parse_split
      rw [herr, hpay]
      show (if cur = tc then Except.ok amt else Except.error SplitError.currencyMismatch) = _
      rw [if_neg hne]
    · intro heq
      unfold parse_split
      rw [herr, hpay]
      show (if cur = tc then Except.ok amt else Except.error SplitError.currencyMismatch) = _
      rw [if_pos heq]

/-- Witness for `parse_split_spec` (first conjunct) at -0.25 of 8. -/
theorem parse_split_spec_witness :
    parse_split ("-0.25".toList) 8 ("USD".toList) = Except.ok (PyFloatVal.fin (-2)) := by
  have h := parse_split_spec.1 ("-0.25".toList) (-1 / 4 : ℚ) 8 ("USD".toList)
    (by with_unfolding_all rfl) (by with_unfolding_all decide) (by with_unfolding_all decide)
  rw [show ((-1 / 4 : ℚ) * 8) = -2 by with_unfolding_all decide] at h
  exact h

/-! Claim C10: `ranked_set` ranks distinct items by descending frequency
with ties in first-appearance order. -/

theorem mem_insertByKeyDesc {α : Type} (k : α → Nat) (a x : α) (l : List α) :
    x ∈ insertByKeyDesc k a l ↔ x = a ∨ x ∈ l := by
  induction l with
  | nil => simp [insertByKeyDesc]
  | cons b bs ih =>
    rw [insertByKeyDesc]
    by_cases h : k b ≤ k a
    · rw [if_pos h]
      simp
    · rw [if_neg h]
      simp only [List.mem_cons, ih]
      tauto

theorem insertByKeyDesc_perm {α : Type} (k : α → Nat) (a : α) (l : List α) :
    (insertByKeyDesc k a l).Perm (a :: l) := by
  induction l with
  | nil => exact List.Perm.refl _
  | cons b bs ih =>
    rw [insertByKeyDesc]
    by_cases h : k b ≤ k a
    · rw [if_pos h]
    · rw [if_neg h]
      exact (ih.cons b).trans (List.Perm.swap a b bs)

theorem insertByKeyDesc_pairwise {α : Type} (R : α → α → Prop) (k : α → Nat)
    (hmono : ∀ x y, R x y → k y ≤ k x) (a : α) (l : List α) (hl : l.Pairwise R)
    (haR : ∀ b ∈ l, k b ≤ k a → R a b) (hRa : ∀ b ∈ l, k a < k b → R b a) :
    (insertByKeyDesc k a l).Pairwise R := by
  induction l with
  | nil => simp [insertByKeyDesc]
  | cons b bs ih =>
    obtain ⟨hb, hbs⟩ := List.pairwise_cons.mp hl
    rw [insertByKeyDesc]
    by_cases h : k b ≤ k a
    · rw [if_pos h]
      refine List.pairwise_cons.mpr ⟨?_, hl⟩
      intro x hx
      rcases List.mem_cons.mp hx with rfl | hx
      · exact haR x (by simp) h
      · exact haR x (by simp [hx]) (le_trans (hmono b x (hb x hx)) h)
    · rw [if_neg h]
      have hab : k a < k b := Nat.lt_of_not_le h
      refine List.pairwise_cons.mpr ⟨?_, ?_⟩
      · intro x hx
        rcases (mem_insertByKeyDesc k a x bs).mp hx with rfl | hx
        · exact hRa b (by simp) hab
        · exact hb x hx
      · exact ih hbs (fun c hc hk => haR c (by simp [hc]) hk)
          (fun c hc hk => hRa c (by simp [hc]) hk)

theorem sortByKeyDesc_perm {α : Type} (k : α → Nat) (l : List α) :
    (sortByKeyDesc k l).Perm l := by
  induction l with
  | nil => exact List.Perm.refl _
  | cons a as ih =>
    rw [sortByKeyDesc]
    exact (insertByKeyDesc_perm k a (sortByKeyDesc k as)).trans (ih.cons a)

theorem sortByKeyDesc_pairwise {α : Type} (k : α → Nat) (P : α → α → Prop)
    (l : List α) (hl : l.Pairwise P) :
    (sortByKeyDesc k l).Pairwise
      (fun x y => k y < k x ∨ (k x = k y ∧ P x y)) := by
  have hmono : ∀ x y, (fun x y => k y < k x ∨ (k x = k y ∧ P x y)) x y → k y ≤ k x := by
    rintro x y (h | ⟨h, _⟩) <;> omega
  induction hl with
  | nil => simp [sortByKeyDesc]
  | @cons a as ha has ih =>
    rw [sortByKeyDesc]
    refine insertByKeyDesc_pairwise _ k hmono a _ ih ?_ ?_
    · intro b hb hk
      have hbmem : b ∈ as := (sortByKeyDesc_perm k as).mem_iff.mp hb
      by_cases hlt : k b < k a
      · exact Or.inl hlt
      · exact Or.inr ⟨by omega, ha b hbmem⟩
    · intro b _ hk
      exact Or.inl hk

theorem firstKeys_cons {α : Type} [DecidableEq α] (a : α) (as : List α) :
    firstKeys (a :: as) = a :: firstKeys (as.filter (fun b => b ≠ a)) := by
  rw [firstKeys]

theorem mem_firstKeys_aux {α : Type} [DecidableEq α] :
    ∀ (n : Nat) (l : List α), l.length ≤ n → ∀ x, (x ∈ firstKeys l ↔ x ∈ l) := by
  intro n
  induction n with
  | zero =>
    intro l hl x
    rw [List.eq_nil_of_length_eq_zero (Nat.le_zero.mp hl)]
    rw [firstKeys]
  | succ n ih =>
    intro l hl x
    cases l with
    | nil => rw [firstKeys]
    | cons a as =>
      rw [firstKeys_cons]
      have hlen : (as.filter (fun b => b ≠ a)).length ≤ n :=
        le_trans (List.length_filter_le _ _) (by simpa using Nat.succ_le_succ_iff.mp hl)
      rw [List.mem_cons, ih _ hlen x, List.mem_filter, List.mem_cons]
      by_cases hxa : x = a <;> simp [hxa]

theorem mem_firstKeys {α : Type} [DecidableEq α] (l : List α) (x : α) :
    x ∈ firstKeys l ↔ x ∈ l :=
  mem_firstKeys_aux l.length l (le_refl _) x

theorem firstKeys_nodup_aux {α : Type} [DecidableEq α] :
    ∀ (n : Nat) (l : List α), l.length ≤ n → (firstKeys l).Nodup := by
  intro n
  induction n with
  | zero =>
    intro l hl
    rw [List.eq_nil_of_length_eq_zero (Nat.le_zero.mp hl), firstKeys]
    exact List.nodup_nil
  | succ n ih =>
    intro l hl
    cases l with
    | nil => rw [firstKeys]; exact List.nodup_nil
    | cons a as =>
      rw [firstKeys_cons]
      have hlen : (as.filter (fun b => b ≠ a)).length ≤ n :=
        le_trans (List.length_filter_le _ _) (by simpa using Nat.succ_le_succ_iff.mp hl)
      refine List.nodup_cons.mpr ⟨?_, ih _ hlen⟩
      intro hmem
      have := (mem_firstKeys_aux n _ hlen a).mp hmem
      have := (List.mem_filter.mp this).2
      simp at this

theorem firstKeys_nodup {α : Type} [DecidableEq α] (l : List α) :
    (firstKeys l).Nodup :=
  firstKeys_nodup_aux l.length l (le_refl _)

theorem indexOf_filter_lt {α : Type} [DecidableEq α] (p : α → Bool) :
    ∀ (l : List α) (x y : α), x ∈ l.filter p → y ∈ l.filter p →
      List.indexOf x (l.filter p) < List.indexOf y (l.filter p) →
      List.indexOf x l < List.indexOf y l := by
  intro l
  induction l with
  | nil => simp
  | cons c cs ih =>
    intro x y hx hy hlt
    by_cases hpc : p c
    · rw [List.filter_cons_of_pos hpc] at hx hy hlt
      by_cases hxc : x = c
      · subst hxc
        have hyx : y ≠ x := by
          intro hyx
          subst hyx
          simp at hlt
        rw [List.indexOf_cons_self] at hlt ⊢
        rw [List.indexOf_cons_ne _ (fun h => hyx h.symm)] at hlt ⊢
        · omega
      · have hyc : y ≠ c := by
          intro hyc
          subst hyc
          rw [List.indexOf_cons_self] at hlt
          omega
        rw [List.indexOf_cons_ne _ (fun h => hxc h.symm),
          List.indexOf_cons_ne _ (fun h => hyc h.symm)] at hlt
        rw [List.indexOf_cons_ne _ (fun h => hxc h.symm),
          List.indexOf_cons_ne _ (fun h => hyc h.symm)]
        have hx2 : x ∈ cs.filter p := by
          rcases List.mem_cons.mp hx with rfl | hx2
          · exact absurd rfl hxc
          · exact hx2
        have hy2 : y ∈ cs.filter p := by
          rcases List.mem_cons.mp hy with rfl | hy2
          · exact absurd rfl hyc
          · exact hy2
        exact Nat.succ_lt_succ (ih x y hx2 hy2 (by omega))
    · rw [List.filter_cons_of_neg (by simpa using hpc)] at hx hy hlt
      have hxc : x ≠ c := by
        intro hxc
        subst hxc
        exact hpc ((List.mem_filter.mp hx).2)
      have hyc : y ≠ c := by
        intro hyc
        subst hyc
        exact hpc ((List.mem_filter.mp hy).2)
      rw [List.indexOf_cons_ne _ (fun h => hxc h.symm),
        List.indexOf_cons_ne _ (fun h => hyc h.symm)]
      exact Nat.succ_lt_succ (ih x y hx hy hlt)

theorem firstKeys_pairwise_indexOf_aux {α : Type} [DecidableEq α] :
    ∀ (n : Nat) (l : List α), l.length ≤ n →
      (firstKeys l).Pairwise (fun x y => List.indexOf x l < List.indexOf y l) := by
  intro n
  induction n with
  | zero =>
    intro l hl
    rw [List.eq_nil_of_length_eq_zero (Nat.le_zero.mp hl), firstKeys]
    exact List.Pairwise.nil
  | succ n ih =>
    intro l hl
    cases l with
    | nil => rw [firstKeys]; exact List.Pairwise.nil
    | cons a as =>
      rw [firstKeys_cons]
      have hlen : (as.filter (fun b => b ≠ a)).length ≤ n :=
        le_trans (List.length_filter_le _ _) (by simpa using Nat.succ_le_succ_iff.mp hl)
      refine List.pairwise_cons.mpr ⟨?_, ?_⟩
      · intro b hb
        have hbf := (mem_firstKeys_aux n _ hlen b).mp hb
        have hba : b ≠ a := by simpa using (List.mem_filter.mp hbf).2
        rw [List.indexOf_cons_self, List.indexOf_cons_ne _ (fun h => hba h.symm)]
        omega
      · have hpw := ih _ hlen
        refine List.Pairwise.imp_of_mem ?_ hpw
        intro x y hx hy hxy
        have hxf := (mem_firstKeys_aux n _ hlen x).mp hx
        have hyf := (mem_firstKeys_aux n _ hlen y).mp hy
        have hxa : x ≠ a := by simpa using (List.mem_filter.mp hxf).2
        have hya : y ≠ a := by simpa using (List.mem_filter.mp hyf).2
        have := indexOf_filter_lt (fun b => b ≠ a) as x y hxf hyf hxy
        rw [List.indexOf_cons_ne _ (fun h => hxa h.symm),
          List.indexOf_cons_ne _ (fun h => hya h.symm)]
        omega

theorem firstKeys_pairwise_indexOf {α : Type} [DecidableEq α] (l : List α) :
    (firstKeys l).Pairwise (fun x y => List.indexOf x l < List.indexOf y l) :=
  firstKeys_pairwise_indexOf_aux l.length l (le_refl _)

/-- Claim C10: `ranked_set` returns each distinct item of its input
exactly once (no duplicates, same membership), ordered by strictly
non-increasing occurrence count, with ties between equal counts broken by
the order of first appearance in the input; hence the account and
narration suggestion lists built from it are duplicate-free and ranked by
descending historical frequency. -/
theorem ranked_set_spec {α : Type} [DecidableEq α] (items : List α) :
    (ranked_set items).Nodup ∧
    (∀ x, x ∈ ranked_set items ↔ x ∈ items) ∧
    (ranked_set items).Pairwise (fun x y =>
      items.count y < items.count x ∨
        (items.count x = items.count y ∧
          List.indexOf x items < List.indexOf y items)) := by
  have hperm : (ranked_set items).Perm (firstKeys items) :=
    sortByKeyDesc_perm (fun a => items.count a) (firstKeys items)
  refine ⟨hperm.symm.nodup (firstKeys_nodup items), ?_, ?_⟩
  · intro x
    rw [hperm.mem_iff, mem_firstKeys]
  · exact sortByKeyDesc_pairwise (fun a => items.count a)
      (fun x y => List.indexOf x items < List.indexOf y items)
      (firstKeys items) (firstKeys_pairwise_indexOf items)

/-! Claim C5: per-line behaviour of the currency-column branch of
`align_beancount`. -/

/-- Claim C5: with a currency column `cc`, every input line that matches
the number-line pattern, with groups (prefix, number, rest) and the
prefix indent-normalized, is rewritten as the normalized prefix, then
`cc - len(prefix) - len(number) - 4` spaces (truncated at zero exactly
as Python's `" " * n` is empty for negative `n`), then two literal
spaces, then the number, then one space, then the rest; every
non-matching line passes through as its indent-normalized self; and a
prefix of indent whitespace followed by an account is normalized to
exactly `iw` leading spaces preserving the account text. -/
theorem align_currency_line_spec (pw nw cc iw : Nat) (hcc : cc ≠ 0) (t : List Char) :
    align_beancount pw nw cc iw t =
      some (joinLines ((pySplitlines t).map (fun l =>
        match matchNumberLine l with
        | some (p, n, r) =>
          normPfx iw p ++ spaces (cc - (normPfx iw p).length - n.length - 4) ++
            ' ' :: ' ' :: (n ++ ' ' :: r)
        | none => normPfx iw l))) ∧
    (∀ p : List Char, p.takeWhile isIndentWs ≠ [] → isAccountStart (p.dropWhile isIndentWs) →
      normPfx iw p = spaces iw ++ p.dropWhile isIndentWs) := by
  constructor
  · unfold align_beancount
    rw [if_pos hcc]
    congr 1
    unfold matchPairs normalizeIndent
    rw [List.map_map, List.map_map]
    congr 1
    apply List.map_congr_left
    intro l _
    cases hm : matchNumberLine l with
    | none => simp [Function.comp, linePair, hm, renderCurrency]
    | some g =>
      obtain ⟨p, n, r⟩ := g
      simp [Function.comp, linePair, hm, renderCurrency]
  · intro p hw hacc
    unfold normPfx
    rw [if_pos ⟨by simpa using hw, hacc⟩]

/-- Witness for `align_currency_line_spec` at the default parameters on
a two-line ledger. -/
theorem align_currency_line_spec_witness :
    align_beancount 4 0 90 4 (("x\n  Assets:Cash  1.00 USD\n").toList) =
      some (joinLines ((pySplitlines (("x\n  Assets:Cash  1.00 USD\n").toList)).map (fun l =>
        match matchNumberLine l with
        | some (p, n, r) =>
          normPfx 4 p ++ spaces (90 - (normPfx 4 p).length - n.length - 4) ++
            ' ' :: ' ' :: (n ++ ' ' :: r)
        | none => normPfx 4 l))) :=
  (align_currency_line_spec 4 0 90 4 (by decide) (("x\n  Assets:Cash  1.00 USD\n").toList)).1

/-! Claim C3: the whitespace-collapse invariant of alignment.
First, equations and splitting lemmas for `wordsBy`. -/

theorem wordsBy_cons_pos (p : Char → Bool) (c : Char) (cs : List Char) (h : p c = true) :
    wordsBy p (c :: cs) = wordsBy p cs := by
  cases cs <;> simp [wordsBy, h]

theorem wordsBy_singleton_neg (p : Char → Bool) (c : Char) (h : p c = false) :
    wordsBy p [c] = [[c]] := by
  simp [wordsBy, h]

theorem wordsBy_cons_neg_ws (p : Char → Bool) (c c2 : Char) (cs : List Char)
    (h : p c = false) (h2 : p c2 = true) :
    wordsBy p (c :: c2 :: cs) = [c] :: wordsBy p (c2 :: cs) := by
  simp [wordsBy, h, h2]

theorem wordsBy_cons_neg_cons (p : Char → Bool) (c c2 : Char) (cs : List Char)
    (h : p c = false) (h2 : p c2 = false) :
    wordsBy p (c :: c2 :: cs) =
      match wordsBy p (c2 :: cs) with
      | w :: ws => (c :: w) :: ws
      | [] => [[c]] := by
  rw [wordsBy]
  simp [h, h2]

theorem wordsBy_cons_neg_neg (p : Char → Bool) (c c2 : Char) (cs : List Char)
    (h : p c = false) (h2 : p c2 = false) (w : List Char) (ws : List (List Char))
    (hw : wordsBy p (c2 :: cs) = w :: ws) :
    wordsBy p (c :: c2 :: cs) = (c :: w) :: ws := by
  rw [wordsBy_cons_neg_cons p c c2 cs h h2, hw]

theorem wordsBy_ne_nil (p : Char → Bool) (c : Char) (cs : List Char) (h : p c = false) :
    wordsBy p (c :: cs) ≠ [] := by
  cases cs with
  | nil => simp [wordsBy_singleton_neg p c h]
  | cons c2 cs2 =>
    by_cases h2 : p c2
    · rw [wordsBy_cons_neg_ws p c c2 cs2 h (by simpa using h2)]
      simp
    · rcases hw : wordsBy p (c2 :: cs2) with _ | ⟨w, ws⟩
      · rw [wordsBy_cons_neg_cons p c c2 cs2 h (by simpa using h2), hw]
        simp
      · rw [wordsBy_cons_neg_neg p c c2 cs2 h (by simpa using h2) w ws hw]
        simp

theorem wordsBy_nil_iff (p : Char → Bool) (s : List Char) :
    wordsBy p s = [] ↔ ∀ c ∈ s, p c = true := by
  induction s with
  | nil => simp [wordsBy]
  | cons c cs ih =>
    by_cases h : p c
    · rw [wordsBy_cons_pos p c cs h, ih]
      simp [h]
    · simp only [List.mem_cons]
      constructor
      · intro hcon
        exact absurd hcon (wordsBy_ne_nil p c cs (by simpa using h))
      · intro hall
        exact absurd (hall c (Or.inl rfl)) h

theorem wordsBy_ws_prefix (p : Char → Bool) (w ys : List Char)
    (hw : ∀ c ∈ w, p c = true) :
    wordsBy p (w ++ ys) = wordsBy p ys := by
  induction w with
  | nil => rfl
  | cons c cs ih =>
    rw [List.cons_append, wordsBy_cons_pos p c _ (hw c (by simp))]
    exact ih (fun c hc => hw c (by simp [hc]))

theorem wordsBy_append_sep (p : Char → Bool) (d : Char) (hd : p d = true) :
    ∀ (xs ys : List Char), wordsBy p (xs ++ d :: ys) = wordsBy p xs ++ wordsBy p ys := by
  intro xs
  induction xs with
  | nil =>
    intro ys
    rw [List.nil_append, wordsBy_cons_pos p d ys hd, wordsBy]
    rfl
  | cons c cs ih =>
    intro ys
    by_cases hc : p c
    · rw [List.cons_append, wordsBy_cons_pos p c _ hc, wordsBy_cons_pos p c cs hc]
      exact ih ys
    · have hc2 : p c = false := by simpa using hc
      cases cs with
      | nil =>
        rw [show ([c] ++ d :: ys : List Char) = c :: d :: ys from rfl,
          wordsBy_cons_neg_ws p c d ys hc2 hd, wordsBy_cons_pos p d ys hd,
          wordsBy_singleton_neg p c hc2]
        rfl
      | cons c2 cs2 =>
        by_cases hcc : p c2
        · rw [List.cons_append, List.cons_append,
            wordsBy_cons_neg_ws p c c2 _ hc2 (by simpa using hcc),
            wordsBy_cons_neg_ws p c c2 cs2 hc2 (by simpa using hcc)]
          rw [← List.cons_append, ih ys]
          rfl
        · have hcc2 : p c2 = false := by simpa using hcc
          obtain ⟨w, ws, hw⟩ : ∃ w ws, wordsBy p (c2 :: cs2) = w :: ws := by
            rcases hx : wordsBy p (c2 :: cs2) with _ | ⟨w, ws⟩
            · exact absurd hx (wordsBy_ne_nil p c2 cs2 hcc2)
            · exact ⟨w, ws, rfl⟩
          have hih := ih ys
          rw [List.cons_append, hw] at hih
          have hih2 : wordsBy p (c2 :: (cs2 ++ d :: ys)) = w :: (ws ++ wordsBy p ys) := by
            rw [hih]
            rfl
          rw [List.cons_append, List.cons_append,
            wordsBy_cons_neg_neg p c c2 (cs2 ++ d :: ys) hc2 hcc2 w (ws ++ wordsBy p ys) hih2,
            wordsBy_cons_neg_neg p c c2 cs2 hc2 hcc2 w ws hw]
          rfl

theorem wordsBy_append_run (p : Char → Bool) (xs w ys : List Char)
    (hw : w ≠ []) (hall : ∀ c ∈ w, p c = true) :
    wordsBy p (xs ++ w ++ ys) = wordsBy p xs ++ wordsBy p ys := by
  cases w with
  | nil => exact absurd rfl hw
  | cons d w2 =>
    have hsplit : xs ++ (d :: w2) ++ ys = xs ++ d :: (w2 ++ ys) := by simp
    rw [hsplit, wordsBy_append_sep p d (hall d (by simp)) xs (w2 ++ ys),
      wordsBy_ws_prefix p w2 ys (fun c hc => hall c (by simp [hc]))]

theorem pyRstrip_decomp (s : List Char) :
    ∃ w, s = pyRstrip s ++ w ∧ ∀ c ∈ w, isPySpace c = true := by
  refine ⟨(s.reverse.takeWhile isPySpace).reverse, ?_, ?_⟩
  · unfold pyRstrip
    conv_lhs => rw [← s.reverse_reverse, ← List.takeWhile_append_dropWhile isPySpace s.reverse]
    rw [List.reverse_append]
  · intro c hc
    exact List.mem_takeWhile_imp (List.mem_reverse.mp hc)

theorem pyRstrip_nil_iff (s : List Char) :
    pyRstrip s = [] ↔ ∀ c ∈ s, isPySpace c = true := by
  unfold pyRstrip
  rw [List.reverse_eq_nil_iff, List.dropWhile_eq_nil_iff]
  constructor
  · intro h c hc
    exact h c (List.mem_reverse.mpr hc)
  · intro h c hc
    exact h c (List.mem_reverse.mp hc)

theorem pyRstrip_cons (c : Char) (cs : List Char) :
    pyRstrip (c :: cs) =
      if pyRstrip cs = [] then (if isPySpace c then [] else [c])
      else c :: pyRstrip cs := by
  by_cases h : pyRstrip cs = []
  · have h2 : cs.reverse.dropWhile isPySpace = [] := by
      simpa [pyRstrip, List.reverse_eq_nil_iff] using h
    rw [if_pos h]
    by_cases hc : isPySpace c
    · rw [if_pos hc]
      simp [pyRstrip, List.reverse_cons, List.dropWhile_append, h2, hc]
    · rw [if_neg hc]
      simp [pyRstrip, List.reverse_cons, List.dropWhile_append, h2, hc]
  · have h2 : ¬ cs.reverse.dropWhile isPySpace = [] := by
      intro hcon
      exact h (by simp [pyRstrip, List.reverse_eq_nil_iff, hcon])
    rw [if_neg h]
    simp [pyRstrip, List.reverse_cons, List.dropWhile_append, h2, List.isEmpty_iff]

theorem colWs_pySpace (c : Char) (h : isColWs c = true) : isPySpace c = true := by
  have h2 : c = ' ' ∨ c = '\t' ∨ c = '\n' := by simpa [isColWs] using h
  rcases h2 with rfl | rfl | rfl <;> rfl

theorem subWsRuns_cons_neg (c : Char) (cs : List Char) (h : isColWs c = false) :
    subWsRuns (c :: cs) = c :: subWsRuns cs := by
  cases cs <;> simp [subWsRuns, h]

theorem subWsRuns_cons_ws_ws (c c2 : Char) (cs : List Char) (h : isColWs c = true)
    (h2 : isColWs c2 = true) :
    subWsRuns (c :: c2 :: cs) = subWsRuns (c2 :: cs) := by
  rw [subWsRuns]
  simp [h, h2]

theorem subWsRuns_cons_ws_stop (c : Char) (cs : List Char) (h : isColWs c = true)
    (hcs : cs = [] ∨ ∃ x t, cs = x :: t ∧ isColWs x = false) :
    subWsRuns (c :: cs) = ' ' :: subWsRuns cs := by
  rcases hcs with rfl | ⟨x, t, rfl, hx⟩
  · simp [subWsRuns, h]
  · rw [subWsRuns]
    simp [h, hx]

theorem interBy_word_cons (d : Char) (c : Char) (w : List Char) (ws : List (List Char)) :
    interBy d ((c :: w) :: ws) = c :: interBy d (w :: ws) := by
  cases ws <;> rfl

theorem interBy_cons_cons (d : Char) (w w2 : List Char) (ws : List (List Char)) :
    interBy d (w :: w2 :: ws) = w ++ d :: interBy d (w2 :: ws) :=
  rfl

theorem collapse_canon (s : List Char)
    (hws : ∀ c ∈ s, isPySpace c = true → isColWs c = true) :
    collapseWs s = wsCanon s := by
  induction s with
  | nil => rfl
  | cons c cs ihgen =>
    have ihh := ihgen (fun d hd h => hws d (by simp [hd]) h)
    by_cases hrs : pyRstrip cs = []
    · have hcsws : ∀ d ∈ cs, isPySpace d = true := (pyRstrip_nil_iff cs).mp hrs
      have hcscol : ∀ d ∈ cs, isColWs d = true := fun d hd => hws d (by simp [hd]) (hcsws d hd)
      have hcw : colWords cs = [] := (wordsBy_nil_iff isColWs cs).mpr hcscol
      by_cases hc : isColWs c
      · have hall : pyRstrip (c :: cs) = [] := (pyRstrip_nil_iff _).mpr (by
          intro d hd
          rcases List.mem_cons.mp hd with rfl | hd
          · exact colWs_pySpace d hc
          · exact hcsws d hd)
        have h1 : collapseWs (c :: cs) = [] := by
          unfold collapseWs
          rw [hall]
          rfl
        have h2 : wsCanon (c :: cs) = [] := by
          unfold wsCanon
          rw [if_pos (by
            show colWords (c :: cs) = []
            show wordsBy isColWs (c :: cs) = []
            rw [wordsBy_cons_pos _ c cs hc]
            exact hcw)]
        rw [h1, h2]
      · have hcp : isPySpace c = false := by
          rcases hh : isPySpace c with _ | _
          · rfl
          · exact absurd (hws c (by simp) hh) (by simpa using hc)
        have hc2 : isColWs c = false := by simpa using hc
        have h1 : collapseWs (c :: cs) = [c] := by
          unfold collapseWs
          rw [pyRstrip_cons, if_pos hrs, if_neg (by simp [hcp])]
          rw [subWsRuns_cons_neg c [] hc2]
          rfl
        have hcol : colWords (c :: cs) = [[c]] := by
          show wordsBy isColWs (c :: cs) = [[c]]
          cases cs with
          | nil => exact wordsBy_singleton_neg _ c hc2
          | cons d ds =>
            rw [wordsBy_cons_neg_ws _ c d ds hc2 (hcscol d (by simp))]
            rw [show wordsBy isColWs (d :: ds) = colWords (d :: ds) from rfl, hcw]
        have h2 : wsCanon (c :: cs) = [c] := by
          unfold wsCanon
          rw [if_neg (by simp [hcol]), hcol]
          simp [wsLead, hc2, interBy]
        rw [h1, h2]
    · have hcwne : colWords cs ≠ [] := by
        intro hcon
        have hallws := (wordsBy_nil_iff isColWs cs).mp hcon
        exact hrs ((pyRstrip_nil_iff cs).mpr (fun d hd => colWs_pySpace d (hallws d hd)))
      obtain ⟨c2, cs2, rfl⟩ : ∃ c2 cs2, cs = c2 :: cs2 := by
        cases cs with
        | nil => exact absurd rfl hrs
        | cons c2 cs2 => exact ⟨c2, cs2, rfl⟩
      have hrc : pyRstrip (c :: c2 :: cs2) = c :: pyRstrip (c2 :: cs2) := by
        rw [pyRstrip_cons, if_neg hrs]
      obtain ⟨t, ht⟩ : ∃ t, pyRstrip (c2 :: cs2) = c2 :: t := by
        rw [pyRstrip_cons]
        by_cases hz : pyRstrip cs2 = []
        · rw [if_pos hz]
          by_cases hp2 : isPySpace c2
          · exact absurd (by rw [pyRstrip_cons, if_pos hz, if_pos hp2]) hrs
          · rw [if_neg hp2]
            exact ⟨[], rfl⟩
        · rw [if_neg hz]
          exact ⟨pyRstrip cs2, rfl⟩
      have hcollapse : collapseWs (c :: c2 :: cs2) = subWsRuns (c :: pyRstrip (c2 :: cs2)) := by
        unfold collapseWs
        rw [hrc]
      by_cases hc : isColWs c
      · by_cases hc2 : isColWs c2
        · have hsub : subWsRuns (c :: pyRstrip (c2 :: cs2)) = subWsRuns (pyRstrip (c2 :: cs2)) := by
            rw [ht]
            exact subWsRuns_cons_ws_ws c c2 t hc hc2
          rw [hcollapse, hsub]
          rw [show subWsRuns (pyRstrip (c2 :: cs2)) = collapseWs (c2 :: cs2) from rfl, ihh]
          unfold wsCanon
          rw [show colWords (c :: c2 :: cs2) = wordsBy isColWs (c :: c2 :: cs2) from rfl,
            wordsBy_cons_pos _ c _ hc]
          rw [show wordsBy isColWs (c2 :: cs2) = colWords (c2 :: cs2) from rfl]
          simp [wsLead, hc, hc2]
        · have hc2f : isColWs c2 = false := by simpa using hc2
          have hsub : subWsRuns (c :: pyRstrip (c2 :: cs2)) =
              ' ' :: subWsRuns (pyRstrip (c2 :: cs2)) := by
            rw [ht]
            exact subWsRuns_cons_ws_stop c (c2 :: t) hc (Or.inr ⟨c2, t, rfl, hc2f⟩)
          rw [hcollapse, hsub]
          rw [show subWsRuns (pyRstrip (c2 :: cs2)) = collapseWs (c2 :: cs2) from rfl, ihh]
          unfold wsCanon
          rw [show colWords (c :: c2 :: cs2) = wordsBy isColWs (c :: c2 :: cs2) from rfl,
            wordsBy_cons_pos _ c _ hc]
          rw [show wordsBy isColWs (c2 :: cs2) = colWords (c2 :: cs2) from rfl]
          rw [if_neg hcwne, if_neg hcwne]
          simp [wsLead, hc, hc2f]
      · have hcf : isColWs c = false := by simpa using hc
        have hsub : subWsRuns (c :: pyRstrip (c2 :: cs2)) =
            c :: subWsRuns (pyRstrip (c2 :: cs2)) :=
          subWsRuns_cons_neg c _ hcf
        rw [hcollapse, hsub]
        rw [show subWsRuns (pyRstrip (c2 :: cs2)) = collapseWs (c2 :: cs2) from rfl, ihh]
        obtain ⟨w, ws, hw⟩ : ∃ w ws, colWords (c2 :: cs2) = w :: ws := by
          rcases hx : colWords (c2 :: cs2) with _ | ⟨w, ws⟩
          · exact absurd hx hcwne
          · exact ⟨w, ws, rfl⟩
        by_cases hc2 : isColWs c2
        · have hcol : colWords (c :: c2 :: cs2) = [c] :: colWords (c2 :: cs2) :=
            wordsBy_cons_neg_ws _ c c2 cs2 hcf hc2
          unfold wsCanon
          rw [hcol, hw, interBy_cons_cons]
          simp only [show wsLead (c :: c2 :: cs2) = isColWs c from rfl,
            show wsLead (c2 :: cs2) = isColWs c2 from rfl, hcf, hc2]
          simp
        · have hc2f : isColWs c2 = false := by simpa using hc2
          have hcol : colWords (c :: c2 :: cs2) = (c :: w) :: ws :=
            wordsBy_cons_neg_neg _ c c2 cs2 hcf hc2f w ws hw
          unfold wsCanon
          rw [hcol, hw, interBy_word_cons]
          simp only [show wsLead (c :: c2 :: cs2) = isColWs c from rfl,
            show wsLead (c2 :: cs2) = isColWs c2 from rfl, hcf, hc2f]
          simp

/-! Soundness of the number-line matcher: each successful match
reconstructs its input. -/

theorem parseNumber_sound (s n t : List Char) (h : parseNumber s = some (n, t)) :
    s = n ++ t ∧ n ≠ [] := by
  unfold parseNumber at h
  rcases s with _ | ⟨c, cs⟩
  · dsimp only at h
    simp at h
  · dsimp only at h
    by_cases hsgn : c = '-' ∨ c = '+'
    · rw [if_pos hsgn] at h
      dsimp only at h
      by_cases hds : ((cs.dropWhile isPySpace).takeWhile isDigitComma).isEmpty
      · rw [if_pos hds] at h
        simp at h
      · rw [if_neg hds] at h
        have hne : (cs.dropWhile isPySpace).takeWhile isDigitComma ≠ [] := by
          simpa [List.isEmpty_iff] using hds
        split at h
        · rename_i c3 s4 heq
          by_cases hdot : c3 = '.'
          · rw [if_pos hdot] at h
            injection h with h2
            injection h2 with hn ht
            subst hn
            subst ht
            subst hdot
            refine ⟨?_, by simp⟩
            have e1 : cs = cs.takeWhile isPySpace ++ cs.dropWhile isPySpace :=
              (List.takeWhile_append_dropWhile _ _).symm
            have e2 : cs.dropWhile isPySpace =
                (cs.dropWhile isPySpace).takeWhile isDigitComma ++ '.' :: s4 := by
              conv_lhs => rw [← List.takeWhile_append_dropWhile isDigitComma
                (cs.dropWhile isPySpace)]
              rw [heq]
            have e3 : s4 = s4.takeWhile isDigit ++ s4.dropWhile isDigit :=
              (List.takeWhile_append_dropWhile _ _).symm
            conv_lhs => rw [e1, e2]
            conv_lhs => rw [e3]
            simp
          · rw [if_neg hdot] at h
            injection h with h2
            injection h2 with hn ht
            subst hn
            subst ht
            refine ⟨?_, by simp⟩
            have e1 : cs = cs.takeWhile isPySpace ++ cs.dropWhile isPySpace :=
              (List.takeWhile_append_dropWhile _ _).symm
            have e2 : cs.dropWhile isPySpace =
                (cs.dropWhile isPySpace).takeWhile isDigitComma ++ c3 :: s4 := by
              conv_lhs => rw [← List.takeWhile_append_dropWhile isDigitComma
                (cs.dropWhile isPySpace)]
              rw [heq]
            conv_lhs => rw [e1, e2]
            simp
        · rename_i heq
          injection h with h2
          injection h2 with hn ht
          subst hn
          subst ht
          refine ⟨?_, by simp⟩
          have e1 : cs = cs.takeWhile isPySpace ++ cs.dropWhile isPySpace :=
            (List.takeWhile_append_dropWhile _ _).symm
          have e2 : cs.dropWhile isPySpace =
              (cs.dropWhile isPySpace).takeWhile isDigitComma ++ [] := by
            conv_lhs => rw [← List.takeWhile_append_dropWhile isDigitComma
              (cs.dropWhile isPySpace)]
            rw [heq]
          conv_lhs => rw [e1, e2]
          simp
    · rw [if_neg hsgn] at h
      dsimp only at h
      by_cases hds : (((c :: cs).dropWhile isPySpace).takeWhile isDigitComma).isEmpty
      · rw [if_pos hds] at h
        simp at h
      · rw [if_neg hds] at h
        have hne : ((c :: cs).dropWhile isPySpace).takeWhile isDigitComma ≠ [] := by
          simpa [List.isEmpty_iff] using hds
        split at h
        · rename_i c3 s4 heq
          by_cases hdot : c3 = '.'
          · rw [if_pos hdot] at h
            injection h with h2
            injection h2 with hn ht
            subst hn
            subst ht
            subst hdot
            refine ⟨?_, by simp [hne]⟩
            have e1 : (c :: cs) = (c :: cs).takeWhile isPySpace ++ (c :: cs).dropWhile isPySpace :=
              (List.takeWhile_append_dropWhile _ _).symm
            have e2 : (c :: cs).dropWhile isPySpace =
                ((c :: cs).dropWhile isPySpace).takeWhile isDigitComma ++ '.' :: s4 := by
              conv_lhs => rw [← List.takeWhile_append_dropWhile isDigitComma
                ((c :: cs).dropWhile isPySpace)]
              rw [heq]
            have e3 : s4 = s4.takeWhile isDigit ++ s4.dropWhile isDigit :=
              (List.takeWhile_append_dropWhile _ _).symm
            conv_lhs => rw [e1, e2]
            conv_lhs => rw [e3]
            simp
          · rw [if_neg hdot] at h
            injection h with h2
            injection h2 with hn ht
            subst hn
            subst ht
            refine ⟨?_, by simp [hne]⟩
            have e1 : (c :: cs) = (c :: cs).takeWhile isPySpace ++ (c :: cs).dropWhile isPySpace :=
              (List.takeWhile_append_dropWhile _ _).symm
            have e2 : (c :: cs).dropWhile isPySpace =
                ((c :: cs).dropWhile isPySpace).takeWhile isDigitComma ++ c3 :: s4 := by
              conv_lhs => rw [← List.takeWhile_append_dropWhile isDigitComma
                ((c :: cs).dropWhile isPySpace)]
              rw [heq]
            conv_lhs => rw [e1, e2]
            simp
        · rename_i heq
          injection h with h2
          injection h2 with hn ht
          subst hn
          subst ht
          refine ⟨?_, by simp [hne]⟩
          have e1 : (c :: cs) = (c :: cs).takeWhile isPySpace ++ (c :: cs).dropWhile isPySpace :=
            (List.takeWhile_append_dropWhile _ _).symm
          have e2 : (c :: cs).dropWhile isPySpace =
              ((c :: cs).dropWhile isPySpace).takeWhile isDigitComma ++ [] := by
            conv_lhs => rw [← List.takeWhile_append_dropWhile isDigitComma
              ((c :: cs).dropWhile isPySpace)]
            rw [heq]
          conv_lhs => rw [e1, e2]
          simp

theorem tryParseAt_sound (s n r : List Char) (h : tryParseAt s = some (n, r)) :
    ∃ w1 w2, s = w1 ++ n ++ w2 ++ r ∧ w1 ≠ [] ∧ w2 ≠ [] ∧
      (∀ c ∈ w1, isPySpace c = true) ∧ (∀ c ∈ w2, isPySpace c = true) ∧ n ≠ [] := by
  unfold tryParseAt at h
  dsimp only at h
  by_cases hw1 : (s.takeWhile isPySpace).isEmpty
  · rw [if_pos hw1] at h
    simp at h
  · rw [if_neg hw1] at h
    split at h
    · simp at h
    · rename_i n2 s2 hp
      by_cases hw2 : (s2.takeWhile isPySpace).isEmpty
      · rw [if_pos hw2] at h
        simp at h
      · rw [if_neg hw2] at h
        by_cases hcur : isCurrencyStart (s2.dropWhile isPySpace)
        · rw [if_pos hcur] at h
          injection h with h2
          injection h2 with hn hr
          obtain ⟨hrec, hnne⟩ := parseNumber_sound (s.dropWhile isPySpace) n2 s2 hp
          refine ⟨s.takeWhile isPySpace, s2.takeWhile isPySpace, ?_, ?_, ?_, ?_, ?_,
            hn ▸ hnne⟩
          · conv_lhs => rw [← List.takeWhile_append_dropWhile isPySpace s]
            rw [hrec, hn]
            conv_lhs => rw [show s2 = s2.takeWhile isPySpace ++ s2.dropWhile isPySpace from
              (List.takeWhile_append_dropWhile _ _).symm]
            rw [hr]
            simp
          · simpa [List.isEmpty_iff] using hw1
          · simpa [List.isEmpty_iff] using hw2
          · intro c hc
            exact List.mem_takeWhile_imp hc
          · intro c hc
            exact List.mem_takeWhile_imp hc
        · rw [if_neg hcur] at h
          simp at h

theorem matchNumberAux_sound (s : List Char) : ∀ (acc p n r : List Char),
    matchNumberAux acc s = some (p, n, r) →
    ∃ q w1 w2, p = acc.reverse ++ q ∧ s = q ++ (w1 ++ n ++ w2 ++ r) ∧
      w1 ≠ [] ∧ w2 ≠ [] ∧
      (∀ c ∈ w1, isPySpace c = true) ∧ (∀ c ∈ w2, isPySpace c = true) ∧
      (∀ c ∈ q, c ≠ '"' ∧ c ≠ ';') ∧ n ≠ [] ∧
      (∀ i, i < q.length → tryParseAt (q.drop i ++ (w1 ++ n ++ w2 ++ r)) = none) ∧
      tryParseAt (w1 ++ n ++ w2 ++ r) = some (n, r) := by
  induction s with
  | nil =>
    intro acc p n r h
    rw [matchNumberAux] at h
    cases htp : tryParseAt [] with
    | none => rw [htp] at h; simp at h
    | some v =>
      obtain ⟨n0, r0⟩ := v
      obtain ⟨w1, w2, hs, hw1, _, _, _, _⟩ := tryParseAt_sound [] n0 r0 htp
      exact absurd hs.symm (by simp [hw1])
  | cons c cs ih =>
    intro acc p n r h
    rw [matchNumberAux] at h
    cases htp : tryParseAt (c :: cs) with
    | some v =>
      obtain ⟨n0, r0⟩ := v
      rw [htp] at h
      injection h with h2
      injection h2 with hp h3
      injection h3 with hn hr
      rw [hn, hr] at htp
      subst hp
      obtain ⟨w1, w2, hs, hw1, hw2, ha1, ha2, hnne⟩ := tryParseAt_sound (c :: cs) n r htp
      refine ⟨[], w1, w2, by simp, by simpa using hs, hw1, hw2, ha1, ha2, by simp, hnne,
        by simp, ?_⟩
      rw [← hs]
      exact htp
    | none =>
      rw [htp] at h
      by_cases hbad : c = '"' ∨ c = ';'
      · rw [if_pos hbad] at h
        simp at h
      · rw [if_neg hbad] at h
        obtain ⟨q, w1, w2, hp, hcs, hw1, hw2, ha1, ha2, hq, hnne, hmin, hok⟩ :=
          ih (c :: acc) p n r h
        refine ⟨c :: q, w1, w2, ?_, by rw [List.cons_append, ← hcs], hw1, hw2, ha1, ha2,
          ?_, hnne, ?_, hok⟩
        · rw [hp, List.reverse_cons, List.append_assoc]
          rfl
        · intro d hd
          rcases List.mem_cons.mp hd with rfl | hd
          · exact ⟨fun hcon => hbad (Or.inl hcon), fun hcon => hbad (Or.inr hcon)⟩
          · exact hq d hd
        · intro i hi
          cases i with
          | zero =>
            rw [List.drop_zero, List.cons_append, ← hcs]
            exact htp
          | succ j =>
            rw [List.drop_succ_cons]
            exact hmin j (by simpa using hi)

theorem matchNumberLine_sound (l p n r : List Char) (h : matchNumberLine l = some (p, n, r)) :
    ∃ w1 w2, l = p ++ (w1 ++ n ++ w2 ++ r) ∧ w1 ≠ [] ∧ w2 ≠ [] ∧
      (∀ c ∈ w1, isPySpace c = true) ∧ (∀ c ∈ w2, isPySpace c = true) ∧
      (∀ c ∈ p, c ≠ '"' ∧ c ≠ ';') ∧ n ≠ [] ∧
      (∀ i, i < p.length → tryParseAt (p.drop i ++ (w1 ++ n ++ w2 ++ r)) = none) ∧
      tryParseAt (w1 ++ n ++ w2 ++ r) = some (n, r) := by
  obtain ⟨q, w1, w2, hp, hl, hw1, hw2, ha1, ha2, hq, hnne, hmin, hok⟩ :=
    matchNumberAux_sound l [] p n r h
  simp only [List.reverse_nil, List.nil_append] at hp
  subst hp
  exact ⟨w1, w2, hl, hw1, hw2, ha1, ha2, hq, hnne, hmin, hok⟩

/-! Character-class facts and splitting lemmas used by the alignment
invariants (claims C3 and C7). -/

theorem takeWhile_append_run (p : Char → Bool) (xs ys : List Char)
    (hxs : ∀ c ∈ xs, p c = true) :
    (xs ++ ys).takeWhile p = xs ++ ys.takeWhile p := by
  induction xs with
  | nil => rfl
  | cons a as ih =>
    have ha : p a = true := hxs a (by simp)
    simp only [List.cons_append, List.takeWhile_cons, ha, if_true]
    simp [ih (fun c hc => hxs c (by simp [hc]))]

theorem dropWhile_append_run (p : Char → Bool) (xs ys : List Char)
    (hxs : ∀ c ∈ xs, p c = true) :
    (xs ++ ys).dropWhile p = ys.dropWhile p := by
  induction xs with
  | nil => rfl
  | cons a as ih =>
    have ha : p a = true := hxs a (by simp)
    simp only [List.cons_append, List.dropWhile_cons, ha, if_true]
    exact ih (fun c hc => hxs c (by simp [hc]))

theorem pySpace_cases (c : Char) (h : isPySpace c = true) :
    c = ' ' ∨ c = '\t' ∨ c = '\n' ∨ c = '\x0d' ∨ c = '\x0b' ∨ c = '\x0c' ∨
    c = '\x1c' ∨ c = '\x1d' ∨ c = '\x1e' ∨ c = '\x1f' ∨ c = '\x85' ∨
    c = '\xa0' ∨ c = ' ' ∨ c = ' ' ∨
    c = ' ' ∨ c = ' ' ∨ c = ' ' ∨ c = ' ' ∨ c = ' ' ∨
    c = ' ' ∨ c = ' ' ∨ c = ' ' ∨ c = ' ' ∨ c = ' ' ∨
    c = ' ' ∨ c = ' ' ∨ c = ' ' ∨ c = ' ' ∨ c = '　' := by
  simpa [isPySpace] using h

/-- A whitespace character matches none of the other character classes of
the number-line regex and is neither a quote, a semicolon, a sign nor a
dot. -/
theorem pySpace_dead (c : Char) (h : isPySpace c = true) :
    isWordChar c = false ∧ isCurrencyInner c = false ∧ isUpperDigit c = false ∧
    isUpper c = false ∧ isDigitComma c = false ∧ isDigit c = false ∧
    c ≠ '"' ∧ c ≠ ';' ∧ c ≠ '.' ∧ c ≠ '-' ∧ c ≠ '+' := by
  rcases pySpace_cases c h with
    rfl|rfl|rfl|rfl|rfl|rfl|rfl|rfl|rfl|rfl|rfl|rfl|rfl|rfl|
    rfl|rfl|rfl|rfl|rfl|rfl|rfl|rfl|rfl|rfl|rfl|rfl|rfl|rfl|rfl <;>
    exact (by decide)

theorem upper_not_pySpace (c : Char) (h : isUpper c = true) : isPySpace c = false := by
  rcases hp : isPySpace c with _ | _
  · rfl
  · exact absurd h (by simp [(pySpace_dead c hp).2.2.2.1])

theorem indentWs_colWs (c : Char) (h : isIndentWs c = true) : isColWs c = true := by
  have h2 : c = ' ' ∨ c = '\t' := by simpa [isIndentWs] using h
  rcases h2 with rfl | rfl <;> rfl

theorem indentWs_not_upper (c : Char) (h : isIndentWs c = true) : isUpper c = false := by
  have h2 : c = ' ' ∨ c = '\t' := by simpa [isIndentWs] using h
  rcases h2 with rfl | rfl <;> rfl

theorem lineSep_pySpace (c : Char) (h : isLineSep c = true) : isPySpace c = true := by
  have h2 := by simpa [isLineSep] using h
  rcases h2 with rfl|rfl|rfl|rfl|rfl|rfl|rfl|rfl|rfl|rfl <;> rfl

theorem lineSep_colWs_eq_nl (c : Char) (h : isLineSep c = true) (h2 : isColWs c = true) :
    c = '\n' := by
  have h3 := by simpa [isColWs] using h2
  rcases h3 with rfl | rfl | rfl
  · exact absurd h (by decide)
  · exact absurd h (by decide)
  · rfl

/-! Equations for `pySplitlines` (its second pattern overlaps the third,
so the equation lemmas carry side conditions). -/

theorem pySplitlines_crlf (cs : List Char) :
    pySplitlines ('\x0d' :: '\n' :: cs) = [] :: pySplitlines cs := rfl

theorem pySplitlines_cons (c : Char) (cs : List Char) (hc : c ≠ '\x0d') :
    pySplitlines (c :: cs) =
      if isLineSep c then [] :: pySplitlines cs
      else
        match pySplitlines cs with
        | [] => [[c]]
        | l :: ls => (c :: l) :: ls := by
  rw [pySplitlines.eq_def]
  split
  · simp_all
  · rename_i h
    injection h with h1 h2
    exact absurd h1 (by simpa using hc)
  · rename_i h1 h2 heq
    injection heq with e1 e2
    subst e1
    subst e2
    rfl

theorem pySplitlines_cr (cs : List Char) (hcs : cs = [] ∨ ∃ d t, cs = d :: t ∧ d ≠ '\n') :
    pySplitlines ('\x0d' :: cs) = [] :: pySplitlines cs := by
  rcases hcs with rfl | ⟨d, t, rfl, hd⟩
  · rfl
  · rw [pySplitlines.eq_def]
    split
    · simp_all
    · rename_i h
      injection h with h1 h2
      injection h2 with h3 h4
      exact absurd h3 (by simpa using hd)
    · rename_i h1 h2 heq
      injection heq with e1 e2
      subst e1
      subst e2
      rw [if_pos (by decide)]

theorem pySplitlines_cons_sep (c : Char) (cs : List Char) (hsep : isLineSep c = true)
    (hne : ∀ t, c = '\x0d' → cs = '\n' :: t → False) :
    pySplitlines (c :: cs) = [] :: pySplitlines cs := by
  by_cases hc : c = '\x0d'
  · subst hc
    apply pySplitlines_cr
    cases cs with
    | nil => exact Or.inl rfl
    | cons d t =>
      refine Or.inr ⟨d, t, rfl, ?_⟩
      intro hcon
      subst hcon
      exact hne t rfl rfl
  · rw [pySplitlines_cons c cs hc, if_pos hsep]

theorem pySplitlines_cons_notsep (c : Char) (cs : List Char) (hsep : isLineSep c = false) :
    pySplitlines (c :: cs) =
      match pySplitlines cs with
      | [] => [[c]]
      | l :: ls => (c :: l) :: ls := by
  have hc : c ≠ '\x0d' := by
    intro hcon
    subst hcon
    simp [isLineSep] at hsep
  rw [pySplitlines_cons c cs hc, if_neg (by simp [hsep])]

theorem pySplitlines_eq_nil_iff (s : List Char) : pySplitlines s = [] ↔ s = [] := by
  constructor
  · intro h
    cases s with
    | nil => rfl
    | cons c cs =>
      by_cases hsep : isLineSep c
      · by_cases hc : c = '\x0d'
        · subst hc
          cases cs with
          | nil => simp [pySplitlines_cr [] (Or.inl rfl)] at h
          | cons d t =>
            by_cases hd : d = '\n'
            · subst hd
              simp [pySplitlines_crlf] at h
            · rw [pySplitlines_cr (d :: t) (Or.inr ⟨d, t, rfl, hd⟩)] at h
              simp at h
        · rw [pySplitlines_cons c cs hc, if_pos hsep] at h
          simp at h
      · rw [pySplitlines_cons_notsep c cs (by simpa using hsep)] at h
        rcases hx : pySplitlines cs with _ | ⟨l, ls⟩ <;> rw [hx] at h <;> simp at h
  · intro h
    subst h
    rfl

/-- No character of any line returned by `pySplitlines` is a line
separator. -/
theorem pySplitlines_no_sep (s : List Char) :
    ∀ l ∈ pySplitlines s, ∀ c ∈ l, isLineSep c = false := by
  induction s using pySplitlines.induct with
  | case1 =>
    intro l hl
    simp [pySplitlines] at hl
  | case2 cs ih =>
    intro l hl c hc
    rw [pySplitlines_crlf] at hl
    rcases List.mem_cons.mp hl with rfl | hl
    · simp at hc
    · exact ih l hl c hc
  | case3 c cs hne hsep ih =>
    intro l hl d hd
    rw [pySplitlines_cons_sep c cs hsep (fun t h1 h2 => hne t h1 h2)] at hl
    rcases List.mem_cons.mp hl with rfl | hl
    · simp at hd
    · exact ih l hl d hd
  | case4 c cs hne hsep hnil ih =>
    intro l hl d hd
    rw [pySplitlines_cons_notsep c cs (by simpa using hsep), hnil] at hl
    simp only [List.mem_singleton] at hl
    subst hl
    rcases List.mem_singleton.mp hd with rfl
    simpa using hsep
  | case5 c cs hne hsep l2 ls hx ih =>
    intro l hl d hd
    rw [pySplitlines_cons_notsep c cs (by simpa using hsep), hx] at hl
    rcases List.mem_cons.mp hl with rfl | hl
    · rcases List.mem_cons.mp hd with rfl | hd2
      · simpa using hsep
      · exact ih l2 (by simp [hx]) d hd2
    · exact ih l (by simp [hx, hl]) d hd

/-- Every character of a line of `pySplitlines` occurs in the text. -/
theorem mem_pySplitlines (s : List Char) :
    ∀ l ∈ pySplitlines s, ∀ c ∈ l, c ∈ s := by
  induction s using pySplitlines.induct with
  | case1 =>
    intro l hl
    simp [pySplitlines] at hl
  | case2 cs ih =>
    intro l hl c hc
    rw [pySplitlines_crlf] at hl
    rcases List.mem_cons.mp hl with rfl | hl
    · simp at hc
    · simp [ih l hl c hc]
  | case3 c cs hne hsep ih =>
    intro l hl d hd
    rw [pySplitlines_cons_sep c cs hsep (fun t h1 h2 => hne t h1 h2)] at hl
    rcases List.mem_cons.mp hl with rfl | hl
    · simp at hd
    · simp [ih l hl d hd]
  | case4 c cs hne hsep hnil ih =>
    intro l hl d hd
    rw [pySplitlines_cons_notsep c cs (by simpa using hsep), hnil] at hl
    simp only [List.mem_singleton] at hl
    subst hl
    rcases List.mem_singleton.mp hd with rfl
    simp
  | case5 c cs hne hsep l2 ls hx ih =>
    intro l hl d hd
    rw [pySplitlines_cons_notsep c cs (by simpa using hsep), hx] at hl
    rcases List.mem_cons.mp hl with rfl | hl
    · rcases List.mem_cons.mp hd with rfl | hd2
      · simp
      · simp [ih l2 (by simp [hx]) d hd2]
    · simp [ih l (by simp [hx, hl]) d hd]

theorem joinLines_nil : joinLines [] = [] := rfl

theorem joinLines_cons (l : List Char) (ls : List (List Char)) :
    joinLines (l :: ls) = l ++ '\n' :: joinLines ls := rfl

/-- Splitting a newline-free line followed by a newline recovers the
line. -/
theorem pySplitlines_append_line (l : List Char) (hl : ∀ c ∈ l, isLineSep c = false) :
    ∀ rest, pySplitlines (l ++ '\n' :: rest) = l :: pySplitlines rest := by
  induction l with
  | nil =>
    intro rest
    rw [List.nil_append, pySplitlines_cons '\n' rest (by decide), if_pos (by decide)]
  | cons c l2 ih =>
    intro rest
    have hc : isLineSep c = false := hl c (by simp)
    have hcr : c ≠ '\x0d' := by
      intro hcon
      subst hcon
      simp [isLineSep] at hc
    rw [List.cons_append, pySplitlines_cons c (l2 ++ '\n' :: rest) hcr,
      if_neg (by simp [hc]), ih (fun d hd => hl d (by simp [hd])) rest]

/-- `pySplitlines` inverts `joinLines` on lists of separator-free
lines. -/
theorem pySplitlines_joinLines (ls : List (List Char))
    (h : ∀ l ∈ ls, ∀ c ∈ l, isLineSep c = false) :
    pySplitlines (joinLines ls) = ls := by
  induction ls with
  | nil => rfl
  | cons l ls2 ih =>
    rw [joinLines_cons, pySplitlines_append_line l (h l (by simp)),
      ih (fun l2 hl2 => h l2 (by simp [hl2]))]

/-- On texts whose only line separator is a plain newline, the text is
recovered from its lines by interposing newlines, with at most one
trailing newline left over. -/
theorem pySplitlines_interBy (t : List Char)
    (hsep : ∀ c ∈ t, isLineSep c = true → c = '\n') :
    ∃ tl, t = interBy '\n' (pySplitlines t) ++ tl ∧ (tl = [] ∨ tl = ['\n']) := by
  induction t with
  | nil => exact ⟨[], rfl, Or.inl rfl⟩
  | cons c cs ih =>
    obtain ⟨tl, htl, htl2⟩ := ih (fun d hd h => hsep d (by simp [hd]) h)
    have hcr : c ≠ '\x0d' := by
      intro hcon
      subst hcon
      exact absurd (hsep '\x0d' (by simp) (by decide)) (by decide)
    by_cases hnl : c = '\n'
    · subst hnl
      rw [pySplitlines_cons '\n' cs (by decide), if_pos (by decide)]
      rcases hx : pySplitlines cs with _ | ⟨l, ls⟩
      · have hcs : cs = [] := (pySplitlines_eq_nil_iff cs).mp hx
        subst hcs
        exact ⟨['\n'], rfl, Or.inr rfl⟩
      · refine ⟨tl, ?_, htl2⟩
        rw [show interBy '\n' ([] :: l :: ls) = [] ++ '\n' :: interBy '\n' (l :: ls) from rfl]
        rw [List.nil_append, ← hx]
        conv_lhs => rw [htl]
        rfl
    · have hns : isLineSep c = false := by
        rcases hx : isLineSep c with _ | _
        · rfl
        · exact absurd (hsep c (by simp) hx) hnl
      rw [pySplitlines_cons c cs hcr, if_neg (by simp [hns])]
      rcases hx : pySplitlines cs with _ | ⟨l, ls⟩
      · have hcs : cs = [] := (pySplitlines_eq_nil_iff cs).mp hx
        subst hcs
        exact ⟨[], rfl, Or.inl rfl⟩
      · refine ⟨tl, ?_, htl2⟩
        rw [interBy_word_cons, ← hx]
        conv_lhs => rw [htl]
        rfl

theorem colWords_interBy (ls : List (List Char)) :
    colWords (interBy '\n' ls) = (ls.map colWords).flatten := by
  induction ls with
  | nil => rfl
  | cons l ls2 ih =>
    cases ls2 with
    | nil => simp [interBy, colWords]
    | cons l2 ls3 =>
      rw [interBy_cons_cons]
      show wordsBy isColWs (l ++ '\n' :: interBy '\n' (l2 :: ls3)) = _
      rw [wordsBy_append_sep isColWs '\n' (by decide) l (interBy '\n' (l2 :: ls3))]
      rw [show wordsBy isColWs (interBy '\n' (l2 :: ls3)) =
        colWords (interBy '\n' (l2 :: ls3)) from rfl, ih]
      simp [colWords]

theorem colWords_joinLines (ls : List (List Char)) :
    colWords (joinLines ls) = (ls.map colWords).flatten := by
  induction ls with
  | nil => rfl
  | cons l ls2 ih =>
    rw [joinLines_cons]
    show wordsBy isColWs (l ++ '\n' :: joinLines ls2) = _
    rw [wordsBy_append_sep isColWs '\n' (by decide) l (joinLines ls2)]
    rw [show wordsBy isColWs (joinLines ls2) = colWords (joinLines ls2) from rfl, ih]
    simp [colWords]

/-- The column words of a text whose only line separator is a newline
are the concatenation of the column words of its lines. -/
theorem colWords_flatten (t : List Char)
    (hsep : ∀ c ∈ t, isLineSep c = true → c = '\n') :
    colWords t = ((pySplitlines t).map colWords).flatten := by
  obtain ⟨tl, htl, htl2⟩ := pySplitlines_interBy t hsep
  conv_lhs => rw [htl]
  rcases htl2 with rfl | rfl
  · rw [List.append_nil, colWords_interBy]
  · show wordsBy isColWs (interBy '\n' (pySplitlines t) ++ '\n' :: []) = _
    rw [wordsBy_append_sep isColWs '\n' (by decide) (interBy '\n' (pySplitlines t)) []]
    rw [show wordsBy isColWs (interBy '\n' (pySplitlines t)) =
      colWords (interBy '\n' (pySplitlines t)) from rfl, colWords_interBy]
    simp [wordsBy]

/-! Shape and stability facts for the number matcher, towards the
alignment invariants. -/

theorem dropWhile_head_not (p : Char → Bool) (s : List Char) :
    ∀ c cs, s.dropWhile p = c :: cs → p c = false := by
  induction s with
  | nil =>
    intro c cs h
    simp at h
  | cons a as ih =>
    intro c cs h
    rw [List.dropWhile_cons] at h
    by_cases ha : p a
    · rw [if_pos ha] at h
      exact ih c cs h
    · rw [if_neg ha] at h
      injection h with h1 h2
      subst h1
      simpa using ha

theorem digitComma_not_pySpace (c : Char) (h : isDigitComma c = true) : isPySpace c = false := by
  rcases hx : isPySpace c with _ | _
  · rfl
  · exact absurd h (by simp [(pySpace_dead c hx).2.2.2.2.1])

theorem digitComma_not_upper (c : Char) (h : isDigitComma c = true) : isUpper c = false := by
  have h2 : (('0' ≤ c ∧ c ≤ '9') ∨ c = ',') := by simpa [isDigitComma, isDigit] using h
  rcases h2 with ⟨h3, h4⟩ | rfl
  · rcases hx : isUpper c with _ | _
    · rfl
    · have h5 : 'A' ≤ c ∧ c ≤ 'Z' := by simpa [isUpper] using hx
      exact absurd (le_trans h5.1 h4) (by decide)
  · rfl

theorem sign_not_digitComma (c : Char) (h : c = '-' ∨ c = '+') : isDigitComma c = false := by
  rcases h with rfl | rfl <;> rfl

theorem sign_not_pySpace (c : Char) (h : c = '-' ∨ c = '+') : isPySpace c = false := by
  rcases h with rfl | rfl <;> rfl

theorem numShape_head (n : List Char) (hn : NumShape n) :
    ∃ c n2, n = c :: n2 ∧ isPySpace c = false ∧ isUpper c = false := by
  obtain ⟨sg, wsn, ds, fr, hdec, hsg, hds, hdsall, hfr⟩ := hn
  rcases hsg with ⟨rfl, rfl⟩ | ⟨c, hc, rfl, hwsn⟩
  · cases ds with
    | nil => exact absurd rfl hds
    | cons d ds2 =>
      have hd : isDigitComma d = true := hdsall d (by simp)
      exact ⟨d, ds2 ++ fr, by simp [hdec], digitComma_not_pySpace d hd,
        digitComma_not_upper d hd⟩
  · exact ⟨c, wsn ++ ds ++ fr, by simp [hdec], sign_not_pySpace c hc,
      by rcases hc with rfl | rfl <;> rfl⟩

theorem parseNumber_eq (s : List Char) :
    parseNumber s =
      match s with
      | c :: cs => if c = '-' ∨ c = '+' then numTail [c] cs else numTail [] (c :: cs)
      | [] => none := by
  cases s with
  | nil => rfl
  | cons c cs =>
    show parseNumber (c :: cs) =
      if c = '-' ∨ c = '+' then numTail [c] cs else numTail [] (c :: cs)
    by_cases hs : c = '-' ∨ c = '+'
    · rw [if_pos hs]
      unfold parseNumber numTail
      dsimp only
      rw [if_pos hs]
    · rw [if_neg hs]
      unfold parseNumber numTail
      dsimp only
      rw [if_neg hs]

/-- Decomposition of a successful `numTail`: the captured number is the
sign, the scanned whitespace, a nonempty digit/comma run and an optional
dot-led fraction. -/
theorem numTail_decomp (sg rest n t : List Char) (h : numTail sg rest = some (n, t)) :
    ∃ ds fr, n = sg ++ rest.takeWhile isPySpace ++ ds ++ fr ∧
      ds ≠ [] ∧ (∀ d ∈ ds, isDigitComma d = true) ∧
      (fr = [] ∨ ∃ fs, fr = '.' :: fs ∧ ∀ d ∈ fs, isDigit d = true) := by
  unfold numTail at h
  dsimp only at h
  by_cases hds : (((rest.dropWhile isPySpace).takeWhile isDigitComma).isEmpty : Bool) = true
  · rw [if_pos hds] at h
    simp at h
  · rw [if_neg hds] at h
    have hne : (rest.dropWhile isPySpace).takeWhile isDigitComma ≠ [] := by
      simpa [List.isEmpty_iff] using hds
    split at h
    · rename_i c s4 heq
      by_cases hdot : c = '.'
      · rw [if_pos hdot] at h
        injection h with h2
        injection h2 with hn ht
        subst hdot
        refine ⟨(rest.dropWhile isPySpace).takeWhile isDigitComma,
          '.' :: s4.takeWhile isDigit, ?_, hne, ?_, ?_⟩
        · rw [← hn]
        · intro d hd
          exact List.mem_takeWhile_imp hd
        · exact Or.inr ⟨s4.takeWhile isDigit, rfl, fun d hd => List.mem_takeWhile_imp hd⟩
      · rw [if_neg hdot] at h
        injection h with h2
        injection h2 with hn ht
        refine ⟨(rest.dropWhile isPySpace).takeWhile isDigitComma, [], ?_, hne, ?_, Or.inl rfl⟩
        · rw [← hn]
          simp
        · intro d hd
          exact List.mem_takeWhile_imp hd
    · injection h with h2
      injection h2 with hn ht
      refine ⟨(rest.dropWhile isPySpace).takeWhile isDigitComma, [], ?_, hne, ?_, Or.inl rfl⟩
      · rw [← hn]
        simp
      · intro d hd
        exact List.mem_takeWhile_imp hd

/-- A number parsed at a non-whitespace position has the `NumShape`
structure. -/
theorem parseNumber_shape (s n t : List Char)
    (hhead : ∀ c cs, s = c :: cs → isPySpace c = false)
    (h : parseNumber s = some (n, t)) : NumShape n := by
  rw [parseNumber_eq] at h
  cases s with
  | nil => simp at h
  | cons c cs =>
    dsimp only at h
    by_cases hs : c = '-' ∨ c = '+'
    · rw [if_pos hs] at h
      obtain ⟨ds, fr, hdec, hds, hdsall, hfr⟩ := numTail_decomp [c] cs n t h
      exact ⟨[c], cs.takeWhile isPySpace, ds, fr, hdec,
        Or.inr ⟨c, hs, rfl, fun d hd => List.mem_takeWhile_imp hd⟩, hds, hdsall, hfr⟩
    · rw [if_neg hs] at h
      obtain ⟨ds, fr, hdec, hds, hdsall, hfr⟩ := numTail_decomp [] (c :: cs) n t h
      have hw : (c :: cs).takeWhile isPySpace = [] := by
        rw [List.takeWhile_cons, hhead c cs rfl]
        rfl
      rw [hw] at hdec
      exact ⟨[], [], ds, fr, by simpa using hdec, Or.inl ⟨rfl, rfl⟩, hds, hdsall, hfr⟩

/-- The number and rest captured by a successful `tryParseAt` have the
number shape and start with a currency. -/
theorem tryParseAt_shape (s n r : List Char) (h : tryParseAt s = some (n, r)) :
    NumShape n ∧ isCurrencyStart r = true := by
  unfold tryParseAt at h
  dsimp only at h
  by_cases hw1 : ((s.takeWhile isPySpace).isEmpty : Bool) = true
  · rw [if_pos hw1] at h
    simp at h
  · rw [if_neg hw1] at h
    split at h
    · simp at h
    · rename_i n2 s2 hp
      by_cases hw2 : ((s2.takeWhile isPySpace).isEmpty : Bool) = true
      · rw [if_pos hw2] at h
        simp at h
      · rw [if_neg hw2] at h
        by_cases hcur : isCurrencyStart (s2.dropWhile isPySpace) = true
        · rw [if_pos hcur] at h
          injection h with h2
          injection h2 with hn hr
          have hshape := parseNumber_shape (s.dropWhile isPySpace) n2 s2
            (fun c cs hc => dropWhile_head_not isPySpace s c cs hc) hp
          exact ⟨hn ▸ hshape, hr ▸ hcur⟩
        · rw [if_neg hcur] at h
          simp at h

/-- Re-parsing a captured number at the front of a text that continues
with whitespace recaptures exactly the number. -/
theorem numTail_restart (sg wsn ds fr t : List Char)
    (hwsn : ∀ d ∈ wsn, isPySpace d = true)
    (hds : ds ≠ []) (hdsall : ∀ d ∈ ds, isDigitComma d = true)
    (hfr : fr = [] ∨ ∃ fs, fr = '.' :: fs ∧ ∀ d ∈ fs, isDigit d = true)
    (c : Char) (t2 : List Char) (ht : t = c :: t2) (htws : isPySpace c = true) :
    numTail sg (wsn ++ (ds ++ (fr ++ t))) = some (sg ++ wsn ++ ds ++ fr, t) := by
  obtain ⟨d, ds2, rfl⟩ : ∃ d ds2, ds = d :: ds2 := by
    cases ds with
    | nil => exact absurd rfl hds
    | cons d ds2 => exact ⟨d, ds2, rfl⟩
  have hdws : isPySpace d = false :=
    digitComma_not_pySpace d (hdsall d (by simp))
  unfold numTail
  dsimp only
  have e1 : (wsn ++ (d :: ds2 ++ (fr ++ t))).takeWhile isPySpace = wsn := by
    rw [show d :: ds2 ++ (fr ++ t) = d :: (ds2 ++ (fr ++ t)) from rfl]
    exact takeWhile_append_stop isPySpace wsn d (ds2 ++ (fr ++ t)) hwsn hdws
  have e2 : (wsn ++ (d :: ds2 ++ (fr ++ t))).dropWhile isPySpace = d :: (ds2 ++ (fr ++ t)) := by
    rw [show d :: ds2 ++ (fr ++ t) = d :: (ds2 ++ (fr ++ t)) from rfl]
    exact dropWhile_append_stop isPySpace wsn d (ds2 ++ (fr ++ t)) hwsn hdws
  rw [e1, e2]
  rcases hfr with rfl | ⟨fs, rfl, hfs⟩
  · have e3 : (d :: (ds2 ++ ([] ++ t))).takeWhile isDigitComma = d :: ds2 := by
      rw [List.nil_append, ht, show (d :: (ds2 ++ (c :: t2))) = (d :: ds2) ++ c :: t2 by simp]
      exact takeWhile_append_stop isDigitComma (d :: ds2) c t2 hdsall
        ((pySpace_dead c htws).2.2.2.2.1)
    have e4 : (d :: (ds2 ++ ([] ++ t))).dropWhile isDigitComma = t := by
      rw [List.nil_append, ht, show (d :: (ds2 ++ (c :: t2))) = (d :: ds2) ++ c :: t2 by simp]
      exact dropWhile_append_stop isDigitComma (d :: ds2) c t2 hdsall
        ((pySpace_dead c htws).2.2.2.2.1)
    rw [e3, e4, if_neg (by simp)]
    rw [ht]
    dsimp only
    rw [if_neg (by simpa using (pySpace_dead c htws).2.2.2.2.2.2.2.2.1)]
    simp
  · have e3 : (d :: (ds2 ++ ('.' :: fs ++ t))).takeWhile isDigitComma = d :: ds2 := by
      rw [show (d :: (ds2 ++ ('.' :: fs ++ t))) = (d :: ds2) ++ '.' :: (fs ++ t) by simp]
      exact takeWhile_append_stop isDigitComma (d :: ds2) '.' (fs ++ t) hdsall (by decide)
    have e4 : (d :: (ds2 ++ ('.' :: fs ++ t))).dropWhile isDigitComma = '.' :: (fs ++ t) := by
      rw [show (d :: (ds2 ++ ('.' :: fs ++ t))) = (d :: ds2) ++ '.' :: (fs ++ t) by simp]
      exact dropWhile_append_stop isDigitComma (d :: ds2) '.' (fs ++ t) hdsall (by decide)
    rw [e3, e4, if_neg (by simp)]
    dsimp only
    rw [if_pos rfl]
    have e5 : (fs ++ t).takeWhile isDigit = fs := by
      rw [ht]
      exact takeWhile_append_stop isDigit fs c t2 hfs ((pySpace_dead c htws).2.2.2.2.2.1)
    have e6 : (fs ++ t).dropWhile isDigit = t := by
      rw [ht]
      exact dropWhile_append_stop isDigit fs c t2 hfs ((pySpace_dead c htws).2.2.2.2.2.1)
    rw [e5, e6]

/-- Re-parsing a `NumShape` number followed by whitespace succeeds and
captures exactly the number. -/
theorem parseNumber_restart (n t : List Char) (hn : NumShape n) (c : Char) (t2 : List Char)
    (ht : t = c :: t2) (htws : isPySpace c = true) :
    parseNumber (n ++ t) = some (n, t) := by
  obtain ⟨sg, wsn, ds, fr, hdec, hsg, hds, hdsall, hfr⟩ := hn
  rcases hsg with ⟨rfl, rfl⟩ | ⟨c0, hc0, rfl, hwsn⟩
  · obtain ⟨d, ds2, rfl⟩ : ∃ d ds2, ds = d :: ds2 := by
      cases ds with
      | nil => exact absurd rfl hds
      | cons d ds2 => exact ⟨d, ds2, rfl⟩
    rw [hdec]
    rw [show ([] ++ [] ++ (d :: ds2) ++ fr) ++ t = d :: (ds2 ++ (fr ++ t)) by simp]
    rw [parseNumber_eq]
    dsimp only
    rw [if_neg (by
      intro hcon
      exact absurd (hdsall d (by simp)) (by simp [sign_not_digitComma d hcon]))]
    have := numTail_restart [] [] (d :: ds2) fr t (by simp) (by simp) hdsall hfr c t2 ht htws
    rw [show ([] : List Char) ++ (d :: ds2 ++ (fr ++ t)) = d :: (ds2 ++ (fr ++ t)) by simp] at this
    rw [this]
  · rw [hdec]
    rw [show ([c0] ++ wsn ++ ds ++ fr) ++ t = c0 :: (wsn ++ (ds ++ (fr ++ t))) by simp]
    rw [parseNumber_eq]
    dsimp only
    rw [if_pos hc0]
    rw [numTail_restart [c0] wsn ds fr t hwsn hds hdsall hfr c t2 ht htws]

theorem currencyStart_head (r : List Char) (h : isCurrencyStart r = true) :
    ∃ c r2, r = c :: r2 ∧ isUpper c = true ∧ isPySpace c = false := by
  cases r with
  | nil => simp [isCurrencyStart] at h
  | cons c r2 =>
    have h2 : isUpper c = true ∧ currencyTail 22 r2 = true := by
      simpa [isCurrencyStart, Bool.and_eq_true] using h
    exact ⟨c, r2, rfl, h2.1, upper_not_pySpace c h2.1⟩

theorem boundaryOk_ws (c : Char) (x : List Char) (hc : isPySpace c = true) :
    boundaryOk (c :: x) = true := by
  simp [boundaryOk, (pySpace_dead c hc).1]

theorem currencyTail_ws_head (f : Nat) (c : Char) (x : List Char) (hc : isPySpace c = true) :
    currencyTail f (c :: x) = false := by
  cases f with
  | zero => simp [currencyTail, (pySpace_dead c hc).2.2.1]
  | succ f1 => simp [currencyTail, (pySpace_dead c hc).2.2.1, (pySpace_dead c hc).2.1]

/-- The currency scan cannot distinguish two whitespace-led tails. -/
theorem currencyTail_transfer (t t2 : List Char)
    (c1 : Char) (x1 : List Char) (ht : t = c1 :: x1) (hc1 : isPySpace c1 = true)
    (c2 : Char) (x2 : List Char) (ht2 : t2 = c2 :: x2) (hc2 : isPySpace c2 = true) :
    ∀ (v : List Char) (f : Nat), currencyTail f (v ++ t) = currencyTail f (v ++ t2) := by
  intro v
  induction v with
  | nil =>
    intro f
    rw [List.nil_append, List.nil_append, ht, ht2,
      currencyTail_ws_head f c1 x1 hc1, currencyTail_ws_head f c2 x2 hc2]
  | cons a v2 ih =>
    intro f
    have hb : boundaryOk (v2 ++ t) = boundaryOk (v2 ++ t2) := by
      cases v2 with
      | nil =>
        rw [List.nil_append, List.nil_append, ht, ht2,
          boundaryOk_ws c1 x1 hc1, boundaryOk_ws c2 x2 hc2]
      | cons b v3 => rfl
    cases f with
    | zero =>
      show ((isUpperDigit a && boundaryOk (v2 ++ t)) || false) =
        ((isUpperDigit a && boundaryOk (v2 ++ t2)) || false)
      rw [hb]
    | succ f1 =>
      show ((isUpperDigit a && boundaryOk (v2 ++ t)) ||
          (isCurrencyInner a && currencyTail f1 (v2 ++ t))) =
        ((isUpperDigit a && boundaryOk (v2 ++ t2)) ||
          (isCurrencyInner a && currencyTail f1 (v2 ++ t2)))
      rw [hb, ih f1]

theorem isCurrencyStart_transfer (t t2 : List Char)
    (c1 : Char) (x1 : List Char) (ht : t = c1 :: x1) (hc1 : isPySpace c1 = true)
    (c2 : Char) (x2 : List Char) (ht2 : t2 = c2 :: x2) (hc2 : isPySpace c2 = true)
    (v : List Char) :
    isCurrencyStart (v ++ t) = isCurrencyStart (v ++ t2) := by
  cases v with
  | nil =>
    rw [List.nil_append, List.nil_append, ht, ht2]
    show (isUpper c1 && currencyTail 22 x1) = (isUpper c2 && currencyTail 22 x2)
    rw [(pySpace_dead c1 hc1).2.2.2.1, (pySpace_dead c2 hc2).2.2.2.1]
    rfl
  | cons a v2 =>
    show (isUpper a && currencyTail 22 (v2 ++ t)) = (isUpper a && currencyTail 22 (v2 ++ t2))
    rw [currencyTail_transfer t t2 c1 x1 ht hc1 c2 x2 ht2 hc2 v2 22]

theorem isEmpty_false_of_ne_nil (s : List Char) (h : s ≠ []) : (s.isEmpty : Bool) = false := by
  cases s with
  | nil => exact absurd rfl h
  | cons a t => rfl

/-- Evaluation scheme for `numTail` from computed scan results. -/
theorem numTail_compute (sg rest wsn rest2 ds rest3 : List Char)
    (hws : rest.takeWhile isPySpace = wsn) (hdrop : rest.dropWhile isPySpace = rest2)
    (hds : rest2.takeWhile isDigitComma = ds)
    (hdrop2 : rest2.dropWhile isDigitComma = rest3) :
    numTail sg rest =
      if ds.isEmpty then none
      else
        match rest3 with
        | c :: s4 =>
          if c = '.' then
            some (sg ++ wsn ++ ds ++ '.' :: s4.takeWhile isDigit, s4.dropWhile isDigit)
          else some (sg ++ wsn ++ ds, c :: s4)
        | [] => some (sg ++ wsn ++ ds, []) := by
  unfold numTail
  dsimp only
  rw [hws, hdrop, hds, hdrop2]

/-- Evaluation scheme for `tryParseAt` from computed scan results. -/
theorem tryParseAt_compute (s w1 s1 : List Char)
    (h1 : s.takeWhile isPySpace = w1) (h2 : s.dropWhile isPySpace = s1) :
    tryParseAt s =
      if w1.isEmpty then none
      else
        match parseNumber s1 with
        | none => none
        | some (n, s2) =>
          if (s2.takeWhile isPySpace).isEmpty then none
          else if isCurrencyStart (s2.dropWhile isPySpace) then some (n, s2.dropWhile isPySpace)
          else none := by
  unfold tryParseAt
  dsimp only
  rw [h1, h2]

theorem u_takeWhile_ws (wA n wB r : List Char) (hAws : ∀ c ∈ wA, isPySpace c = true)
    (c0 : Char) (n2 : List Char) (hn0 : n = c0 :: n2) (hc0 : isPySpace c0 = false) :
    (wA ++ (n ++ (wB ++ r))).takeWhile isPySpace = wA := by
  rw [takeWhile_append_run isPySpace wA _ hAws, hn0, List.cons_append, List.takeWhile_cons, hc0]
  simp

theorem u_dropWhile_ws (wA n wB r : List Char) (hAws : ∀ c ∈ wA, isPySpace c = true)
    (c0 : Char) (n2 : List Char) (hn0 : n = c0 :: n2) (hc0 : isPySpace c0 = false) :
    (wA ++ (n ++ (wB ++ r))).dropWhile isPySpace = n ++ (wB ++ r) := by
  rw [dropWhile_append_run isPySpace wA _ hAws, hn0, List.cons_append, List.dropWhile_cons, hc0]
  simp

theorem tryParseAt_ws_lead (b g : List Char) (hb : b ≠ [])
    (hbws : ∀ c ∈ b, isPySpace c = true) :
    tryParseAt (b ++ g) = tryParseAt (' ' :: g) := by
  rw [tryParseAt_compute (b ++ g) (b ++ g.takeWhile isPySpace) (g.dropWhile isPySpace)
    (takeWhile_append_run isPySpace b g hbws) (dropWhile_append_run isPySpace b g hbws)]
  rw [tryParseAt_compute (' ' :: g) (' ' :: g.takeWhile isPySpace) (g.dropWhile isPySpace)
    (by rw [List.takeWhile_cons]; rfl) (by rw [List.dropWhile_cons]; rfl)]
  rw [isEmpty_false_of_ne_nil _ (by simp [hb]), isEmpty_false_of_ne_nil _ (by simp)]

theorem tryParseAt_head_not_ws (c : Char) (g : List Char) (hc : isPySpace c = false) :
    tryParseAt (c :: g) = none := by
  rw [tryParseAt_compute (c :: g) [] (c :: g)
    (by rw [List.takeWhile_cons, hc]; rfl) (by rw [List.dropWhile_cons, hc]; rfl)]
  rfl

/-- The tail pattern of the number-line regex succeeds at a
whitespace-number-whitespace-currency position and captures exactly the
number and the currency-led rest. -/
theorem tryParseAt_at_number (wA n wB r : List Char)
    (hA : wA ≠ []) (hAws : ∀ c ∈ wA, isPySpace c = true)
    (hB : wB ≠ []) (hBws : ∀ c ∈ wB, isPySpace c = true)
    (hn : NumShape n) (hr : isCurrencyStart r = true) :
    tryParseAt (wA ++ (n ++ (wB ++ r))) = some (n, r) := by
  obtain ⟨c0, n2, hn0, hc0, hc0u⟩ := numShape_head n hn
  obtain ⟨cr, r2, hr0, hcru, hcrws⟩ := currencyStart_head r hr
  obtain ⟨cb, wb2, rfl⟩ : ∃ cb wb2, wB = cb :: wb2 := by
    cases wB with
    | nil => exact absurd rfl hB
    | cons cb wb2 => exact ⟨cb, wb2, rfl⟩
  have hcb : isPySpace cb = true := hBws cb (by simp)
  rw [tryParseAt_compute _ wA (n ++ (cb :: wb2 ++ r))
    (u_takeWhile_ws wA n (cb :: wb2) r hAws c0 n2 hn0 hc0)
    (u_dropWhile_ws wA n (cb :: wb2) r hAws c0 n2 hn0 hc0)]
  rw [isEmpty_false_of_ne_nil wA hA]
  rw [show n ++ (cb :: wb2 ++ r) = n ++ (cb :: (wb2 ++ r)) from rfl]
  rw [parseNumber_restart n (cb :: (wb2 ++ r)) hn cb (wb2 ++ r) rfl hcb]
  dsimp only
  have e1 : (cb :: (wb2 ++ r)).takeWhile isPySpace = cb :: (wb2 ++ r.takeWhile isPySpace) := by
    rw [List.takeWhile_cons, hcb, if_pos rfl,
      takeWhile_append_run isPySpace wb2 r (fun d hd => hBws d (by simp [hd]))]
  have e2 : (cb :: (wb2 ++ r)).dropWhile isPySpace = r := by
    rw [List.dropWhile_cons, hcb, if_pos rfl,
      dropWhile_append_run isPySpace wb2 r (fun d hd => hBws d (by simp [hd]))]
    rw [hr0, List.dropWhile_cons, hcrws]
    rfl
  rw [e1, e2]
  rw [if_pos hr]
  simp

/-- When everything before a sign-led number is whitespace, the digit
scan of `numTail` fails (the sign character stops it). -/
theorem numTail_ws_all_sign (sg rest0 wA Y : List Char) (cs0 : Char)
    (hrws : ∀ c ∈ rest0, isPySpace c = true)
    (hAws : ∀ c ∈ wA, isPySpace c = true)
    (hcs0 : cs0 = '-' ∨ cs0 = '+') :
    numTail sg (rest0 ++ (wA ++ (cs0 :: Y))) = none := by
  have hall : ∀ c ∈ rest0 ++ wA, isPySpace c = true := by
    intro c hc
    rcases List.mem_append.mp hc with h | h
    · exact hrws c h
    · exact hAws c h
  have e0 : rest0 ++ (wA ++ (cs0 :: Y)) = (rest0 ++ wA) ++ (cs0 :: Y) := by simp
  rw [e0]
  rw [numTail_compute sg ((rest0 ++ wA) ++ (cs0 :: Y)) (rest0 ++ wA) (cs0 :: Y) [] (cs0 :: Y)
    (takeWhile_append_stop isPySpace (rest0 ++ wA) cs0 Y hall (sign_not_pySpace cs0 hcs0))
    (dropWhile_append_stop isPySpace (rest0 ++ wA) cs0 Y hall (sign_not_pySpace cs0 hcs0))
    (by rw [List.takeWhile_cons, sign_not_digitComma cs0 hcs0]; rfl)
    (by rw [List.dropWhile_cons, sign_not_digitComma cs0 hcs0]; rfl)]
  rfl

/-- When everything before an unsigned number is whitespace, `numTail`
captures it together with the leading whitespace, stopping at the
whitespace after the number. -/
theorem numTail_ws_all_nosign (sg rest0 wA wB r ds0 fr0 : List Char)
    (hrws : ∀ c ∈ rest0, isPySpace c = true)
    (hAws : ∀ c ∈ wA, isPySpace c = true)
    (hB : wB ≠ []) (hBws : ∀ c ∈ wB, isPySpace c = true)
    (hds0 : ds0 ≠ []) (hds0all : ∀ d ∈ ds0, isDigitComma d = true)
    (hfr0 : fr0 = [] ∨ ∃ fs, fr0 = '.' :: fs ∧ ∀ d ∈ fs, isDigit d = true) :
    numTail sg (rest0 ++ (wA ++ ((ds0 ++ fr0) ++ (wB ++ r)))) =
      some (sg ++ (rest0 ++ wA) ++ (ds0 ++ fr0), wB ++ r) := by
  obtain ⟨d0, ds02, rfl⟩ : ∃ d0 t, ds0 = d0 :: t := by
    cases ds0 with
    | nil => exact absurd rfl hds0
    | cons d0 t => exact ⟨d0, t, rfl⟩
  obtain ⟨cb, wb2, rfl⟩ : ∃ cb t, wB = cb :: t := by
    cases wB with
    | nil => exact absurd rfl hB
    | cons cb t => exact ⟨cb, t, rfl⟩
  have hcb : isPySpace cb = true := hBws cb (by simp)
  have hd0 : isPySpace d0 = false := digitComma_not_pySpace d0 (hds0all d0 (by simp))
  have hall : ∀ c ∈ rest0 ++ wA, isPySpace c = true := by
    intro c hc
    rcases List.mem_append.mp hc with h | h
    · exact hrws c h
    · exact hAws c h
  have e0 : rest0 ++ (wA ++ (((d0 :: ds02) ++ fr0) ++ (cb :: wb2 ++ r))) =
      (rest0 ++ wA) ++ (d0 :: (ds02 ++ (fr0 ++ (cb :: (wb2 ++ r))))) := by simp
  rcases hfr0 with rfl | ⟨fs0, rfl, hfs0⟩
  · have e1 : (d0 :: (ds02 ++ ([] ++ (cb :: (wb2 ++ r))))) =
        (d0 :: ds02) ++ (cb :: (wb2 ++ r)) := by simp
    rw [e0]
    rw [numTail_compute sg _ (rest0 ++ wA) (d0 :: (ds02 ++ ([] ++ (cb :: (wb2 ++ r)))))
      (d0 :: ds02) (cb :: (wb2 ++ r))
      (takeWhile_append_stop isPySpace (rest0 ++ wA) d0 _ hall hd0)
      (dropWhile_append_stop isPySpace (rest0 ++ wA) d0 _ hall hd0)
      (by
        rw [e1]
        exact takeWhile_append_stop isDigitComma (d0 :: ds02) cb (wb2 ++ r) hds0all
          ((pySpace_dead cb hcb).2.2.2.2.1))
      (by
        rw [e1]
        exact dropWhile_append_stop isDigitComma (d0 :: ds02) cb (wb2 ++ r) hds0all
          ((pySpace_dead cb hcb).2.2.2.2.1))]
    rw [if_neg (by simp)]
    dsimp only
    rw [if_neg (by simpa using (pySpace_dead cb hcb).2.2.2.2.2.2.2.2.1)]
    simp
  · have e1 : (d0 :: (ds02 ++ (('.' :: fs0) ++ (cb :: (wb2 ++ r))))) =
        (d0 :: ds02) ++ ('.' :: (fs0 ++ (cb :: (wb2 ++ r)))) := by simp
    rw [e0]
    rw [numTail_compute sg _ (rest0 ++ wA) (d0 :: (ds02 ++ (('.' :: fs0) ++ (cb :: (wb2 ++ r)))))
      (d0 :: ds02) ('.' :: (fs0 ++ (cb :: (wb2 ++ r))))
      (takeWhile_append_stop isPySpace (rest0 ++ wA) d0 _ hall hd0)
      (dropWhile_append_stop isPySpace (rest0 ++ wA) d0 _ hall hd0)
      (by
        rw [e1]
        exact takeWhile_append_stop isDigitComma (d0 :: ds02) '.' _ hds0all (by decide))
      (by
        rw [e1]
        exact dropWhile_append_stop isDigitComma (d0 :: ds02) '.' _ hds0all (by decide))]
    rw [if_neg (by simp)]
    dsimp only
    rw [if_pos rfl]
    rw [takeWhile_append_stop isDigit fs0 cb (wb2 ++ r) hfs0 ((pySpace_dead cb hcb).2.2.2.2.2.1)]
    rw [dropWhile_append_stop isDigit fs0 cb (wb2 ++ r) hfs0 ((pySpace_dead cb hcb).2.2.2.2.2.1)]
    simp

/-- When the text before the appended tail contains a non-whitespace
character, the result of `numTail` is determined before the tail: it
fails, or captures a number with a nonempty remainder of the scanned
text, or stops exactly at the tail — uniformly in every whitespace-led
tail. -/
theorem numTail_mid_generic (sg rest0 : List Char) (d : Char) (rr2 : List Char)
    (hy : rest0.dropWhile isPySpace = d :: rr2) :
    (∀ X cx x2, X = cx :: x2 → isPySpace cx = true → numTail sg (rest0 ++ X) = none) ∨
    (∃ m v, v ≠ [] ∧ ∀ X cx x2, X = cx :: x2 → isPySpace cx = true →
      numTail sg (rest0 ++ X) = some (m, v ++ X)) ∨
    (∃ m, ∀ X cx x2, X = cx :: x2 → isPySpace cx = true →
      numTail sg (rest0 ++ X) = some (m, X)) := by
  have hd : isPySpace d = false := dropWhile_head_not isPySpace rest0 d rr2 hy
  have hrdec : rest0 = rest0.takeWhile isPySpace ++ (d :: rr2) := by
    conv_lhs => rw [← List.takeWhile_append_dropWhile isPySpace rest0]
    rw [hy]
  have hrw0 : ∀ c ∈ rest0.takeWhile isPySpace, isPySpace c = true :=
    fun c hc => List.mem_takeWhile_imp hc
  have eTake : ∀ X : List Char,
      (rest0 ++ X).takeWhile isPySpace = rest0.takeWhile isPySpace := by
    intro X
    conv_lhs => rw [hrdec]
    rw [show (rest0.takeWhile isPySpace ++ (d :: rr2)) ++ X =
      rest0.takeWhile isPySpace ++ (d :: (rr2 ++ X)) by simp]
    exact takeWhile_append_stop isPySpace _ d _ hrw0 hd
  have eDrop : ∀ X : List Char,
      (rest0 ++ X).dropWhile isPySpace = d :: (rr2 ++ X) := by
    intro X
    conv_lhs => rw [hrdec]
    rw [show (rest0.takeWhile isPySpace ++ (d :: rr2)) ++ X =
      rest0.takeWhile isPySpace ++ (d :: (rr2 ++ X)) by simp]
    exact dropWhile_append_stop isPySpace _ d _ hrw0 hd
  rcases hz2 : (d :: rr2).dropWhile isDigitComma with _ | ⟨e, z3⟩
  · -- the whole scanned run is digits/commas: the number stops exactly
    -- at the tail
    have hzall : ∀ c ∈ d :: rr2, isDigitComma c = true := by
      intro c hc
      exact (List.dropWhile_eq_nil_iff).mp hz2 c hc
    refine Or.inr (Or.inr ⟨sg ++ rest0.takeWhile isPySpace ++ (d :: rr2), ?_⟩)
    intro X cx x2 hX hcx
    rw [numTail_compute sg (rest0 ++ X) (rest0.takeWhile isPySpace) (d :: (rr2 ++ X))
      (d :: rr2) X (eTake X) (eDrop X)
      (by
        rw [show d :: (rr2 ++ X) = (d :: rr2) ++ X from rfl,
          takeWhile_append_run isDigitComma (d :: rr2) X hzall, hX,
          List.takeWhile_cons, (pySpace_dead cx hcx).2.2.2.2.1]
        simp)
      (by
        rw [show d :: (rr2 ++ X) = (d :: rr2) ++ X from rfl,
          dropWhile_append_run isDigitComma (d :: rr2) X hzall, hX,
          List.dropWhile_cons, (pySpace_dead cx hcx).2.2.2.2.1]
        rfl)]
    rw [if_neg (by simp), hX]
    dsimp only
    rw [if_neg (by simpa using (pySpace_dead cx hcx).2.2.2.2.2.2.2.2.1)]
  · have he : isDigitComma e = false := dropWhile_head_not isDigitComma (d :: rr2) e z3 hz2
    have hzdec : d :: rr2 = (d :: rr2).takeWhile isDigitComma ++ (e :: z3) := by
      conv_lhs => rw [← List.takeWhile_append_dropWhile isDigitComma (d :: rr2)]
      rw [hz2]
    have hzdall : ∀ c ∈ (d :: rr2).takeWhile isDigitComma, isDigitComma c = true :=
      fun c hc => List.mem_takeWhile_imp hc
    have eTake2 : ∀ X : List Char,
        (d :: (rr2 ++ X)).takeWhile isDigitComma = (d :: rr2).takeWhile isDigitComma := by
      intro X
      rw [show d :: (rr2 ++ X) = (d :: rr2) ++ X from rfl]
      conv_lhs => rw [hzdec]
      rw [show ((d :: rr2).takeWhile isDigitComma ++ (e :: z3)) ++ X =
        (d :: rr2).takeWhile isDigitComma ++ (e :: (z3 ++ X)) by simp]
      exact takeWhile_append_stop isDigitComma _ e _ hzdall he
    have eDrop2 : ∀ X : List Char,
        (d :: (rr2 ++ X)).dropWhile isDigitComma = e :: (z3 ++ X) := by
      intro X
      rw [show d :: (rr2 ++ X) = (d :: rr2) ++ X from rfl]
      conv_lhs => rw [hzdec]
      rw [show ((d :: rr2).takeWhile isDigitComma ++ (e :: z3)) ++ X =
        (d :: rr2).takeWhile isDigitComma ++ (e :: (z3 ++ X)) by simp]
      exact dropWhile_append_stop isDigitComma _ e _ hzdall he
    rcases hzd : (d :: rr2).takeWhile isDigitComma with _ | ⟨g0, zdr⟩
    · -- no digits at the scan point: failure, for every tail
      refine Or.inl ?_
      intro X cx x2 hX hcx
      rw [numTail_compute sg (rest0 ++ X) (rest0.takeWhile isPySpace) (d :: (rr2 ++ X))
        [] (e :: (z3 ++ X)) (eTake X) (eDrop X) (by rw [eTake2 X, hzd]) (eDrop2 X)]
      rfl
    · by_cases hedot : e = '.'
      · subst hedot
        rcases hz4 : z3.dropWhile isDigit with _ | ⟨f, z5⟩
        · -- the fraction digits run to the tail: the number stops
          -- exactly at the tail
          have hz3all : ∀ c ∈ z3, isDigit c = true :=
            fun c hc => (List.dropWhile_eq_nil_iff).mp hz4 c hc
          refine Or.inr (Or.inr ⟨sg ++ rest0.takeWhile isPySpace ++
            (d :: rr2).takeWhile isDigitComma ++ '.' :: z3, ?_⟩)
          intro X cx x2 hX hcx
          rw [numTail_compute sg (rest0 ++ X) (rest0.takeWhile isPySpace) (d :: (rr2 ++ X))
            ((d :: rr2).takeWhile isDigitComma) ('.' :: (z3 ++ X))
            (eTake X) (eDrop X) (eTake2 X) (eDrop2 X)]
          rw [if_neg (by simp [hzd])]
          dsimp only
          rw [if_pos rfl]
          rw [takeWhile_append_run isDigit z3 X hz3all,
            dropWhile_append_run isDigit z3 X hz3all, hX, List.takeWhile_cons,
            List.dropWhile_cons]
          simp [(pySpace_dead cx hcx).2.2.2.2.2.1]
        · -- the fraction digits stop before the tail
          have hf : isDigit f = false := dropWhile_head_not isDigit z3 f z5 hz4
          have hz3dec : z3 = z3.takeWhile isDigit ++ (f :: z5) := by
            conv_lhs => rw [← List.takeWhile_append_dropWhile isDigit z3]
            rw [hz4]
          have hz3all : ∀ c ∈ z3.takeWhile isDigit, isDigit c = true :=
            fun c hc => List.mem_takeWhile_imp hc
          refine Or.inr (Or.inl ⟨sg ++ rest0.takeWhile isPySpace ++
            (d :: rr2).takeWhile isDigitComma ++ '.' :: z3.takeWhile isDigit,
            f :: z5, by simp, ?_⟩)
          intro X cx x2 hX hcx
          rw [numTail_compute sg (rest0 ++ X) (rest0.takeWhile isPySpace) (d :: (rr2 ++ X))
            ((d :: rr2).takeWhile isDigitComma) ('.' :: (z3 ++ X))
            (eTake X) (eDrop X) (eTake2 X) (eDrop2 X)]
          rw [if_neg (by simp [hzd])]
          dsimp only
          rw [if_pos rfl]
          have e5 : (z3 ++ X).takeWhile isDigit = z3.takeWhile isDigit := by
            conv_lhs => rw [hz3dec]
            rw [show (z3.takeWhile isDigit ++ (f :: z5)) ++ X =
              z3.takeWhile isDigit ++ (f :: (z5 ++ X)) by simp]
            exact takeWhile_append_stop isDigit _ f _ hz3all hf
          have e6 : (z3 ++ X).dropWhile isDigit = f :: (z5 ++ X) := by
            conv_lhs => rw [hz3dec]
            rw [show (z3.takeWhile isDigit ++ (f :: z5)) ++ X =
              z3.takeWhile isDigit ++ (f :: (z5 ++ X)) by simp]
            exact dropWhile_append_stop isDigit _ f _ hz3all hf
          rw [e5, e6]
          simp
      · -- the character after the digits is not a dot: the number stops
        -- with a nonempty scanned remainder
        refine Or.inr (Or.inl ⟨sg ++ rest0.takeWhile isPySpace ++
          (d :: rr2).takeWhile isDigitComma, e :: z3, by simp, ?_⟩)
        intro X cx x2 hX hcx
        rw [numTail_compute sg (rest0 ++ X) (rest0.takeWhile isPySpace) (d :: (rr2 ++ X))
          ((d :: rr2).takeWhile isDigitComma) (e :: (z3 ++ X))
          (eTake X) (eDrop X) (eTake2 X) (eDrop2 X)]
        rw [if_neg (by simp [hzd])]
        dsimp only
        rw [if_neg hedot]
        simp

theorem parseNumber_eq_numTail_nosign (s : List Char)
    (hs : ∀ c cs, s = c :: cs → ¬(c = '-' ∨ c = '+')) :
    parseNumber s = numTail [] s := by
  rw [parseNumber_eq]
  cases s with
  | nil => rfl
  | cons c cs =>
    dsimp only
    rw [if_neg (hs c cs rfl)]

theorem parseNumber_eq_numTail_sign (c : Char) (cs : List Char) (hc : c = '-' ∨ c = '+') :
    parseNumber (c :: cs) = numTail [c] cs := by
  rw [parseNumber_eq]
  dsimp only
  rw [if_pos hc]

/-- `numTail` after a pure-whitespace context: by the shape of the
number, either the digit scan dies on the sign (both sides), or the
number is captured up to the whitespace after it (both sides). -/
theorem numTail_ws_transfer (wA wA2 wB wB2 n r : List Char)
    (hAws : ∀ c ∈ wA, isPySpace c = true)
    (hA2ws : ∀ c ∈ wA2, isPySpace c = true)
    (hB : wB ≠ []) (hBws : ∀ c ∈ wB, isPySpace c = true)
    (hB2 : wB2 ≠ []) (hB2ws : ∀ c ∈ wB2, isPySpace c = true)
    (hn : NumShape n) (sg R : List Char)
    (hRws : ∀ c ∈ R, isPySpace c = true) :
    (numTail sg (R ++ (wA ++ (n ++ (wB ++ r)))) = none ∧
      numTail sg (R ++ (wA2 ++ (n ++ (wB2 ++ r)))) = none) ∨
    (∃ m m2, numTail sg (R ++ (wA ++ (n ++ (wB ++ r)))) = some (m, wB ++ r) ∧
      numTail sg (R ++ (wA2 ++ (n ++ (wB2 ++ r)))) = some (m2, wB2 ++ r)) := by
  obtain ⟨sg0, wsn0, ds0, fr0, hdec, hsg0, hds0, hds0all, hfr0⟩ := hn
  rcases hsg0 with ⟨rfl, rfl⟩ | ⟨cs0, hcs0, rfl, hwsn0⟩
  · have hdec2 : n = ds0 ++ fr0 := by simpa using hdec
    refine Or.inr ⟨sg ++ (R ++ wA) ++ (ds0 ++ fr0), sg ++ (R ++ wA2) ++ (ds0 ++ fr0), ?_, ?_⟩
    · rw [hdec2]
      exact numTail_ws_all_nosign sg R wA wB r ds0 fr0 hRws hAws hB hBws hds0 hds0all hfr0
    · rw [hdec2]
      exact numTail_ws_all_nosign sg R wA2 wB2 r ds0 fr0 hRws hA2ws hB2 hB2ws hds0 hds0all hfr0
  · refine Or.inl ⟨?_, ?_⟩
    · rw [hdec, show ([cs0] ++ wsn0 ++ ds0 ++ fr0) ++ (wB ++ r) =
        cs0 :: (wsn0 ++ (ds0 ++ (fr0 ++ (wB ++ r)))) by simp]
      exact numTail_ws_all_sign sg R wA _ cs0 hRws hAws hcs0
    · rw [hdec, show ([cs0] ++ wsn0 ++ ds0 ++ fr0) ++ (wB2 ++ r) =
        cs0 :: (wsn0 ++ (ds0 ++ (fr0 ++ (wB2 ++ r)))) by simp]
      exact numTail_ws_all_sign sg R wA2 _ cs0 hRws hA2ws hcs0

/-- Replacing the whitespace runs around the matched number by other
nonempty whitespace runs leaves `parseNumber` attempts in corresponding
states: both fail, both stop at the same point of the scanned text, both
stop exactly at the run before the number, or both capture through the
number. -/
theorem parseNumber_transfer (wA wA2 wB wB2 n r : List Char)
    (hA : wA ≠ []) (hAws : ∀ c ∈ wA, isPySpace c = true)
    (hA2 : wA2 ≠ []) (hA2ws : ∀ c ∈ wA2, isPySpace c = true)
    (hB : wB ≠ []) (hBws : ∀ c ∈ wB, isPySpace c = true)
    (hB2 : wB2 ≠ []) (hB2ws : ∀ c ∈ wB2, isPySpace c = true)
    (hn : NumShape n) (hr : isCurrencyStart r = true) (y : List Char) :
    (parseNumber (y ++ (wA ++ (n ++ (wB ++ r)))) = none ∧
      parseNumber (y ++ (wA2 ++ (n ++ (wB2 ++ r)))) = none) ∨
    (∃ m v, v ≠ [] ∧
      parseNumber (y ++ (wA ++ (n ++ (wB ++ r)))) = some (m, v ++ (wA ++ (n ++ (wB ++ r)))) ∧
      parseNumber (y ++ (wA2 ++ (n ++ (wB2 ++ r)))) = some (m, v ++ (wA2 ++ (n ++ (wB2 ++ r))))) ∨
    (∃ m, parseNumber (y ++ (wA ++ (n ++ (wB ++ r)))) = some (m, wA ++ (n ++ (wB ++ r))) ∧
      parseNumber (y ++ (wA2 ++ (n ++ (wB2 ++ r)))) = some (m, wA2 ++ (n ++ (wB2 ++ r)))) ∨
    (∃ m m2, parseNumber (y ++ (wA ++ (n ++ (wB ++ r)))) = some (m, wB ++ r) ∧
      parseNumber (y ++ (wA2 ++ (n ++ (wB2 ++ r)))) = some (m2, wB2 ++ r)) := by
  obtain ⟨ca, wa2, rfl⟩ : ∃ ca t, wA = ca :: t := by
    cases wA with
    | nil => exact absurd rfl hA
    | cons ca t => exact ⟨ca, t, rfl⟩
  obtain ⟨ca2, wa22, rfl⟩ : ∃ ca2 t, wA2 = ca2 :: t := by
    cases wA2 with
    | nil => exact absurd rfl hA2
    | cons ca2 t => exact ⟨ca2, t, rfl⟩
  have hca : isPySpace ca = true := hAws ca (by simp)
  have hca2 : isPySpace ca2 = true := hA2ws ca2 (by simp)
  rcases hy : y.dropWhile isPySpace with _ | ⟨d, rr2⟩
  · have hyws : ∀ c ∈ y, isPySpace c = true := List.dropWhile_eq_nil_iff.mp hy
    have step1 : parseNumber (y ++ ((ca :: wa2) ++ (n ++ (wB ++ r)))) =
        numTail [] (y ++ ((ca :: wa2) ++ (n ++ (wB ++ r)))) := by
      apply parseNumber_eq_numTail_nosign
      intro c cs hc hcon
      have hws : isPySpace c = true := by
        cases y with
        | nil =>
          rw [List.nil_append, List.cons_append] at hc
          injection hc with h1 h2
          rw [← h1]
          exact hca
        | cons cy ys =>
          rw [List.cons_append] at hc
          injection hc with h1 h2
          rw [← h1]
          exact hyws cy (by simp)
      exact absurd hws (by simp [sign_not_pySpace c hcon])
    have step2 : parseNumber (y ++ ((ca2 :: wa22) ++ (n ++ (wB2 ++ r)))) =
        numTail [] (y ++ ((ca2 :: wa22) ++ (n ++ (wB2 ++ r)))) := by
      apply parseNumber_eq_numTail_nosign
      intro c cs hc hcon
      have hws : isPySpace c = true := by
        cases y with
        | nil =>
          rw [List.nil_append, List.cons_append] at hc
          injection hc with h1 h2
          rw [← h1]
          exact hca2
        | cons cy ys =>
          rw [List.cons_append] at hc
          injection hc with h1 h2
          rw [← h1]
          exact hyws cy (by simp)
      exact absurd hws (by simp [sign_not_pySpace c hcon])
    rcases numTail_ws_transfer (ca :: wa2) (ca2 :: wa22) wB wB2 n r hAws hA2ws hB hBws
      hB2 hB2ws hn [] y hyws with ⟨h1, h2⟩ | ⟨m, m2, h1, h2⟩
    · exact Or.inl ⟨by rw [step1]; exact h1, by rw [step2]; exact h2⟩
    · exact Or.inr (Or.inr (Or.inr ⟨m, m2, by rw [step1]; exact h1, by rw [step2]; exact h2⟩))
  · obtain ⟨cy, y2, rfl⟩ : ∃ cy t, y = cy :: t := by
      cases y with
      | nil => simp at hy
      | cons cy t => exact ⟨cy, t, rfl⟩
    by_cases hsign : cy = '-' ∨ cy = '+'
    · have step : ∀ Z : List Char, parseNumber ((cy :: y2) ++ Z) = numTail [cy] (y2 ++ Z) := by
        intro Z
        rw [List.cons_append]
        exact parseNumber_eq_numTail_sign cy (y2 ++ Z) hsign
      rcases hy2 : y2.dropWhile isPySpace with _ | ⟨d2, rr22⟩
      · have hy2ws : ∀ c ∈ y2, isPySpace c = true := List.dropWhile_eq_nil_iff.mp hy2
        rcases numTail_ws_transfer (ca :: wa2) (ca2 :: wa22) wB wB2 n r hAws hA2ws hB hBws
          hB2 hB2ws hn [cy] y2 hy2ws with ⟨h1, h2⟩ | ⟨m, m2, h1, h2⟩
        · exact Or.inl ⟨by rw [step]; exact h1, by rw [step]; exact h2⟩
        · exact Or.inr (Or.inr (Or.inr ⟨m, m2, by rw [step]; exact h1,
            by rw [step]; exact h2⟩))
      · rcases numTail_mid_generic [cy] y2 d2 rr22 hy2 with h1 | ⟨m, v, hv, h2⟩ | ⟨m, h3⟩
        · refine Or.inl ⟨?_, ?_⟩
          · rw [step]
            exact h1 ((ca :: wa2) ++ (n ++ (wB ++ r))) ca (wa2 ++ (n ++ (wB ++ r)))
              (by simp) hca
          · rw [step]
            exact h1 ((ca2 :: wa22) ++ (n ++ (wB2 ++ r))) ca2 (wa22 ++ (n ++ (wB2 ++ r)))
              (by simp) hca2
        · refine Or.inr (Or.inl ⟨m, v, hv, ?_, ?_⟩)
          · rw [step]
            exact h2 ((ca :: wa2) ++ (n ++ (wB ++ r))) ca (wa2 ++ (n ++ (wB ++ r)))
              (by simp) hca
          · rw [step]
            exact h2 ((ca2 :: wa22) ++ (n ++ (wB2 ++ r))) ca2 (wa22 ++ (n ++ (wB2 ++ r)))
              (by simp) hca2
        · refine Or.inr (Or.inr (Or.inl ⟨m, ?_, ?_⟩))
          · rw [step]
            exact h3 ((ca :: wa2) ++ (n ++ (wB ++ r))) ca (wa2 ++ (n ++ (wB ++ r)))
              (by simp) hca
          · rw [step]
            exact h3 ((ca2 :: wa22) ++ (n ++ (wB2 ++ r))) ca2 (wa22 ++ (n ++ (wB2 ++ r)))
              (by simp) hca2
    · have step : ∀ Z : List Char, parseNumber ((cy :: y2) ++ Z) = numTail [] ((cy :: y2) ++ Z) := by
        intro Z
        apply parseNumber_eq_numTail_nosign
        intro c cs hc hcon
        rw [List.cons_append] at hc
        injection hc with h1 h2
        exact hsign (h1 ▸ hcon)
      rcases numTail_mid_generic [] (cy :: y2) d rr2 hy with h1 | ⟨m, v, hv, h2⟩ | ⟨m, h3⟩
      · refine Or.inl ⟨?_, ?_⟩
        · rw [step]
          exact h1 ((ca :: wa2) ++ (n ++ (wB ++ r))) ca (wa2 ++ (n ++ (wB ++ r)))
            (by simp) hca
        · rw [step]
          exact h1 ((ca2 :: wa22) ++ (n ++ (wB2 ++ r))) ca2 (wa22 ++ (n ++ (wB2 ++ r)))
            (by simp) hca2
      · refine Or.inr (Or.inl ⟨m, v, hv, ?_, ?_⟩)
        · rw [step]
          exact h2 ((ca :: wa2) ++ (n ++ (wB ++ r))) ca (wa2 ++ (n ++ (wB ++ r)))
            (by simp) hca
        · rw [step]
          exact h2 ((ca2 :: wa22) ++ (n ++ (wB2 ++ r))) ca2 (wa22 ++ (n ++ (wB2 ++ r)))
            (by simp) hca2
      · refine Or.inr (Or.inr (Or.inl ⟨m, ?_, ?_⟩))
        · rw [step]
          exact h3 ((ca :: wa2) ++ (n ++ (wB ++ r))) ca (wa2 ++ (n ++ (wB ++ r)))
            (by simp) hca
        · rw [step]
          exact h3 ((ca2 :: wa22) ++ (n ++ (wB2 ++ r))) ca2 (wa22 ++ (n ++ (wB2 ++ r)))
            (by simp) hca2

theorem takeWhile_ws_before_currency (wB r : List Char)
    (hBws : ∀ c ∈ wB, isPySpace c = true) (cr : Char) (r2 : List Char)
    (hr0 : r = cr :: r2) (hcrws : isPySpace cr = false) :
    (wB ++ r).takeWhile isPySpace = wB := by
  rw [takeWhile_append_run isPySpace wB r hBws, hr0, List.takeWhile_cons, hcrws]
  simp

theorem dropWhile_ws_before_currency (wB r : List Char)
    (hBws : ∀ c ∈ wB, isPySpace c = true) (cr : Char) (r2 : List Char)
    (hr0 : r = cr :: r2) (hcrws : isPySpace cr = false) :
    (wB ++ r).dropWhile isPySpace = r := by
  rw [dropWhile_append_run isPySpace wB r hBws, hr0, List.dropWhile_cons, hcrws,
    if_neg (by simp)]

/-- Replacing the whitespace runs around the matched number by other
nonempty whitespace runs cannot change whether an attempt of the
number-line tail pattern succeeds at any position. -/
theorem tryParseAt_transfer (wA wA2 wB wB2 n r : List Char)
    (hA : wA ≠ []) (hAws : ∀ c ∈ wA, isPySpace c = true)
    (hA2 : wA2 ≠ []) (hA2ws : ∀ c ∈ wA2, isPySpace c = true)
    (hB : wB ≠ []) (hBws : ∀ c ∈ wB, isPySpace c = true)
    (hB2 : wB2 ≠ []) (hB2ws : ∀ c ∈ wB2, isPySpace c = true)
    (hn : NumShape n) (hr : isCurrencyStart r = true) (x : List Char) :
    (tryParseAt (x ++ (wA ++ (n ++ (wB ++ r))))).isSome =
    (tryParseAt (x ++ (wA2 ++ (n ++ (wB2 ++ r))))).isSome := by
  obtain ⟨c0, n20, hn0, hc0, hc0u⟩ := numShape_head n hn
  obtain ⟨cr, r2, hr0, hcru, hcrws⟩ := currencyStart_head r hr
  have hcur0 : ∀ wC : List Char, isCurrencyStart (n ++ (wC ++ r)) = false := by
    intro wC
    rw [hn0, List.cons_append]
    show (isUpper c0 && currencyTail 22 (n20 ++ (wC ++ r))) = false
    rw [hc0u]
    rfl
  rcases hxdrop : x.dropWhile isPySpace with _ | ⟨d, yy⟩
  · have hxws : ∀ c ∈ x, isPySpace c = true := List.dropWhile_eq_nil_iff.mp hxdrop
    have hall1 : ∀ c ∈ x ++ wA, isPySpace c = true := by
      intro c hc
      rcases List.mem_append.mp hc with h | h
      · exact hxws c h
      · exact hAws c h
    have hall2 : ∀ c ∈ x ++ wA2, isPySpace c = true := by
      intro c hc
      rcases List.mem_append.mp hc with h | h
      · exact hxws c h
      · exact hA2ws c h
    rw [show x ++ (wA ++ (n ++ (wB ++ r))) = (x ++ wA) ++ (n ++ (wB ++ r)) by simp]
    rw [show x ++ (wA2 ++ (n ++ (wB2 ++ r))) = (x ++ wA2) ++ (n ++ (wB2 ++ r)) by simp]
    rw [tryParseAt_at_number (x ++ wA) n wB r (by simp [hA]) hall1 hB hBws hn hr]
    rw [tryParseAt_at_number (x ++ wA2) n wB2 r (by simp [hA2]) hall2 hB2 hB2ws hn hr]
  · have hd : isPySpace d = false := dropWhile_head_not isPySpace x d yy hxdrop
    have hxdec : x = x.takeWhile isPySpace ++ (d :: yy) := by
      conv_lhs => rw [← List.takeWhile_append_dropWhile isPySpace x]
      rw [hxdrop]
    have hxw : ∀ c ∈ x.takeWhile isPySpace, isPySpace c = true :=
      fun c hc => List.mem_takeWhile_imp hc
    have eTake : ∀ Z : List Char, (x ++ Z).takeWhile isPySpace = x.takeWhile isPySpace := by
      intro Z
      conv_lhs => rw [hxdec]
      rw [show (x.takeWhile isPySpace ++ (d :: yy)) ++ Z =
        x.takeWhile isPySpace ++ (d :: (yy ++ Z)) by simp]
      exact takeWhile_append_stop isPySpace _ d _ hxw hd
    have eDrop : ∀ Z : List Char, (x ++ Z).dropWhile isPySpace = (d :: yy) ++ Z := by
      intro Z
      conv_lhs => rw [hxdec]
      rw [show (x.takeWhile isPySpace ++ (d :: yy)) ++ Z =
        x.takeWhile isPySpace ++ (d :: (yy ++ Z)) by simp]
      exact dropWhile_append_stop isPySpace _ d _ hxw hd
    rcases hxw0 : x.takeWhile isPySpace with _ | ⟨w0, xw2⟩
    · have hx : x = d :: yy := by
        conv_lhs => rw [hxdec, hxw0]
        rfl
      rw [hx]
      rw [show (d :: yy) ++ (wA ++ (n ++ (wB ++ r))) =
        d :: (yy ++ (wA ++ (n ++ (wB ++ r)))) from rfl]
      rw [show (d :: yy) ++ (wA2 ++ (n ++ (wB2 ++ r))) =
        d :: (yy ++ (wA2 ++ (n ++ (wB2 ++ r)))) from rfl]
      rw [tryParseAt_head_not_ws d _ hd, tryParseAt_head_not_ws d _ hd]
    · rw [tryParseAt_compute (x ++ (wA ++ (n ++ (wB ++ r)))) (x.takeWhile isPySpace)
        ((d :: yy) ++ (wA ++ (n ++ (wB ++ r)))) (eTake _) (eDrop _)]
      rw [tryParseAt_compute (x ++ (wA2 ++ (n ++ (wB2 ++ r)))) (x.takeWhile isPySpace)
        ((d :: yy) ++ (wA2 ++ (n ++ (wB2 ++ r)))) (eTake _) (eDrop _)]
      rw [hxw0]
      rw [if_neg (by simp), if_neg (by simp)]
      rcases parseNumber_transfer wA wA2 wB wB2 n r hA hAws hA2 hA2ws hB hBws hB2 hB2ws
        hn hr (d :: yy) with ⟨h1, h2⟩ | ⟨m, v, hv, h1, h2⟩ | ⟨m, h1, h2⟩ | ⟨m, m2, h1, h2⟩
      · rw [h1, h2]
      · rw [h1, h2]
        dsimp only
        rcases hvdrop : v.dropWhile isPySpace with _ | ⟨e, vr2⟩
        · have hvws : ∀ c ∈ v, isPySpace c = true := List.dropWhile_eq_nil_iff.mp hvdrop
          have ht1 : (v ++ (wA ++ (n ++ (wB ++ r)))).takeWhile isPySpace = v ++ wA := by
            rw [takeWhile_append_run isPySpace v _ hvws,
              u_takeWhile_ws wA n wB r hAws c0 n20 hn0 hc0]
          have ht2 : (v ++ (wA2 ++ (n ++ (wB2 ++ r)))).takeWhile isPySpace = v ++ wA2 := by
            rw [takeWhile_append_run isPySpace v _ hvws,
              u_takeWhile_ws wA2 n wB2 r hA2ws c0 n20 hn0 hc0]
          have hd1 : (v ++ (wA ++ (n ++ (wB ++ r)))).dropWhile isPySpace = n ++ (wB ++ r) := by
            rw [dropWhile_append_run isPySpace v _ hvws,
              u_dropWhile_ws wA n wB r hAws c0 n20 hn0 hc0]
          have hd2 : (v ++ (wA2 ++ (n ++ (wB2 ++ r)))).dropWhile isPySpace = n ++ (wB2 ++ r) := by
            rw [dropWhile_append_run isPySpace v _ hvws,
              u_dropWhile_ws wA2 n wB2 r hA2ws c0 n20 hn0 hc0]
          rw [ht1, ht2, hd1, hd2]
          rw [isEmpty_false_of_ne_nil _ (by simp [hv]), isEmpty_false_of_ne_nil _ (by simp [hv])]
          rw [if_neg (show ¬(false = true) by simp), if_neg (show ¬(false = true) by simp)]
          rw [hcur0 wB, hcur0 wB2]
          simp
        · have he : isPySpace e = false := dropWhile_head_not isPySpace v e vr2 hvdrop
          have hvdec : v = v.takeWhile isPySpace ++ (e :: vr2) := by
            conv_lhs => rw [← List.takeWhile_append_dropWhile isPySpace v]
            rw [hvdrop]
          have hvw : ∀ c ∈ v.takeWhile isPySpace, isPySpace c = true :=
            fun c hc => List.mem_takeWhile_imp hc
          have eTakeV : ∀ Z : List Char, (v ++ Z).takeWhile isPySpace = v.takeWhile isPySpace := by
            intro Z
            conv_lhs => rw [hvdec]
            rw [show (v.takeWhile isPySpace ++ (e :: vr2)) ++ Z =
              v.takeWhile isPySpace ++ (e :: (vr2 ++ Z)) by simp]
            exact takeWhile_append_stop isPySpace _ e _ hvw he
          have eDropV : ∀ Z : List Char, (v ++ Z).dropWhile isPySpace = (e :: vr2) ++ Z := by
            intro Z
            conv_lhs => rw [hvdec]
            rw [show (v.takeWhile isPySpace ++ (e :: vr2)) ++ Z =
              v.takeWhile isPySpace ++ (e :: (vr2 ++ Z)) by simp]
            exact dropWhile_append_stop isPySpace _ e _ hvw he
          rw [eTakeV, eTakeV, eDropV, eDropV]
          rcases hvw0 : v.takeWhile isPySpace with _ | ⟨q0, vw2⟩
          · rfl
          · rw [if_neg (show ¬((q0 :: vw2).isEmpty = true) by simp),
              if_neg (show ¬((q0 :: vw2).isEmpty = true) by simp)]
            obtain ⟨ca, wa2, rfl⟩ : ∃ ca t, wA = ca :: t := by
              cases wA with
              | nil => exact absurd rfl hA
              | cons ca t => exact ⟨ca, t, rfl⟩
            obtain ⟨ca2, wa22, rfl⟩ : ∃ ca2 t, wA2 = ca2 :: t := by
              cases wA2 with
              | nil => exact absurd rfl hA2
              | cons ca2 t => exact ⟨ca2, t, rfl⟩
            have hcc : isCurrencyStart ((e :: vr2) ++ ((ca :: wa2) ++ (n ++ (wB ++ r)))) =
                isCurrencyStart ((e :: vr2) ++ ((ca2 :: wa22) ++ (n ++ (wB2 ++ r)))) :=
              isCurrencyStart_transfer ((ca :: wa2) ++ (n ++ (wB ++ r)))
                ((ca2 :: wa22) ++ (n ++ (wB2 ++ r))) ca (wa2 ++ (n ++ (wB ++ r))) (by simp)
                (hAws ca (by simp)) ca2 (wa22 ++ (n ++ (wB2 ++ r))) (by simp)
                (hA2ws ca2 (by simp)) (e :: vr2)
            rw [hcc]
            cases hcur : isCurrencyStart ((e :: vr2) ++ ((ca2 :: wa22) ++ (n ++ (wB2 ++ r)))) with
            | false => simp
            | true => simp
      · rw [h1, h2]
        dsimp only
        rw [u_takeWhile_ws wA n wB r hAws c0 n20 hn0 hc0,
          u_takeWhile_ws wA2 n wB2 r hA2ws c0 n20 hn0 hc0,
          u_dropWhile_ws wA n wB r hAws c0 n20 hn0 hc0,
          u_dropWhile_ws wA2 n wB2 r hA2ws c0 n20 hn0 hc0]
        rw [isEmpty_false_of_ne_nil _ hA, isEmpty_false_of_ne_nil _ hA2]
        rw [if_neg (show ¬(false = true) by simp), if_neg (show ¬(false = true) by simp)]
        rw [hcur0 wB, hcur0 wB2]
        simp
      · rw [h1, h2]
        dsimp only
        rw [takeWhile_ws_before_currency wB r hBws cr r2 hr0 hcrws,
          takeWhile_ws_before_currency wB2 r hB2ws cr r2 hr0 hcrws,
          dropWhile_ws_before_currency wB r hBws cr r2 hr0 hcrws,
          dropWhile_ws_before_currency wB2 r hB2ws cr r2 hr0 hcrws]
        rw [isEmpty_false_of_ne_nil _ hB, isEmpty_false_of_ne_nil _ hB2]
        rw [if_neg (show ¬(false = true) by simp), if_neg (show ¬(false = true) by simp)]
        rw [if_pos hr, if_pos hr]
        rfl

/-! Scan lemmas for the non-greedy prefix of the number-line regex. -/

theorem tryParseAt_nil : tryParseAt [] = none := rfl

theorem matchNumberLine_nil : matchNumberLine [] = none := rfl

theorem matchNumberAux_nil (acc : List Char) : matchNumberAux acc [] = none := by
  cases h : matchNumberAux acc [] with
  | none => rfl
  | some v =>
    obtain ⟨p, n, r⟩ := v
    obtain ⟨q, w1, w2, hp, hs, hw1, _⟩ := matchNumberAux_sound [] acc p n r h
    exact absurd hs.symm (by simp [hw1])

/-- The accumulator only contributes a prefix to the first group. -/
theorem matchNumberAux_acc (s : List Char) : ∀ acc : List Char,
    matchNumberAux acc s =
      (matchNumberAux [] s).map (fun g => (acc.reverse ++ g.1, g.2)) := by
  induction s with
  | nil =>
    intro acc
    rw [matchNumberAux_nil, matchNumberAux_nil]
    rfl
  | cons c cs ih =>
    intro acc
    rw [matchNumberAux]
    conv_rhs => rw [matchNumberAux]
    cases htp : tryParseAt (c :: cs) with
    | some v =>
      obtain ⟨n, r⟩ := v
      simp
    | none =>
      by_cases hbad : c = '"' ∨ c = ';'
      · rw [if_pos hbad, if_pos hbad]
        rfl
      · rw [if_neg hbad, if_neg hbad]
        rw [ih (c :: acc), ih [c]]
        rw [Option.map_map]
        rcases matchNumberAux [] cs with _ | ⟨p, n, r⟩
        · rfl
        · simp

/-- If every strict-prefix attempt fails, the scan consumes the prefix
and succeeds exactly at its end. -/
theorem matchNumberAux_build (rest n r : List Char) (hok : tryParseAt rest = some (n, r)) :
    ∀ (q acc : List Char),
      (∀ i, i < q.length → tryParseAt (q.drop i ++ rest) = none) →
      (∀ c ∈ q, c ≠ '"' ∧ c ≠ ';') →
      matchNumberAux acc (q ++ rest) = some (acc.reverse ++ q, n, r) := by
  intro q
  induction q with
  | nil =>
    intro acc hfail hq
    rw [List.nil_append]
    cases rest with
    | nil =>
      rw [tryParseAt_nil] at hok
      simp at hok
    | cons c0 cs0 =>
      rw [matchNumberAux, hok]
      simp
  | cons c q2 ih =>
    intro acc hfail hq
    rw [List.cons_append, matchNumberAux]
    have h0 : tryParseAt (c :: (q2 ++ rest)) = none := by
      have := hfail 0 (by simp)
      simpa using this
    rw [h0]
    rw [if_neg (by
      intro hcon
      rcases hcon with hcon | hcon
      · exact (hq c (by simp)).1 hcon
      · exact (hq c (by simp)).2 hcon)]
    rw [ih (c :: acc) (fun i hi => by
      have := hfail (i + 1) (by simpa using hi)
      simpa using this) (fun d hd => hq d (by simp [hd]))]
    simp

/-- Scanning a whitespace run: either the canonical attempt succeeds at
the start of the run, or the scan proceeds past the run. -/
theorem matchNumberAux_ws_run (b g : List Char) (hb : b ≠ [])
    (hbws : ∀ c ∈ b, isPySpace c = true) :
    ∀ acc : List Char,
      matchNumberAux acc (b ++ g) =
        match tryParseAt (' ' :: g) with
        | some (n, r) => some (acc.reverse, n, r)
        | none => matchNumberAux (b.reverse ++ acc) g := by
  induction b with
  | nil => exact absurd rfl hb
  | cons d b2 ih =>
    intro acc
    have hd : isPySpace d = true := hbws d (by simp)
    rw [List.cons_append, matchNumberAux]
    have hattempt : tryParseAt (d :: (b2 ++ g)) = tryParseAt (' ' :: g) := by
      rw [show d :: (b2 ++ g) = (d :: b2) ++ g from rfl]
      exact tryParseAt_ws_lead (d :: b2) g (by simp) hbws
    rw [hattempt]
    cases htp : tryParseAt (' ' :: g) with
    | some v =>
      obtain ⟨n, r⟩ := v
      rfl
    | none =>
      rw [if_neg (by
        intro hcon
        have hdf : isPySpace d = false := by
          rcases hcon with rfl | rfl <;> decide
        simp [hdf] at hd)]
      cases hb2 : b2 with
      | nil => simp
      | cons d2 b3 =>
        rw [← hb2]
        have hb2ne : b2 ≠ [] := by simp [hb2]
        rw [ih hb2ne (fun c hc => hbws c (by simp [hc])) (d :: acc), htp]
        simp

/-! Facts about the indent normalization and the matched prefix. -/

theorem accountStart_head (g : List Char) (h : isAccountStart g = true) :
    ∃ c g2, g = c :: g2 ∧ isUpper c = true ∧ isPySpace c = false := by
  cases g with
  | nil => simp [isAccountStart] at h
  | cons c g2 =>
    simp only [isAccountStart, Bool.and_eq_true] at h
    exact ⟨c, g2, rfl, h.1, upper_not_pySpace c h.1⟩

theorem upper_not_indentWs (c : Char) (h : isUpper c = true) : isIndentWs c = false := by
  rcases hx : isIndentWs c with _ | _
  · rfl
  · exact absurd h (by simp [indentWs_not_upper c hx])

theorem normPfx_eq_or (iw : Nat) (p : List Char) :
    normPfx iw p = p ∨
    (p.takeWhile isIndentWs ≠ [] ∧ isAccountStart (p.dropWhile isIndentWs) = true ∧
      normPfx iw p = spaces iw ++ p.dropWhile isIndentWs) := by
  unfold normPfx
  dsimp only
  by_cases hcond : ¬((p.takeWhile isIndentWs).isEmpty = true) ∧
      isAccountStart (p.dropWhile isIndentWs) = true
  · rw [if_pos hcond]
    exact Or.inr ⟨by simpa [List.isEmpty_iff] using hcond.1, hcond.2, rfl⟩
  · rw [if_neg hcond]
    exact Or.inl rfl

theorem spaces_all_ws (k : Nat) : ∀ c ∈ spaces k, isPySpace c = true := by
  intro c hc
  rw [List.eq_of_mem_replicate hc]
  rfl

theorem spaces_all_indent (k : Nat) : ∀ c ∈ spaces k, isIndentWs c = true := by
  intro c hc
  rw [List.eq_of_mem_replicate hc]
  rfl

theorem spaces_ne_nil (k : Nat) (hk : 0 < k) : spaces k ≠ [] := by
  cases k with
  | zero => omega
  | succ k2 => simp [spaces, List.replicate_succ]

theorem drop_append_len (l1 l2 : List Char) (k : Nat) :
    (l1 ++ l2).drop (l1.length + k) = l2.drop k := by
  induction l1 with
  | nil => simp
  | cons a t ih =>
    have e : (a :: t).length + k = (t.length + k) + 1 := by
      simp [List.length_cons]
      omega
    rw [e, List.cons_append, List.drop_succ_cons, ih]

theorem drop_append_exact (l1 l2 : List Char) (k : Nat) (hk : k = l1.length) :
    (l1 ++ l2).drop k = l2 := by
  subst hk
  exact List.drop_left l1 l2

theorem drop_append_plus (l1 l2 : List Char) (k j : Nat) (hk : k = l1.length + j) :
    (l1 ++ l2).drop k = l2.drop j := by
  subst hk
  exact drop_append_len l1 l2 j

theorem drop_takeWhile_len (q : Char → Bool) (l : List Char) (k : Nat) :
    l.drop ((l.takeWhile q).length + k) = (l.dropWhile q).drop k := by
  have h1 : l = l.takeWhile q ++ l.dropWhile q := (List.takeWhile_append_dropWhile q l).symm
  calc l.drop ((l.takeWhile q).length + k)
      = (l.takeWhile q ++ l.dropWhile q).drop ((l.takeWhile q).length + k) := by rw [← h1]
    _ = (l.dropWhile q).drop k := drop_append_len _ _ k

theorem normPfx_idem (iw : Nat) (p : List Char) : normPfx iw (normPfx iw p) = normPfx iw p := by
  rcases normPfx_eq_or iw p with h | ⟨hw, hacc, h⟩
  · rw [h]
    exact h
  · rw [h]
    obtain ⟨cg, g22, hg, hgu, hgws⟩ := accountStart_head _ hacc
    have hdrop : (spaces iw ++ p.dropWhile isIndentWs).dropWhile isIndentWs =
        p.dropWhile isIndentWs := by
      rw [dropWhile_append_run isIndentWs _ _ (spaces_all_indent iw), hg,
        List.dropWhile_cons, upper_not_indentWs cg hgu, if_neg (by simp)]
    rcases normPfx_eq_or iw (spaces iw ++ p.dropWhile isIndentWs) with h2 | ⟨_, _, h2⟩
    · exact h2
    · rw [h2, hdrop]

theorem mem_normPfx (iw : Nat) (p : List Char) (c : Char) (hc : c ∈ normPfx iw p) :
    c ∈ p ∨ c = ' ' := by
  rcases normPfx_eq_or iw p with h | ⟨_, _, h⟩
  · rw [h] at hc
    exact Or.inl hc
  · rw [h] at hc
    rcases List.mem_append.mp hc with h2 | h2
    · exact Or.inr (List.eq_of_mem_replicate h2)
    · refine Or.inl ?_
      have h3 : c ∈ p.takeWhile isIndentWs ++ p.dropWhile isIndentWs :=
        List.mem_append.mpr (Or.inr h2)
      rw [List.takeWhile_append_dropWhile] at h3
      exact h3

theorem colWords_normPfx (iw : Nat) (p : List Char) :
    colWords (normPfx iw p) = colWords p := by
  rcases normPfx_eq_or iw p with h | ⟨_, _, h⟩
  · rw [h]
  · rw [h]
    have h1 : wordsBy isColWs (spaces iw ++ p.dropWhile isIndentWs) =
        wordsBy isColWs (p.dropWhile isIndentWs) :=
      wordsBy_ws_prefix isColWs (spaces iw) _
        (fun c hc => by rw [List.eq_of_mem_replicate hc]; rfl)
    have h2 : wordsBy isColWs p = wordsBy isColWs (p.dropWhile isIndentWs) := by
      conv_lhs => rw [← List.takeWhile_append_dropWhile isIndentWs p]
      exact wordsBy_ws_prefix isColWs _ _
        (fun c hc => indentWs_colWs c (List.mem_takeWhile_imp hc))
    show wordsBy isColWs (spaces iw ++ p.dropWhile isIndentWs) = wordsBy isColWs p
    rw [h1, h2]

theorem pyRstrip_append_nonws (s : List Char) (c : Char) (hc : isPySpace c = false) :
    pyRstrip (s ++ [c]) = s ++ [c] := by
  unfold pyRstrip
  rw [List.reverse_append]
  rw [show ([c] : List Char).reverse = [c] from rfl]
  rw [show ([c] : List Char) ++ s.reverse = c :: s.reverse from rfl]
  rw [List.dropWhile_cons, hc, if_neg (by simp)]
  simp

/-- The prefix captured by the number-line match never ends in
whitespace: otherwise the attempt one position earlier would have
succeeded. -/
theorem matched_pfx_rstrip (l p n r : List Char) (hm : matchNumberLine l = some (p, n, r)) :
    pyRstrip p = p := by
  obtain ⟨w1, w2, hl, hw1, hw2, ha1, ha2, hq, hnne, hmin, hok⟩ :=
    matchNumberLine_sound l p n r hm
  obtain ⟨hnsh, hrcur⟩ := tryParseAt_shape _ n r hok
  rcases List.eq_nil_or_concat p with rfl | ⟨p0, c, hp⟩
  · rfl
  · rw [List.concat_eq_append] at hp
    subst hp
    by_cases hcws : isPySpace c = true
    · exfalso
      have hdrop : (p0 ++ [c]).drop p0.length = [c] := List.drop_left p0 [c]
      have hfail := hmin p0.length (by simp)
      rw [hdrop] at hfail
      have hsucc : tryParseAt ([c] ++ (w1 ++ n ++ w2 ++ r)) = some (n, r) := by
        have h0 := tryParseAt_at_number (c :: w1) n w2 r (by simp)
          (by
            intro d hd
            rcases List.mem_cons.mp hd with rfl | hd
            · exact hcws
            · exact ha1 d hd)
          hw2 ha2 hnsh hrcur
        rw [show ([c] : List Char) ++ (w1 ++ n ++ w2 ++ r) =
          (c :: w1) ++ (n ++ (w2 ++ r)) by simp]
        exact h0
      rw [hsucc] at hfail
      simp at hfail
    · exact pyRstrip_append_nonws p0 c (by simpa using hcws)

/-- A rendered matched line re-matches with the normalized prefix, the
same number and the same rest, for every whitespace filler between the
prefix and the number. -/
theorem rendered_line_rematch (l p n r : List Char) (iw : Nat)
    (hm : matchNumberLine l = some (p, n, r)) (WS : List Char)
    (hWS : WS ≠ []) (hWSws : ∀ c ∈ WS, isPySpace c = true) :
    matchNumberLine (normPfx iw p ++ (WS ++ (n ++ (' ' :: r)))) =
      some (normPfx iw p, n, r) := by
  obtain ⟨w1, w2, hl, hw1, hw2, ha1, ha2, hq, hnne, hmin, hok⟩ :=
    matchNumberLine_sound l p n r hm
  obtain ⟨hnsh, hrcur⟩ := tryParseAt_shape _ n r hok
  have hmin2 : ∀ i, i < p.length →
      tryParseAt (p.drop i ++ (w1 ++ (n ++ (w2 ++ r)))) = none := by
    intro i hi
    have h0 := hmin i hi
    rw [show w1 ++ n ++ w2 ++ r = w1 ++ (n ++ (w2 ++ r)) by simp] at h0
    exact h0
  have htransfer : ∀ x : List Char,
      tryParseAt (x ++ (w1 ++ (n ++ (w2 ++ r)))) = none →
      tryParseAt (x ++ (WS ++ (n ++ (' ' :: r)))) = none := by
    intro x h0
    have h1 := tryParseAt_transfer WS w1 [' '] w2 n r hWS hWSws hw1 ha1 (by simp)
      (by
        intro c hc
        rcases List.mem_singleton.mp hc with rfl
        rfl) hw2 ha2 hnsh hrcur x
    rw [h0] at h1
    rw [show ([' '] : List Char) ++ r = ' ' :: r from rfl] at h1
    rcases h2 : tryParseAt (x ++ (WS ++ (n ++ (' ' :: r)))) with _ | v
    · rfl
    · rw [h2] at h1
      simp at h1
  have hokNew : tryParseAt (WS ++ (n ++ (' ' :: r))) = some (n, r) := by
    have h0 := tryParseAt_at_number WS n [' '] r hWS hWSws (by simp)
      (by
        intro c hc
        rcases List.mem_singleton.mp hc with rfl
        rfl) hnsh hrcur
    rw [show ([' '] : List Char) ++ r = ' ' :: r from rfl] at h0
    exact h0
  rcases normPfx_eq_or iw p with hN | ⟨hNw, hNacc, hN⟩
  · rw [hN]
    show matchNumberAux [] (p ++ (WS ++ (n ++ (' ' :: r)))) = some (p, n, r)
    have h0 := matchNumberAux_build (WS ++ (n ++ (' ' :: r))) n r hokNew p []
      (fun i hi => htransfer (p.drop i) (hmin2 i hi)) hq
    simpa using h0
  · rw [hN]
    have hpdec : p = p.takeWhile isIndentWs ++ p.dropWhile isIndentWs :=
      (List.takeWhile_append_dropWhile _ _).symm
    obtain ⟨cg, g22, hg, hgu, hgws⟩ := accountStart_head _ hNacc
    have hw0ws : ∀ c ∈ p.takeWhile isIndentWs, isPySpace c = true :=
      fun c hc => colWs_pySpace c (indentWs_colWs c (List.mem_takeWhile_imp hc))
    have hplen : 0 < p.length := by
      rw [hpdec]
      cases hx : p.takeWhile isIndentWs with
      | nil => exact absurd hx hNw
      | cons a t => simp [hx]
    have hcanOld : tryParseAt (' ' :: (p.dropWhile isIndentWs ++ (w1 ++ (n ++ (w2 ++ r))))) =
        none := by
      have h1 := tryParseAt_ws_lead (p.takeWhile isIndentWs)
        (p.dropWhile isIndentWs ++ (w1 ++ (n ++ (w2 ++ r)))) hNw hw0ws
      rw [← h1]
      rw [show p.takeWhile isIndentWs ++ (p.dropWhile isIndentWs ++ (w1 ++ (n ++ (w2 ++ r)))) =
        p ++ (w1 ++ (n ++ (w2 ++ r))) by rw [← List.append_assoc, ← hpdec]]
      have h2 := hmin2 0 hplen
      rw [List.drop_zero] at h2
      exact h2
    have hcanNew : tryParseAt ((' ' :: p.dropWhile isIndentWs) ++ (WS ++ (n ++ (' ' :: r)))) =
        none := by
      apply htransfer (' ' :: p.dropWhile isIndentWs)
      rw [show (' ' :: p.dropWhile isIndentWs) ++ (w1 ++ (n ++ (w2 ++ r))) =
        ' ' :: (p.dropWhile isIndentWs ++ (w1 ++ (n ++ (w2 ++ r)))) from rfl]
      exact hcanOld
    have hfailNew : ∀ i, i < (spaces iw ++ p.dropWhile isIndentWs).length →
        tryParseAt ((spaces iw ++ p.dropWhile isIndentWs).drop i ++
          (WS ++ (n ++ (' ' :: r)))) = none := by
      intro i hi
      by_cases hilt : i < iw
      · have hsplit : spaces iw = spaces i ++ spaces (iw - i) := by
          have h3 : spaces (i + (iw - i)) = spaces i ++ spaces (iw - i) := by
            show List.replicate (i + (iw - i)) ' ' =
              List.replicate i ' ' ++ List.replicate (iw - i) ' '
            exact List.replicate_add i (iw - i) ' '
          rw [← h3]
          congr 1
          omega
        have hdropsp : (spaces iw ++ p.dropWhile isIndentWs).drop i =
            spaces (iw - i) ++ p.dropWhile isIndentWs := by
          rw [hsplit, List.append_assoc]
          exact drop_append_plus _ _ i 0 (by simp [spaces]) |>.trans (by rw [List.drop_zero])
        rw [hdropsp]
        have hiwne : spaces (iw - i) ≠ [] := spaces_ne_nil (iw - i) (by omega)
        rw [show (spaces (iw - i) ++ p.dropWhile isIndentWs) ++ (WS ++ (n ++ (' ' :: r))) =
          spaces (iw - i) ++ (p.dropWhile isIndentWs ++ (WS ++ (n ++ (' ' :: r)))) by simp]
        rw [tryParseAt_ws_lead (spaces (iw - i)) _ hiwne (spaces_all_ws (iw - i))]
        rw [show (' ' :: (p.dropWhile isIndentWs ++ (WS ++ (n ++ (' ' :: r))))) =
          (' ' :: p.dropWhile isIndentWs) ++ (WS ++ (n ++ (' ' :: r))) from rfl]
        exact hcanNew
      · have hdropg : (spaces iw ++ p.dropWhile isIndentWs).drop i =
            (p.dropWhile isIndentWs).drop (i - iw) := by
          refine drop_append_plus _ _ i (i - iw) ?_
          simp [spaces]
          omega
        rw [hdropg]
        have hilen : i - iw < (p.dropWhile isIndentWs).length := by
          rw [List.length_append] at hi
          simp [spaces] at hi
          omega
        have hpi : p.drop ((p.takeWhile isIndentWs).length + (i - iw)) =
            (p.dropWhile isIndentWs).drop (i - iw) :=
          drop_takeWhile_len isIndentWs p (i - iw)
        have hlt : (p.takeWhile isIndentWs).length + (i - iw) < p.length := by
          have h3 : p.length =
              (p.takeWhile isIndentWs).length + (p.dropWhile isIndentWs).length := by
            conv_lhs => rw [hpdec]
            rw [List.length_append]
          omega
        have h0 := hmin2 _ hlt
        rw [hpi] at h0
        exact htransfer _ h0
    have hqNew : ∀ c ∈ spaces iw ++ p.dropWhile isIndentWs, c ≠ '"' ∧ c ≠ ';' := by
      intro c hc
      rcases List.mem_append.mp hc with h2 | h2
      · rw [List.eq_of_mem_replicate h2]
        exact ⟨by decide, by decide⟩
      · refine hq c ?_
        have h3 : c ∈ p.takeWhile isIndentWs ++ p.dropWhile isIndentWs :=
          List.mem_append.mpr (Or.inr h2)
        rw [List.takeWhile_append_dropWhile] at h3
        exact h3
    show matchNumberAux [] ((spaces iw ++ p.dropWhile isIndentWs) ++ (WS ++ (n ++ (' ' :: r)))) =
      some (spaces iw ++ p.dropWhile isIndentWs, n, r)
    have h0 := matchNumberAux_build (WS ++ (n ++ (' ' :: r))) n r hokNew
      (spaces iw ++ p.dropWhile isIndentWs) [] hfailNew hqNew
    simpa using h0

/-- A non-matching line still does not match after its indent is
normalized to a positive width. -/
theorem unmatched_normPfx (iw : Nat) (hiw : 0 < iw) (l : List Char)
    (hm : matchNumberLine l = none) : matchNumberLine (normPfx iw l) = none := by
  rcases normPfx_eq_or iw l with h | ⟨hw, hacc, h⟩
  · rw [h]
    exact hm
  · rw [h]
    have hldec : l = l.takeWhile isIndentWs ++ l.dropWhile isIndentWs :=
      (List.takeWhile_append_dropWhile _ _).symm
    have hw0ws : ∀ c ∈ l.takeWhile isIndentWs, isPySpace c = true :=
      fun c hc => colWs_pySpace c (indentWs_colWs c (List.mem_takeWhile_imp hc))
    have hold : matchNumberAux [] (l.takeWhile isIndentWs ++ l.dropWhile isIndentWs) = none := by
      rw [← hldec]
      exact hm
    rw [matchNumberAux_ws_run _ _ hw hw0ws []] at hold
    show matchNumberAux [] (spaces iw ++ l.dropWhile isIndentWs) = none
    rw [matchNumberAux_ws_run (spaces iw) _ (spaces_ne_nil iw hiw) (spaces_all_ws iw) []]
    cases htp : tryParseAt (' ' :: l.dropWhile isIndentWs) with
    | some v =>
      obtain ⟨nn, rr⟩ := v
      rw [htp] at hold
      simp at hold
    | none =>
      rw [htp] at hold
      dsimp only at hold ⊢
      rw [matchNumberAux_acc (l.dropWhile isIndentWs) ((l.takeWhile isIndentWs).reverse ++ [])]
        at hold
      rw [matchNumberAux_acc (l.dropWhile isIndentWs) ((spaces iw).reverse ++ [])]
      rcases hx : matchNumberAux [] (l.dropWhile isIndentWs) with _ | ⟨pp, nn, rr⟩
      · rfl
      · rw [hx] at hold
        simp at hold

/-! Stability of the per-line rendering of `align_beancount`. -/

theorem linePair_none (l : List Char) (h : matchNumberLine l = none) : linePair l = (l, none) := by
  unfold linePair
  rw [h]

theorem linePair_some (l p n r : List Char) (h : matchNumberLine l = some (p, n, r)) :
    linePair l = (p, some (n, r)) := by
  unfold linePair
  rw [h]

theorem renderCurrency_eq (cc : Nat) (q n r : List Char) :
    renderCurrency cc (q, some (n, r)) =
      q ++ ((spaces (cc - q.length - n.length - 4) ++ [' ', ' ']) ++ (n ++ (' ' :: r))) := by
  simp [renderCurrency]

theorem renderCurrency_none (cc : Nat) (q : List Char) :
    renderCurrency cc (q, none) = q := rfl

theorem renderFixed_none (PW NW : Nat) (q : List Char) :
    renderFixed PW NW (q, none) = q := rfl

theorem renderFixed_eq (PW NW : Nat) (q n r : List Char) (hq : pyRstrip q = q) :
    renderFixed PW NW (q, some (n, r)) =
      q ++ ((spaces (PW - q.length) ++ (' ' :: ' ' :: spaces (NW - n.length))) ++
        (n ++ (' ' :: r))) := by
  simp [renderFixed, padRightTo, padLeftTo, hq]

theorem mem_pyRstrip (s : List Char) (c : Char) (hc : c ∈ pyRstrip s) : c ∈ s := by
  unfold pyRstrip at hc
  rw [List.mem_reverse] at hc
  have h2 : c ∈ s.reverse.takeWhile isPySpace ++ s.reverse.dropWhile isPySpace :=
    List.mem_append.mpr (Or.inr hc)
  rw [List.takeWhile_append_dropWhile] at h2
  exact List.mem_reverse.mp h2

theorem pyRstrip_self_last (s : List Char) (hs : pyRstrip s = s) (hne : s ≠ []) :
    ∃ s0 c, s = s0 ++ [c] ∧ isPySpace c = false := by
  obtain ⟨s0, c, h0⟩ := (List.eq_nil_or_concat s).resolve_left hne
  rw [List.concat_eq_append] at h0
  refine ⟨s0, c, h0, ?_⟩
  by_cases hc : isPySpace c = true
  · exfalso
    have hlt : (pyRstrip (s0 ++ [c])).length ≤ s0.length := by
      unfold pyRstrip
      rw [List.reverse_append,
        show ([c] : List Char).reverse ++ s0.reverse = c :: s0.reverse by simp,
        List.dropWhile_cons, hc, if_pos rfl]
      rw [List.length_reverse]
      have h3 : s0.reverse.length =
          (s0.reverse.takeWhile isPySpace).length + (s0.reverse.dropWhile isPySpace).length := by
        conv_lhs => rw [← List.takeWhile_append_dropWhile isPySpace s0.reverse]
        rw [List.length_append]
      rw [List.length_reverse] at h3
      omega
    rw [← h0, hs, h0] at hlt
    simp at hlt
  · simpa using hc

/-- The normalized prefix of a matched line also never ends in
whitespace. -/
theorem matched_normPfx_rstrip (l p n r : List Char) (iw : Nat)
    (hm : matchNumberLine l = some (p, n, r)) :
    pyRstrip (normPfx iw p) = normPfx iw p := by
  have hpr : pyRstrip p = p := matched_pfx_rstrip l p n r hm
  rcases normPfx_eq_or iw p with h | ⟨hw, hacc, h⟩
  · rw [h]
    exact hpr
  · rw [h]
    have hpne : p ≠ [] := by
      intro hcon
      rw [hcon] at hw
      simp at hw
    obtain ⟨p0, c, hp0, hcns⟩ := pyRstrip_self_last p hpr hpne
    have hg2ne : p.dropWhile isIndentWs ≠ [] := by
      intro hcon
      have hall : ∀ d ∈ p, isPySpace d = true := by
        intro d hd
        have h3 : d ∈ p.takeWhile isIndentWs ++ p.dropWhile isIndentWs := by
          rw [List.takeWhile_append_dropWhile]
          exact hd
        rcases List.mem_append.mp h3 with h4 | h4
        · exact colWs_pySpace d (indentWs_colWs d (List.mem_takeWhile_imp h4))
        · rw [hcon] at h4
          simp at h4
      have h5 : pyRstrip p = [] := (pyRstrip_nil_iff p).mpr hall
      rw [hpr] at h5
      exact hpne h5
    obtain ⟨g0, cg, hg0⟩ := (List.eq_nil_or_concat (p.dropWhile isIndentWs)).resolve_left hg2ne
    rw [List.concat_eq_append] at hg0
    have hlast1 : p.getLast? = some c := by
      rw [hp0]
      simp
    have hlast2 : p.getLast? = some cg := by
      have h5 : (p.takeWhile isIndentWs ++ p.dropWhile isIndentWs).getLast? = some cg := by
        rw [hg0, ← List.append_assoc]
        simp
      rw [List.takeWhile_append_dropWhile] at h5
      exact h5
    have hceq : cg = c := by
      rw [hlast1] at hlast2
      injection hlast2 with h6
      exact h6.symm
    rw [hg0, ← List.append_assoc]
    exact pyRstrip_append_nonws _ cg (by rw [hceq]; exact hcns)

/-- One aligned line re-matches exactly as its own groups (currency
mode). -/
theorem currency_line_pair (cc iw : Nat) (hiw : 0 < iw) (l : List Char) :
    linePair (renderCurrency cc (normPfx iw (linePair l).1, (linePair l).2)) =
      (normPfx iw (linePair l).1, (linePair l).2) := by
  cases hm : matchNumberLine l with
  | none =>
    rw [linePair_none l hm]
    dsimp only
    rw [renderCurrency_none]
    rw [linePair_none _ (unmatched_normPfx iw hiw l hm)]
  | some g =>
    obtain ⟨p, n, r⟩ := g
    rw [linePair_some l p n r hm]
    dsimp only
    rw [renderCurrency_eq cc (normPfx iw p) n r]
    have hmatch := rendered_line_rematch l p n r iw hm
      (spaces (cc - (normPfx iw p).length - n.length - 4) ++ [' ', ' '])
      (by simp)
      (by
        intro c hc
        rcases List.mem_append.mp hc with h2 | h2
        · exact spaces_all_ws _ c h2
        · have h3 : c = ' ' ∨ c = ' ' := by simpa using h2
          rcases h3 with rfl | rfl <;> rfl)
    exact linePair_some _ _ _ _ hmatch

/-- One aligned line re-matches exactly as its own groups (fixed-width
mode). -/
theorem fixed_line_pair (PW NW iw : Nat) (hiw : 0 < iw) (l : List Char) :
    linePair (renderFixed PW NW (normPfx iw (linePair l).1, (linePair l).2)) =
      (normPfx iw (linePair l).1, (linePair l).2) := by
  cases hm : matchNumberLine l with
  | none =>
    rw [linePair_none l hm]
    dsimp only
    rw [renderFixed_none]
    rw [linePair_none _ (unmatched_normPfx iw hiw l hm)]
  | some g =>
    obtain ⟨p, n, r⟩ := g
    rw [linePair_some l p n r hm]
    dsimp only
    rw [renderFixed_eq PW NW (normPfx iw p) n r (matched_normPfx_rstrip l p n r iw hm)]
    have hmatch := rendered_line_rematch l p n r iw hm
      (spaces (PW - (normPfx iw p).length) ++ (' ' :: ' ' :: spaces (NW - n.length)))
      (by simp)
      (by
        intro c hc
        rcases List.mem_append.mp hc with h2 | h2
        · exact spaces_all_ws _ c h2
        · rcases List.mem_cons.mp h2 with rfl | h3
          · rfl
          · rcases List.mem_cons.mp h3 with rfl | h4
            · rfl
            · exact spaces_all_ws _ c h4)
    exact linePair_some _ _ _ _ hmatch

theorem filtered_snd_eq (iw : Nat) (lines : List (List Char)) :
    ((lines.map (fun l => (normPfx iw (linePair l).1, (linePair l).2))).filterMap
      (fun pr => pr.2.map (fun nr => (pr.1, nr.1)))).map Prod.snd =
    ((lines.map linePair).filterMap
      (fun pr => pr.2.map (fun nr => (pr.1, nr.1)))).map Prod.snd := by
  induction lines with
  | nil => rfl
  | cons l ls ih =>
    simp only [List.map_cons, List.filterMap_cons]
    cases h2 : (linePair l).2 with
    | none => simpa [h2] using ih
    | some nr => simpa [h2] using ih

/-! Whole-text assembly for the alignment branches. -/

theorem mem_spaces (k : Nat) (c : Char) (hc : c ∈ spaces k) : c = ' ' := by
  unfold spaces at hc
  exact List.eq_of_mem_replicate hc

theorem renderCurrency_chars (cc iw : Nat) (l : List Char) (c : Char)
    (hc : c ∈ renderCurrency cc (normPfx iw (linePair l).1, (linePair l).2)) :
    c ∈ l ∨ c = ' ' := by
  cases hm : matchNumberLine l with
  | none =>
    rw [linePair_none l hm] at hc
    dsimp only at hc
    rw [renderCurrency_none] at hc
    exact mem_normPfx iw l c hc
  | some g =>
    obtain ⟨p, n, r⟩ := g
    rw [linePair_some l p n r hm] at hc
    dsimp only at hc
    rw [show renderCurrency cc (normPfx iw p, some (n, r)) =
      (normPfx iw p ++ spaces (cc - (normPfx iw p).length - n.length - 4)) ++
        ' ' :: ' ' :: (n ++ ' ' :: r) from rfl] at hc
    obtain ⟨w1, w2, hl, -, -, -, -, -, -, -, -⟩ := matchNumberLine_sound l p n r hm
    rcases List.mem_append.mp hc with h1 | h1
    · rcases List.mem_append.mp h1 with h2 | h2
      · rcases mem_normPfx iw p c h2 with h3 | h3
        · left
          rw [hl]
          simp [h3]
        · right
          exact h3
      · right
        exact mem_spaces _ c h2
    · rcases List.mem_cons.mp h1 with rfl | h2
      · right
        rfl
      · rcases List.mem_cons.mp h2 with rfl | h3
        · right
          rfl
        · rcases List.mem_append.mp h3 with h4 | h4
          · left
            rw [hl]
            simp [h4]
          · rcases List.mem_cons.mp h4 with rfl | h5
            · right
              rfl
            · left
              rw [hl]
              simp [h5]

theorem renderFixed_chars (PW NW iw : Nat) (l : List Char) (c : Char)
    (hc : c ∈ renderFixed PW NW (normPfx iw (linePair l).1, (linePair l).2)) :
    c ∈ l ∨ c = ' ' := by
  cases hm : matchNumberLine l with
  | none =>
    rw [linePair_none l hm] at hc
    dsimp only at hc
    rw [renderFixed_none] at hc
    exact mem_normPfx iw l c hc
  | some g =>
    obtain ⟨p, n, r⟩ := g
    rw [linePair_some l p n r hm] at hc
    dsimp only at hc
    rw [show renderFixed PW NW (normPfx iw p, some (n, r)) =
      (pyRstrip (normPfx iw p) ++ spaces (PW - (pyRstrip (normPfx iw p)).length)) ++
        ' ' :: ' ' :: ((spaces (NW - n.length) ++ n) ++ ' ' :: r) from rfl] at hc
    obtain ⟨w1, w2, hl, -, -, -, -, -, -, -, -⟩ := matchNumberLine_sound l p n r hm
    rcases List.mem_append.mp hc with h1 | h1
    · rcases List.mem_append.mp h1 with h2 | h2
      · rcases mem_normPfx iw p c (mem_pyRstrip _ c h2) with h3 | h3
        · left
          rw [hl]
          simp [h3]
        · right
          exact h3
      · right
        exact mem_spaces _ c h2
    · rcases List.mem_cons.mp h1 with rfl | h2
      · right
        rfl
      · rcases List.mem_cons.mp h2 with rfl | h3
        · right
          rfl
        · rcases List.mem_append.mp h3 with h4 | h4
          · rcases List.mem_append.mp h4 with h5 | h5
            · right
              exact mem_spaces _ c h5
            · left
              rw [hl]
              simp [h5]
          · rcases List.mem_cons.mp h4 with rfl | h5
            · right
              rfl
            · left
              rw [hl]
              simp [h5]

theorem alignCC_map (cc iw : Nat) (t : List Char) :
    alignCC cc iw t =
      joinLines ((pySplitlines t).map
        (fun l => renderCurrency cc (normPfx iw (linePair l).1, (linePair l).2))) := by
  unfold alignCC normalizeIndent matchPairs
  rw [List.map_map, List.map_map]
  rfl

theorem pySplitlines_renderCC (cc iw : Nat) (t : List Char) :
    pySplitlines (joinLines ((pySplitlines t).map
      (fun l => renderCurrency cc (normPfx iw (linePair l).1, (linePair l).2)))) =
    (pySplitlines t).map (fun l => renderCurrency cc (normPfx iw (linePair l).1, (linePair l).2)) := by
  apply pySplitlines_joinLines
  intro L hL c hc
  obtain ⟨l, hlmem, hLeq⟩ := List.mem_map.mp hL
  rw [← hLeq] at hc
  rcases renderCurrency_chars cc iw l c hc with h1 | rfl
  · exact pySplitlines_no_sep t l hlmem c h1
  · decide

theorem pySplitlines_renderFix (PW NW iw : Nat) (t : List Char) :
    pySplitlines (joinLines ((pySplitlines t).map
      (fun l => renderFixed PW NW (normPfx iw (linePair l).1, (linePair l).2)))) =
    (pySplitlines t).map (fun l => renderFixed PW NW (normPfx iw (linePair l).1, (linePair l).2)) := by
  apply pySplitlines_joinLines
  intro L hL c hc
  obtain ⟨l, hlmem, hLeq⟩ := List.mem_map.mp hL
  rw [← hLeq] at hc
  rcases renderFixed_chars PW NW iw l c hc with h1 | rfl
  · exact pySplitlines_no_sep t l hlmem c h1
  · decide

theorem pySplitlines_alignCC (cc iw : Nat) (t : List Char) :
    pySplitlines (alignCC cc iw t) =
      (pySplitlines t).map
        (fun l => renderCurrency cc (normPfx iw (linePair l).1, (linePair l).2)) := by
  rw [alignCC_map, pySplitlines_renderCC]

theorem alignCC_idem (cc iw : Nat) (hiw : 0 < iw) (t : List Char) :
    alignCC cc iw (alignCC cc iw t) = alignCC cc iw t := by
  rw [alignCC_map cc iw (alignCC cc iw t), pySplitlines_alignCC cc iw t, List.map_map]
  refine Eq.trans (congrArg joinLines (List.map_congr_left ?_)) (alignCC_map cc iw t).symm
  intro l hl
  show renderCurrency cc
      (normPfx iw
        (linePair (renderCurrency cc (normPfx iw (linePair l).1, (linePair l).2))).1,
        (linePair (renderCurrency cc (normPfx iw (linePair l).1, (linePair l).2))).2) =
    renderCurrency cc (normPfx iw (linePair l).1, (linePair l).2)
  rw [currency_line_pair cc iw hiw l]
  dsimp only
  rw [normPfx_idem]

theorem alignFixedOut_map (iw : Nat) (t : List Char) :
    alignFixedOut 4 0 iw t =
      joinLines ((pySplitlines t).map
        (fun l => renderFixed 4 (numWidth t) (normPfx iw (linePair l).1, (linePair l).2))) := by
  have h0 : alignFixedOut 4 0 iw t =
      joinLines ((normalizeIndent iw (matchPairs t)).map (renderFixed 4 (numWidth t))) := rfl
  rw [h0]
  unfold normalizeIndent matchPairs
  rw [List.map_map, List.map_map]
  rfl

theorem matchPairs_renderFix (PW NW iw : Nat) (hiw : 0 < iw) (t : List Char) :
    matchPairs (joinLines ((pySplitlines t).map
      (fun l => renderFixed PW NW (normPfx iw (linePair l).1, (linePair l).2)))) =
    (pySplitlines t).map (fun l => (normPfx iw (linePair l).1, (linePair l).2)) := by
  unfold matchPairs
  rw [pySplitlines_renderFix PW NW iw t, List.map_map]
  apply List.map_congr_left
  intro l hl2
  exact fixed_line_pair PW NW iw hiw l

theorem numWidth_alignFixedOut (iw : Nat) (hiw : 0 < iw) (t : List Char) :
    numWidth (alignFixedOut 4 0 iw t) = numWidth t := by
  have h1 : numWidth (alignFixedOut 4 0 iw t) =
      maxLen ((((pySplitlines t).map
        (fun l => (normPfx iw (linePair l).1, (linePair l).2))).filterMap
          (fun pr => pr.2.map (fun nr => (pr.1, nr.1)))).map Prod.snd) := by
    unfold numWidth
    rw [alignFixedOut_map iw t, matchPairs_renderFix 4 (numWidth t) iw hiw t]
  rw [h1, filtered_snd_eq iw (pySplitlines t)]
  rfl

theorem pySplitlines_alignFixedOut (iw : Nat) (t : List Char) :
    pySplitlines (alignFixedOut 4 0 iw t) =
      (pySplitlines t).map
        (fun l => renderFixed 4 (numWidth t) (normPfx iw (linePair l).1, (linePair l).2)) := by
  rw [alignFixedOut_map iw t, pySplitlines_renderFix 4 (numWidth t) iw t]

theorem alignFixedOut_idem (iw : Nat) (hiw : 0 < iw) (t : List Char) :
    alignFixedOut 4 0 iw (alignFixedOut 4 0 iw t) = alignFixedOut 4 0 iw t := by
  rw [alignFixedOut_map iw (alignFixedOut 4 0 iw t), numWidth_alignFixedOut iw hiw t,
    pySplitlines_alignFixedOut iw t, List.map_map]
  refine Eq.trans (congrArg joinLines (List.map_congr_left ?_)) (alignFixedOut_map iw t).symm
  intro l hl
  show renderFixed 4 (numWidth t)
      (normPfx iw
        (linePair (renderFixed 4 (numWidth t) (normPfx iw (linePair l).1, (linePair l).2))).1,
        (linePair (renderFixed 4 (numWidth t) (normPfx iw (linePair l).1, (linePair l).2))).2) =
    renderFixed 4 (numWidth t) (normPfx iw (linePair l).1, (linePair l).2)
  rw [fixed_line_pair 4 (numWidth t) iw hiw l]
  dsimp only
  rw [normPfx_idem]

theorem align_beancount_cc (pw nw cc iw : Nat) (hcc : cc ≠ 0) (t : List Char) :
    align_beancount pw nw cc iw t = some (alignCC cc iw t) := by
  have h : align_beancount pw nw cc iw t =
      if cc ≠ 0 then some (alignCC cc iw t)
      else
        if collapseWs t = collapseWs (alignFixedOut pw nw iw t)
        then some (alignFixedOut pw nw iw t) else none := rfl
  rw [h, if_pos hcc]

theorem align_beancount_fixed (pw nw iw : Nat) (t : List Char) :
    align_beancount pw nw 0 iw t =
      if collapseWs t = collapseWs (alignFixedOut pw nw iw t)
      then some (alignFixedOut pw nw iw t) else none := by
  have h : align_beancount pw nw 0 iw t =
      if (0 : Nat) ≠ 0 then some (alignCC 0 iw t)
      else
        if collapseWs t = collapseWs (alignFixedOut pw nw iw t)
        then some (alignFixedOut pw nw iw t) else none := rfl
  rw [h, if_neg (show ¬((0 : Nat) ≠ 0) by simp)]

theorem fixed_mode_idem (iw : Nat) (hiw : 0 < iw) (t u : List Char)
    (h : align_beancount 4 0 0 iw t = some u) :
    align_beancount 4 0 0 iw u = some u := by
  rw [align_beancount_fixed] at h
  by_cases hcol : collapseWs t = collapseWs (alignFixedOut 4 0 iw t)
  · rw [if_pos hcol] at h
    injection h with h2
    subst h2
    rw [align_beancount_fixed, alignFixedOut_idem iw hiw t, if_pos rfl]
  · rw [if_neg hcol] at h
    exact absurd h (by simp)

/-! Whitespace-collapse behaviour of the alignment branches (claim C3). -/

theorem colWords_block (q W n W2 r : List Char) (hW : W ≠ [])
    (hWws : ∀ c ∈ W, isColWs c = true) (hW2 : W2 ≠ [])
    (hW2ws : ∀ c ∈ W2, isColWs c = true) :
    colWords (q ++ (W ++ (n ++ (W2 ++ r)))) = colWords q ++ colWords n ++ colWords r := by
  show wordsBy isColWs (q ++ (W ++ (n ++ (W2 ++ r)))) = _
  rw [show q ++ (W ++ (n ++ (W2 ++ r))) = q ++ W ++ (n ++ W2 ++ r) from by simp,
    wordsBy_append_run isColWs q W (n ++ W2 ++ r) hW hWws,
    wordsBy_append_run isColWs n W2 r hW2 hW2ws]
  rw [List.append_assoc (colWords q) (colWords n) (colWords r)]
  rfl

theorem spaces_pos (k : Nat) (hk : 0 < k) : ∃ g, spaces k = ' ' :: g := by
  cases k with
  | zero => omega
  | succ k2 => exact ⟨spaces k2, by simp [spaces, List.replicate_succ]⟩

theorem spaces_append_two_head (k : Nat) (Y : List Char) :
    ∃ g, (spaces k ++ [' ', ' ']) ++ Y = ' ' :: g := by
  cases k with
  | zero => exact ⟨' ' :: Y, rfl⟩
  | succ k2 => exact ⟨(spaces k2 ++ [' ', ' ']) ++ Y, by simp [spaces, List.replicate_succ]⟩

theorem spaces_mid_head (k m : Nat) (Y : List Char) :
    ∃ g, (spaces k ++ (' ' :: ' ' :: spaces m)) ++ Y = ' ' :: g := by
  cases k with
  | zero => exact ⟨(' ' :: spaces m) ++ Y, rfl⟩
  | succ k2 =>
    exact ⟨(spaces k2 ++ (' ' :: ' ' :: spaces m)) ++ Y, by simp [spaces, List.replicate_succ]⟩

theorem normPfx_head_or (iw : Nat) (hiw : 0 < iw) (c : Char) (p2 X : List Char) :
    (∃ g, normPfx iw (c :: p2) ++ X = c :: g) ∨
    (isColWs c = true ∧ ∃ g, normPfx iw (c :: p2) ++ X = ' ' :: g) := by
  rcases normPfx_eq_or iw (c :: p2) with h | ⟨h1, h2, h⟩
  · left
    rw [h]
    exact ⟨p2 ++ X, rfl⟩
  · right
    refine ⟨?_, ?_⟩
    · rw [List.takeWhile_cons] at h1
      by_cases hic : isIndentWs c = true
      · exact indentWs_colWs c hic
      · simp [hic] at h1
    · obtain ⟨g3, hg3⟩ := spaces_pos iw hiw
      rw [h, hg3]
      exact ⟨g3 ++ (c :: p2).dropWhile isIndentWs ++ X, by simp⟩

/-- Rendering a line in currency mode preserves its column words (the
non-`[ \t\n]` runs) when the line's whitespace is only spaces, tabs and
newlines. -/
theorem colWords_renderCC (cc iw : Nat) (l : List Char)
    (hl : ∀ c ∈ l, isPySpace c = true → isColWs c = true) :
    colWords (renderCurrency cc (normPfx iw (linePair l).1, (linePair l).2)) = colWords l := by
  cases hm : matchNumberLine l with
  | none =>
    rw [linePair_none l hm]
    dsimp only
    rw [renderCurrency_none, colWords_normPfx]
  | some g0 =>
    obtain ⟨p, n, r⟩ := g0
    rw [linePair_some l p n r hm]
    dsimp only
    obtain ⟨w1, w2, hldec, hw1ne, hw2ne, hw1ws, hw2ws, -, -, -, -⟩ :=
      matchNumberLine_sound l p n r hm
    have hw1col : ∀ c ∈ w1, isColWs c = true := by
      intro c hc
      exact hl c (by rw [hldec]; simp [hc]) (hw1ws c hc)
    have hw2col : ∀ c ∈ w2, isColWs c = true := by
      intro c hc
      exact hl c (by rw [hldec]; simp [hc]) (hw2ws c hc)
    rw [renderCurrency_eq cc (normPfx iw p) n r,
      show (' ' :: r : List Char) = [' '] ++ r from rfl,
      colWords_block (normPfx iw p)
        (spaces (cc - (normPfx iw p).length - n.length - 4) ++ [' ', ' ']) n [' '] r
        (by simp)
        (by
          intro c hc
          rcases List.mem_append.mp hc with h2 | h2
          · rw [mem_spaces _ c h2]
            rfl
          · have h3 : c = ' ' ∨ c = ' ' := by simpa using h2
            rcases h3 with rfl | rfl <;> rfl)
        (by simp)
        (by
          intro c hc
          have h3 : c = ' ' := by simpa using hc
          rw [h3]
          rfl)]
    rw [colWords_normPfx, hldec,
      show p ++ (w1 ++ n ++ w2 ++ r) = p ++ (w1 ++ (n ++ (w2 ++ r))) from by simp,
      colWords_block p w1 n w2 r hw1ne hw1col hw2ne hw2col]

/-- Rendering a line in fixed-width mode preserves its column words when
the line's whitespace is only spaces, tabs and newlines. -/
theorem colWords_renderFix (PW NW iw : Nat) (l : List Char)
    (hl : ∀ c ∈ l, isPySpace c = true → isColWs c = true) :
    colWords (renderFixed PW NW (normPfx iw (linePair l).1, (linePair l).2)) = colWords l := by
  cases hm : matchNumberLine l with
  | none =>
    rw [linePair_none l hm]
    dsimp only
    rw [renderFixed_none, colWords_normPfx]
  | some g0 =>
    obtain ⟨p, n, r⟩ := g0
    rw [linePair_some l p n r hm]
    dsimp only
    obtain ⟨w1, w2, hldec, hw1ne, hw2ne, hw1ws, hw2ws, -, -, -, -⟩ :=
      matchNumberLine_sound l p n r hm
    have hw1col : ∀ c ∈ w1, isColWs c = true := by
      intro c hc
      exact hl c (by rw [hldec]; simp [hc]) (hw1ws c hc)
    have hw2col : ∀ c ∈ w2, isColWs c = true := by
      intro c hc
      exact hl c (by rw [hldec]; simp [hc]) (hw2ws c hc)
    rw [renderFixed_eq PW NW (normPfx iw p) n r (matched_normPfx_rstrip l p n r iw hm),
      show (' ' :: r : List Char) = [' '] ++ r from rfl,
      colWords_block (normPfx iw p)
        (spaces (PW - (normPfx iw p).length) ++ (' ' :: ' ' :: spaces (NW - n.length))) n [' '] r
        (by simp)
        (by
          intro c hc
          rcases List.mem_append.mp hc with h2 | h2
          · rw [mem_spaces _ c h2]
            rfl
          · rcases List.mem_cons.mp h2 with rfl | h3
            · rfl
            · rcases List.mem_cons.mp h3 with rfl | h4
              · rfl
              · rw [mem_spaces _ c h4]
                rfl)
        (by simp)
        (by
          intro c hc
          have h3 : c = ' ' := by simpa using hc
          rw [h3]
          rfl)]
    rw [colWords_normPfx, hldec,
      show p ++ (w1 ++ n ++ w2 ++ r) = p ++ (w1 ++ (n ++ (w2 ++ r))) from by simp,
      colWords_block p w1 n w2 r hw1ne hw1col hw2ne hw2col]

/-- A rendered currency-mode line whose source line starts with `c`
starts with a character of the same `[ \t\n]`-class as `c`. -/
theorem renderCC_head (cc iw : Nat) (hiw : 0 < iw) (c : Char) (l2 : List Char)
    (hcp : isPySpace c = false ∨ isColWs c = true) :
    ∃ d g, renderCurrency cc (normPfx iw (linePair (c :: l2)).1, (linePair (c :: l2)).2) =
      d :: g ∧ isColWs d = isColWs c := by
  cases hm : matchNumberLine (c :: l2) with
  | none =>
    rw [linePair_none _ hm]
    dsimp only
    rw [renderCurrency_none]
    rcases normPfx_head_or iw hiw c l2 [] with ⟨g, hg⟩ | ⟨hcw, g, hg⟩
    · rw [List.append_nil] at hg
      exact ⟨c, g, hg, rfl⟩
    · rw [List.append_nil] at hg
      exact ⟨' ', g, hg, by rw [hcw]; rfl⟩
  | some g0 =>
    obtain ⟨p, n, r⟩ := g0
    obtain ⟨w1, w2, hldec, hw1ne, -, hw1ws, -, -, -, -, hok⟩ :=
      matchNumberLine_sound _ p n r hm
    rw [linePair_some _ p n r hm]
    dsimp only
    rw [renderCurrency_eq]
    rcases p with _ | ⟨pc, p2⟩
    · have hcws : isPySpace c = true := by
        by_contra hcon
        have h9 : tryParseAt (c :: l2) = none :=
          tryParseAt_head_not_ws c l2 (by simpa using hcon)
        rw [List.nil_append] at hldec
        rw [← hldec] at hok
        rw [h9] at hok
        exact Option.noConfusion hok
      have hccol : isColWs c = true := by
        rcases hcp with h | h
        · exact absurd hcws (by simp [h])
        · exact h
      rw [show normPfx iw ([] : List Char) = [] from rfl, List.nil_append]
      obtain ⟨g2, hg2⟩ :=
        spaces_append_two_head (cc - ([] : List Char).length - n.length - 4) (n ++ (' ' :: r))
      exact ⟨' ', g2, hg2, by rw [hccol]; rfl⟩
    · have hpc : pc = c := by
        rw [List.cons_append] at hldec
        injection hldec with h1 h2
        exact h1.symm
      subst hpc
      rcases normPfx_head_or iw hiw pc p2
          ((spaces (cc - (normPfx iw (pc :: p2)).length - n.length - 4) ++ [' ', ' ']) ++
            (n ++ (' ' :: r))) with ⟨g, hg⟩ | ⟨hcw, g, hg⟩
      · exact ⟨pc, g, hg, rfl⟩
      · exact ⟨' ', g, hg, by rw [hcw]; rfl⟩

/-- A rendered fixed-width-mode line whose source line starts with `c`
starts with a character of the same `[ \t\n]`-class as `c`. -/
theorem renderFix_head (PW NW iw : Nat) (hiw : 0 < iw) (c : Char) (l2 : List Char)
    (hcp : isPySpace c = false ∨ isColWs c = true) :
    ∃ d g, renderFixed PW NW (normPfx iw (linePair (c :: l2)).1, (linePair (c :: l2)).2) =
      d :: g ∧ isColWs d = isColWs c := by
  cases hm : matchNumberLine (c :: l2) with
  | none =>
    rw [linePair_none _ hm]
    dsimp only
    rw [renderFixed_none]
    rcases normPfx_head_or iw hiw c l2 [] with ⟨g, hg⟩ | ⟨hcw, g, hg⟩
    · rw [List.append_nil] at hg
      exact ⟨c, g, hg, rfl⟩
    · rw [List.append_nil] at hg
      exact ⟨' ', g, hg, by rw [hcw]; rfl⟩
  | some g0 =>
    obtain ⟨p, n, r⟩ := g0
    obtain ⟨w1, w2, hldec, hw1ne, -, hw1ws, -, -, -, -, hok⟩ :=
      matchNumberLine_sound _ p n r hm
    rw [linePair_some _ p n r hm]
    dsimp only
    rw [renderFixed_eq PW NW (normPfx iw p) n r (matched_normPfx_rstrip _ p n r iw hm)]
    rcases p with _ | ⟨pc, p2⟩
    · have hcws : isPySpace c = true := by
        by_contra hcon
        have h9 : tryParseAt (c :: l2) = none :=
          tryParseAt_head_not_ws c l2 (by simpa using hcon)
        rw [List.nil_append] at hldec
        rw [← hldec] at hok
        rw [h9] at hok
        exact Option.noConfusion hok
      have hccol : isColWs c = true := by
        rcases hcp with h | h
        · exact absurd hcws (by simp [h])
        · exact h
      rw [show normPfx iw ([] : List Char) = [] from rfl, List.nil_append]
      obtain ⟨g2, hg2⟩ :=
        spaces_mid_head (PW - ([] : List Char).length) (NW - n.length) (n ++ (' ' :: r))
      exact ⟨' ', g2, hg2, by rw [hccol]; rfl⟩
    · have hpc : pc = c := by
        rw [List.cons_append] at hldec
        injection hldec with h1 h2
        exact h1.symm
      subst hpc
      rcases normPfx_head_or iw hiw pc p2
          ((spaces (PW - (normPfx iw (pc :: p2)).length) ++
            (' ' :: ' ' :: spaces (NW - n.length))) ++ (n ++ (' ' :: r))) with
        ⟨g, hg⟩ | ⟨hcw, g, hg⟩
      · exact ⟨pc, g, hg, rfl⟩
      · exact ⟨' ', g, hg, by rw [hcw]; rfl⟩

theorem line_ws (t : List Char) (hws : ∀ c ∈ t, isPySpace c = true → isColWs c = true)
    (l : List Char) (hl : l ∈ pySplitlines t) :
    ∀ c ∈ l, isPySpace c = true → isColWs c = true :=
  fun c hc hp => hws c (mem_pySplitlines t l hl c hc) hp

theorem ws_sep_nl (t : List Char) (hws : ∀ c ∈ t, isPySpace c = true → isColWs c = true) :
    ∀ c ∈ t, isLineSep c = true → c = '\n' :=
  fun c hc hs => lineSep_colWs_eq_nl c hs (hws c hc (lineSep_pySpace c hs))

theorem mem_joinLines (ls : List (List Char)) (c : Char) :
    c ∈ joinLines ls → (∃ l ∈ ls, c ∈ l) ∨ c = '\n' := by
  induction ls with
  | nil =>
    intro hc
    simp [joinLines] at hc
  | cons l ls2 ih =>
    intro hc
    rw [joinLines_cons] at hc
    rcases List.mem_append.mp hc with h1 | h1
    · exact Or.inl ⟨l, by simp, h1⟩
    · rcases List.mem_cons.mp h1 with rfl | h2
      · exact Or.inr rfl
      · rcases ih h2 with ⟨l2, hl2, hcl2⟩ | h3
        · exact Or.inl ⟨l2, by simp [hl2], hcl2⟩
        · exact Or.inr h3

theorem alignFixedOut_map_gen (pw nw iw : Nat) (t : List Char) :
    ∃ PW NW, alignFixedOut pw nw iw t =
      joinLines ((pySplitlines t).map
        (fun l => renderFixed PW NW (normPfx iw (linePair l).1, (linePair l).2))) := by
  refine ⟨if pw ≠ 0 then pw else
      maxLen (((matchPairs t).filterMap
        (fun pr => pr.2.map (fun nr => (pr.1, nr.1)))).map Prod.fst),
    if nw ≠ 0 then nw else
      maxLen (((matchPairs t).filterMap
        (fun pr => pr.2.map (fun nr => (pr.1, nr.1)))).map Prod.snd), ?_⟩
  have h0 : alignFixedOut pw nw iw t =
      joinLines ((normalizeIndent iw (matchPairs t)).map (renderFixed
        (if pw ≠ 0 then pw else
          maxLen (((matchPairs t).filterMap
            (fun pr => pr.2.map (fun nr => (pr.1, nr.1)))).map Prod.fst))
        (if nw ≠ 0 then nw else
          maxLen (((matchPairs t).filterMap
            (fun pr => pr.2.map (fun nr => (pr.1, nr.1)))).map Prod.snd)))) := rfl
  rw [h0]
  unfold normalizeIndent matchPairs
  rw [List.map_map, List.map_map]
  rfl

theorem colWords_alignCC (cc iw : Nat) (t : List Char)
    (hws : ∀ c ∈ t, isPySpace c = true → isColWs c = true) :
    colWords (alignCC cc iw t) = colWords t := by
  rw [alignCC_map, colWords_joinLines, List.map_map, colWords_flatten t (ws_sep_nl t hws)]
  congr 1
  apply List.map_congr_left
  intro l hl
  exact colWords_renderCC cc iw l (line_ws t hws l hl)

theorem colWords_alignFixedOut (pw nw iw : Nat) (t : List Char)
    (hws : ∀ c ∈ t, isPySpace c = true → isColWs c = true) :
    colWords (alignFixedOut pw nw iw t) = colWords t := by
  obtain ⟨PW, NW, hmap⟩ := alignFixedOut_map_gen pw nw iw t
  rw [hmap, colWords_joinLines, List.map_map, colWords_flatten t (ws_sep_nl t hws)]
  congr 1
  apply List.map_congr_left
  intro l hl
  exact colWords_renderFix PW NW iw l (line_ws t hws l hl)

theorem ws_alignCC (cc iw : Nat) (t : List Char)
    (hws : ∀ c ∈ t, isPySpace c = true → isColWs c = true) :
    ∀ c ∈ alignCC cc iw t, isPySpace c = true → isColWs c = true := by
  intro c hc hp
  rw [alignCC_map] at hc
  rcases mem_joinLines _ c hc with ⟨L, hL, hcL⟩ | rfl
  · obtain ⟨l, hlmem, hLeq⟩ := List.mem_map.mp hL
    rw [← hLeq] at hcL
    rcases renderCurrency_chars cc iw l c hcL with h1 | rfl
    · exact hws c (mem_pySplitlines t l hlmem c h1) hp
    · rfl
  · rfl

theorem ws_alignFixedOut (pw nw iw : Nat) (t : List Char)
    (hws : ∀ c ∈ t, isPySpace c = true → isColWs c = true) :
    ∀ c ∈ alignFixedOut pw nw iw t, isPySpace c = true → isColWs c = true := by
  obtain ⟨PW, NW, hmap⟩ := alignFixedOut_map_gen pw nw iw t
  intro c hc hp
  rw [hmap] at hc
  rcases mem_joinLines _ c hc with ⟨L, hL, hcL⟩ | rfl
  · obtain ⟨l, hlmem, hLeq⟩ := List.mem_map.mp hL
    rw [← hLeq] at hcL
    rcases renderFixed_chars PW NW iw l c hcL with h1 | rfl
    · exact hws c (mem_pySplitlines t l hlmem c h1) hp
    · rfl
  · rfl

theorem pySplitlines_head_notsep (c : Char) (cs : List Char) (hsep : isLineSep c = false) :
    ∃ l2 ls, pySplitlines (c :: cs) = (c :: l2) :: ls := by
  rw [pySplitlines_cons_notsep c cs hsep]
  cases hsp : pySplitlines cs with
  | nil => exact ⟨[], [], rfl⟩
  | cons l ls => exact ⟨l, ls, rfl⟩

theorem wsLead_alignCC (cc iw : Nat) (hiw : 0 < iw) (t : List Char) (hne : t ≠ [])
    (hws : ∀ c ∈ t, isPySpace c = true → isColWs c = true) :
    wsLead (alignCC cc iw t) = wsLead t := by
  obtain ⟨c, t2, rfl⟩ : ∃ c t2, t = c :: t2 := by
    cases t with
    | nil => exact absurd rfl hne
    | cons c t2 => exact ⟨c, t2, rfl⟩
  rw [alignCC_map]
  by_cases hsep1 : isLineSep c = true
  · have hcnl : c = '\n' := ws_sep_nl _ hws c (by simp) hsep1
    subst hcnl
    rw [pySplitlines_cons_sep '\n' t2 (by decide)
      (fun t3 h1 h2 => absurd h1 (by decide))]
    rw [List.map_cons, joinLines_cons]
    rw [show renderCurrency cc
      (normPfx iw (linePair ([] : List Char)).1, (linePair ([] : List Char)).2) = []
      from rfl]
    rfl
  · have hsepb : isLineSep c = false := by simpa using hsep1
    have hcp : isPySpace c = false ∨ isColWs c = true := by
      cases hp : isPySpace c with
      | false => exact Or.inl rfl
      | true => exact Or.inr (hws c (by simp) hp)
    obtain ⟨l2, ls, hsp⟩ := pySplitlines_head_notsep c t2 hsepb
    rw [hsp, List.map_cons, joinLines_cons]
    obtain ⟨d, g, hdg, hdc⟩ := renderCC_head cc iw hiw c l2 hcp
    rw [hdg]
    show isColWs d = isColWs c
    exact hdc

theorem wsLead_alignFixedOut (pw nw iw : Nat) (hiw : 0 < iw) (t : List Char) (hne : t ≠ [])
    (hws : ∀ c ∈ t, isPySpace c = true → isColWs c = true) :
    wsLead (alignFixedOut pw nw iw t) = wsLead t := by
  obtain ⟨PW, NW, hmap⟩ := alignFixedOut_map_gen pw nw iw t
  obtain ⟨c, t2, rfl⟩ : ∃ c t2, t = c :: t2 := by
    cases t with
    | nil => exact absurd rfl hne
    | cons c t2 => exact ⟨c, t2, rfl⟩
  rw [hmap]
  by_cases hsep1 : isLineSep c = true
  · have hcnl : c = '\n' := ws_sep_nl _ hws c (by simp) hsep1
    subst hcnl
    rw [pySplitlines_cons_sep '\n' t2 (by decide)
      (fun t3 h1 h2 => absurd h1 (by decide))]
    rw [List.map_cons, joinLines_cons]
    rw [show renderFixed PW NW
      (normPfx iw (linePair ([] : List Char)).1, (linePair ([] : List Char)).2) = []
      from rfl]
    rfl
  · have hsepb : isLineSep c = false := by simpa using hsep1
    have hcp : isPySpace c = false ∨ isColWs c = true := by
      cases hp : isPySpace c with
      | false => exact Or.inl rfl
      | true => exact Or.inr (hws c (by simp) hp)
    obtain ⟨l2, ls, hsp⟩ := pySplitlines_head_notsep c t2 hsepb
    rw [hsp, List.map_cons, joinLines_cons]
    obtain ⟨d, g, hdg, hdc⟩ := renderFix_head PW NW iw hiw c l2 hcp
    rw [hdg]
    show isColWs d = isColWs c
    exact hdc

theorem collapse_alignCC (cc iw : Nat) (hiw : 0 < iw) (t : List Char)
    (hws : ∀ c ∈ t, isPySpace c = true → isColWs c = true) :
    collapseWs (alignCC cc iw t) = collapseWs t := by
  rw [collapse_canon t hws, collapse_canon (alignCC cc iw t) (ws_alignCC cc iw t hws)]
  unfold wsCanon
  rw [colWords_alignCC cc iw t hws]
  by_cases h : colWords t = []
  · rw [if_pos h, if_pos h]
  · rw [if_neg h, if_neg h]
    have hne : t ≠ [] := by
      intro hcon
      rw [hcon] at h
      exact h rfl
    rw [wsLead_alignCC cc iw hiw t hne hws]

theorem collapse_alignFixedOut (pw nw iw : Nat) (hiw : 0 < iw) (t : List Char)
    (hws : ∀ c ∈ t, isPySpace c = true → isColWs c = true) :
    collapseWs (alignFixedOut pw nw iw t) = collapseWs t := by
  rw [collapse_canon t hws,
    collapse_canon (alignFixedOut pw nw iw t) (ws_alignFixedOut pw nw iw t hws)]
  unfold wsCanon
  rw [colWords_alignFixedOut pw nw iw t hws]
  by_cases h : colWords t = []
  · rw [if_pos h, if_pos h]
  · rw [if_neg h, if_neg h]
    have hne : t ≠ [] := by
      intro hcon
      rw [hcon] at h
      exact h rfl
    rw [wsLead_alignFixedOut pw nw iw hiw t hne hws]

/-- C3 counterexample: on the input `"a\x1cb"` (FILE SEPARATOR between
two letters) the currency-column branch returns successfully — the
runtime self-check does not run on this branch — and its output
`"a\nb\n"` does not collapse (spaces/tabs/newlines runs to one space,
edges trimmed) to the same string as the input, because `str.splitlines`
also breaks on `\x1c`, turning a non-`[ \t\n]` character into a
newline. -/
theorem align_whitespace_counterexample :
    align_beancount 4 0 90 4 ['a', '\x1c', 'b'] = some (alignCC 90 4 ['a', '\x1c', 'b']) ∧
    collapseWs (alignCC 90 4 ['a', '\x1c', 'b']) ≠ collapseWs ['a', '\x1c', 'b'] := by
  constructor
  · with_unfolding_all decide
  · with_unfolding_all decide

/-- C3 (corrected): provided every whitespace character of the input is
a plain space, tab or newline and the indent width is positive,
alignment only changes whitespace: in both modes the output's
whitespace-collapsed form (runs of `[ \t\n]` to a single space, right
edge trimmed) equals the input's, the currency-column branch returns
its output without ever running the self-check, and the fixed-width
branch's runtime `assert` (present only on that branch) therefore
passes and the call returns its output.  The restriction is necessary:
on other Python whitespace the collapsed forms can differ, because
`str.splitlines` turns the separator controls, NEL and U+2028/U+2029
into line breaks (see the counterexample), and the `\s+` runs around a
matched number absorb characters such as NBSP and the unicode spaces,
which the rewrite replaces by plain spaces. -/
theorem align_whitespace_spec (pw nw cc iw : Nat) (hiw : 0 < iw) (t : List Char)
    (hws : ∀ c ∈ t, isPySpace c = true → isColWs c = true) :
    (cc ≠ 0 → align_beancount pw nw cc iw t = some (alignCC cc iw t) ∧
      collapseWs (alignCC cc iw t) = collapseWs t) ∧
    (align_beancount pw nw 0 iw t = some (alignFixedOut pw nw iw t) ∧
      collapseWs (alignFixedOut pw nw iw t) = collapseWs t) := by
  constructor
  · intro hcc
    exact ⟨align_beancount_cc pw nw cc iw hcc t, collapse_alignCC cc iw hiw t hws⟩
  · have h2 := collapse_alignFixedOut pw nw iw hiw t hws
    refine ⟨?_, h2⟩
    rw [align_beancount_fixed, if_pos h2.symm]

/-- Closed instance of C3 on the line `"  Assets:A  1.00 USD"`. -/
theorem align_whitespace_spec_witness :
    (0 < 4 ∧
      (∀ c ∈ ([' ', ' ', 'A', 's', 's', 'e', 't', 's', ':', 'A', ' ', ' ',
        '1', '.', '0', '0', ' ', 'U', 'S', 'D'] : List Char),
        isPySpace c = true → isColWs c = true)) ∧
    (align_beancount 4 0 59 4
        [' ', ' ', 'A', 's', 's', 'e', 't', 's', ':', 'A', ' ', ' ',
          '1', '.', '0', '0', ' ', 'U', 'S', 'D'] =
      some (alignCC 59 4
        [' ', ' ', 'A', 's', 's', 'e', 't', 's', ':', 'A', ' ', ' ',
          '1', '.', '0', '0', ' ', 'U', 'S', 'D']) ∧
      collapseWs (alignCC 59 4
        [' ', ' ', 'A', 's', 's', 'e', 't', 's', ':', 'A', ' ', ' ',
          '1', '.', '0', '0', ' ', 'U', 'S', 'D']) =
      collapseWs [' ', ' ', 'A', 's', 's', 'e', 't', 's', ':', 'A', ' ', ' ',
        '1', '.', '0', '0', ' ', 'U', 'S', 'D']) ∧
    (align_beancount 4 0 0 4
        [' ', ' ', 'A', 's', 's', 'e', 't', 's', ':', 'A', ' ', ' ',
          '1', '.', '0', '0', ' ', 'U', 'S', 'D'] =
      some (alignFixedOut 4 0 4
        [' ', ' ', 'A', 's', 's', 'e', 't', 's', ':', 'A', ' ', ' ',
          '1', '.', '0', '0', ' ', 'U', 'S', 'D']) ∧
      collapseWs (alignFixedOut 4 0 4
        [' ', ' ', 'A', 's', 's', 'e', 't', 's', ':', 'A', ' ', ' ',
          '1', '.', '0', '0', ' ', 'U', 'S', 'D']) =
      collapseWs [' ', ' ', 'A', 's', 's', 'e', 't', 's', ':', 'A', ' ', ' ',
        '1', '.', '0', '0', ' ', 'U', 'S', 'D']) :=
  ⟨⟨by decide, by decide⟩,
    (align_whitespace_spec 4 0 59 4 (by decide)
        [' ', ' ', 'A', 's', 's', 'e', 't', 's', ':', 'A', ' ', ' ',
          '1', '.', '0', '0', ' ', 'U', 'S', 'D'] (by decide)).1 (by decide),
    (align_whitespace_spec 4 0 59 4 (by decide)
        [' ', ' ', 'A', 's', 's', 'e', 't', 's', ':', 'A', ' ', ' ',
          '1', '.', '0', '0', ' ', 'U', 'S', 'D'] (by decide)).2⟩

/-- C7: alignment is idempotent.  With the source's default
`prefix_width = 4` and `num_width = None` (0), for every input text and
every positive indent width: in currency-column mode (`cc ≠ 0`) aligning
the aligned text returns it unchanged, and in fixed-width mode whenever
`align_beancount` succeeds with output `u`, aligning `u` again succeeds
and returns `u` itself. -/
theorem align_idempotent_spec (cc iw : Nat) (hcc : cc ≠ 0) (hiw : 0 < iw) (t u : List Char) :
    ((align_beancount 4 0 cc iw t).bind (align_beancount 4 0 cc iw) =
      align_beancount 4 0 cc iw t) ∧
    (align_beancount 4 0 0 iw t = some u → align_beancount 4 0 0 iw u = some u) := by
  constructor
  · rw [align_beancount_cc 4 0 cc iw hcc t]
    show align_beancount 4 0 cc iw (alignCC cc iw t) = some (alignCC cc iw t)
    rw [align_beancount_cc 4 0 cc iw hcc (alignCC cc iw t), alignCC_idem cc iw hiw t]
  · exact fixed_mode_idem iw hiw t u

/-- Closed instance of C7 on the line `"  Assets:A  1.00 USD"`. -/
theorem align_idempotent_spec_witness :
    align_beancount 4 0 0 4
        [' ', ' ', 'A', 's', 's', 'e', 't', 's', ':', 'A', ' ', ' ',
          '1', '.', '0', '0', ' ', 'U', 'S', 'D'] =
      some [' ', ' ', ' ', ' ', 'A', 's', 's', 'e', 't', 's', ':', 'A', ' ', ' ',
        '1', '.', '0', '0', ' ', 'U', 'S', 'D', '\n'] ∧
    align_beancount 4 0 0 4
        [' ', ' ', ' ', ' ', 'A', 's', 's', 'e', 't', 's', ':', 'A', ' ', ' ',
          '1', '.', '0', '0', ' ', 'U', 'S', 'D', '\n'] =
      some [' ', ' ', ' ', ' ', 'A', 's', 's', 'e', 't', 's', ':', 'A', ' ', ' ',
        '1', '.', '0', '0', ' ', 'U', 'S', 'D', '\n'] ∧
    (align_beancount 4 0 59 4
        [' ', ' ', 'A', 's', 's', 'e', 't', 's', ':', 'A', ' ', ' ',
          '1', '.', '0', '0', ' ', 'U', 'S', 'D']).bind (align_beancount 4 0 59 4) =
      align_beancount 4 0 59 4
        [' ', ' ', 'A', 's', 's', 'e', 't', 's', ':', 'A', ' ', ' ',
          '1', '.', '0', '0', ' ', 'U', 'S', 'D'] :=
  ⟨by with_unfolding_all decide,
    (align_idempotent_spec 59 4 (by decide) (by decide)
        [' ', ' ', 'A', 's', 's', 'e', 't', 's', ':', 'A', ' ', ' ',
          '1', '.', '0', '0', ' ', 'U', 'S', 'D']
        [' ', ' ', ' ', ' ', 'A', 's', 's', 'e', 't', 's', ':', 'A', ' ', ' ',
          '1', '.', '0', '0', ' ', 'U', 'S', 'D', '\n']).2
      (by with_unfolding_all decide),
    (align_idempotent_spec 59 4 (by decide) (by decide)
        [' ', ' ', 'A', 's', 's', 'e', 't', 's', ':', 'A', ' ', ' ',
          '1', '.', '0', '0', ' ', 'U', 'S', 'D']
        [' ', ' ', ' ', ' ', 'A', 's', 's', 'e', 't', 's', ':', 'A', ' ', ' ',
          '1', '.', '0', '0', ' ', 'U', 'S', 'D', '\n']).1⟩

end Pinto
